import Mathlib

/-!
Shallow embedding of the core of the `post-align` alignment refinement tool
(positional sequence containers, CIGAR decoding, PAF assembly, codon-alignment
gap realignment), together with theorems settling the specification claims.

Python
lists become Lean `List`s, byte strings become lists of `Nat` byte codes,
Python `int` becomes `Int` (or `Nat` where the source value is always a
non-negative index/count), float scores become `ℚ` (score values never decide
any claim proved here), and raising `ValueError` becomes returning
`Except.error`.

Two generations of the sequence data model coexist in the source tree and are
both embedded:

* the per-symbol model (`NAPos` below): sequences are `List NAPos`, used by
  `utils/cigar.py`, `parsers/paf.py`, `utils/group_by_codons.py`,
  `processors/codon_alignment.py` and `models/_sequence.py`.  The class
  providing its constructors (`init_from_bytes`, `init_gaps`, `set_flag`,
  `count_nongaps`, ...) is not present in the tree (only its callers,
  `models/aa_position.py`'s parallel signatures and the tests), so those
  constructors are modelled from the spec (§3, §4.1);
* the container model (`NAPosition` below), translated directly from
  `models/na_position.py`.
-/

/-! ## Per-symbol position model

One nucleotide position: a single-byte code, a 1-based coordinate
(`-1` for gaps) and a bitset of status flags.  The source class stores the
byte in a field named `notation`; that identifier is renamed `code` here. -/

/-- `PositionFlag` from `models/position_flag.py`, as bit masks. -/
def PositionFlag.UNALIGNED : Nat := 0x10

/-- `TRIM_BY_SEQ` flag bit from `models/position_flag.py`. -/
def PositionFlag.TRIM_BY_SEQ : Nat := 0x01

/-- Modelled from the spec: one symbol of the per-symbol `NAPosition` model
(§3 "Symbol"): a single-byte code (the source field `notation`),
an integer `pos` (1-based coordinate or -1 for gaps) and a flag bitset. -/
structure NAPos where
  code : Nat
  pos : Int
  flag : Nat
  deriving Repr, DecidableEq

/-- Gap byte codes: `.` and `-` (`GAP_CHARS` in the source). -/
def isGapByte (b : Nat) : Bool := b == 45 || b == 46

/-- The per-symbol `is_gap` attribute: true iff the byte is a gap marker. -/
def NAPos.is_gap (na : NAPos) : Bool := isGapByte na.code

/-- Modelled from the spec: `init_gaps(n)` produces `n` gap symbols with no
coordinates (§4.1); output gap symbols are normalized to `-` (§6). -/
def NAPos.init_gaps (gaplen : Nat) : List NAPos :=
  List.replicate gaplen ⟨45, -1, 0⟩

/-- Uppercase an ASCII byte (Python `bytes.upper`). -/
def upperByte (b : Nat) : Nat := if 97 ≤ b ∧ b ≤ 122 then b - 32 else b

/-- Coordinate assignment of `init_from_bytes`: non-gap bytes get 1, 2, ... in
order, gap bytes get -1 (spec §4.1; same algorithm as `enumerate_seq_pos`). -/
def enumPos (bs : List Nat) (offset : Int) : List Int :=
  match bs with
  | [] => []
  | b :: rest =>
    if isGapByte b then -1 :: enumPos rest offset
    else offset :: enumPos rest (offset + 1)

/-- Modelled from the spec: `init_from_bytes(raw)` assigns coordinates `1..N`
to non-gap bytes in order and `-1` to gap bytes, upper-cased on input
(§4.1); all flags start empty. -/
def NAPos.init_from_bytes (bs : List Nat) : List NAPos :=
  (List.zip (bs.map upperByte) (enumPos (bs.map upperByte) 1)).map
    (fun p => ⟨p.1, p.2, 0⟩)

/-- Modelled from the spec: `set_flag` applies a flag to every symbol in the
span (§4.1); bitmask or. -/
def NAPos.set_flag (nas : List NAPos) (f : Nat) : List NAPos :=
  nas.map (fun na => ⟨na.code, na.pos, na.flag ||| f⟩)

/-- Number of gap symbols in a span (`count_gaps`). -/
def NAPos.count_gaps (nas : List NAPos) : Nat :=
  (nas.filter (fun na => na.is_gap)).length

/-- Number of non-gap symbols in a span (`count_nongaps`). -/
def NAPos.count_nongaps (nas : List NAPos) : Nat :=
  (nas.filter (fun na => !na.is_gap)).length

/-- `any_has_gap` from the per-symbol model. -/
def NAPos.any_has_gap (nas : List NAPos) : Bool :=
  nas.any (fun na => na.is_gap)

/-- `all_have_gap` from the per-symbol model. -/
def NAPos.all_have_gap (nas : List NAPos) : Bool :=
  nas.all (fun na => na.is_gap)

/-- `as_bytes`: the byte codes of a span. -/
def NAPos.as_bytes (nas : List NAPos) : List Nat :=
  nas.map (fun na => na.code)

/-- `as_str`: render a span as a string of its byte codes. -/
def NAPos.as_str (nas : List NAPos) : String :=
  ⟨(nas.map (fun na => Char.ofNat na.code))⟩

/-- The non-gap symbols of a track, in order. -/
def nonGapSyms (nas : List NAPos) : List NAPos :=
  nas.filter (fun na => !na.is_gap)

/-! ## Python sequence primitives

`pySlice l a b` is `l[a:b]` and `pySetSlice l a b v` is `l[a:b] = v`
(non-negative indices, Python clamping semantics; for `b < a` Python treats
the target slice as empty at position `a`). `pyInsertAt l i v` is
`l[i:i] = v`. -/

def pySlice (l : List α) (a b : Nat) : List α := (l.drop a).take (b - a)

def pySetSlice (l : List α) (a b : Nat) (v : List α) : List α :=
  l.take a ++ v ++ l.drop (max a b)

def pyInsertAt (l : List α) (i : Nat) (v : List α) : List α :=
  l.take i ++ v ++ l.drop i

/-! ## Decimal rendering and parsing

Needed because `CIGAR.shrink_by_ref` rebuilds an operation string with
`'{}{}'.format(num, op)` and re-parses it in `CIGAR.__init__`. -/

/-- `int(s)` on a non-empty string of decimal digits. -/
def charsToNat (l : List Char) : Nat :=
  l.foldl (fun n c => 10 * n + (c.toNat - 48)) 0

/-- Big-endian decimal digits of `n` (empty for `n = 0`); the fuel argument
only bounds the recursion depth and `fuel ≥ n` makes it irrelevant. -/
def natToCharsAux : Nat → Nat → List Char
  | 0, _ => []
  | fuel + 1, n =>
    if n = 0 then []
    else natToCharsAux fuel (n / 10) ++ [Char.ofNat (48 + n % 10)]

/-- `'{}'.format(n)`: decimal digits of `n`, big-endian. -/
def natToChars (n : Nat) : List Char :=
  if n = 0 then ['0'] else natToCharsAux n n

theorem charsToNat_append (l1 l2 : List Char) :
    charsToNat (l1 ++ l2)
      = l2.foldl (fun n c => 10 * n + (c.toNat - 48)) (charsToNat l1) := by
  unfold charsToNat
  rw [List.foldl_append]

theorem toNat_digitChar {d : Nat} (hd : d < 10) :
    (Char.ofNat (48 + d)).toNat - 48 = d := by
  interval_cases d <;> decide

theorem natToCharsAux_correct :
    ∀ n fuel, n ≤ fuel → charsToNat (natToCharsAux fuel n) = n := by
  intro n
  induction n using Nat.strong_induction_on with
  | _ n ih =>
    intro fuel hle
    match fuel with
    | 0 =>
      have : n = 0 := Nat.le_zero.mp hle
      simp [this, natToCharsAux, charsToNat]
    | fuel + 1 =>
      by_cases h0 : n = 0
      · simp [h0, natToCharsAux, charsToNat]
      · rw [natToCharsAux, if_neg h0, charsToNat_append]
        simp only [List.foldl_cons, List.foldl_nil]
        have hdiv : n / 10 < n := Nat.div_lt_self (Nat.pos_of_ne_zero h0) (by norm_num)
        rw [ih (n / 10) hdiv fuel (by omega)]
        rw [toNat_digitChar (Nat.mod_lt n (by norm_num))]
        omega

theorem charsToNat_natToChars (n : Nat) : charsToNat (natToChars n) = n := by
  unfold natToChars
  by_cases h : n = 0
  · simp [h]; decide
  · rw [if_neg h]; exact natToCharsAux_correct n n le_rfl

theorem natToCharsAux_ne_nil {n fuel : Nat} (h : n ≠ 0) (hle : n ≤ fuel) :
    natToCharsAux fuel n ≠ [] := by
  match fuel with
  | 0 => omega
  | fuel + 1 =>
    rw [natToCharsAux, if_neg h]
    simp

theorem natToChars_ne_nil (n : Nat) : natToChars n ≠ [] := by
  unfold natToChars
  by_cases h : n = 0
  · simp [h]
  · rw [if_neg h]; exact natToCharsAux_ne_nil h le_rfl

theorem isDigit_digitChar {d : Nat} (hd : d < 10) :
    (Char.ofNat (48 + d)).isDigit = true := by
  interval_cases d <;> decide

theorem natToCharsAux_all_digit (fuel n : Nat) :
    ∀ c ∈ natToCharsAux fuel n, c.isDigit = true := by
  induction fuel generalizing n with
  | zero => intro c hc; simp [natToCharsAux] at hc
  | succ fuel ih =>
    intro c hc
    rw [natToCharsAux] at hc
    by_cases h0 : n = 0
    · simp [h0] at hc
    · rw [if_neg h0] at hc
      rcases List.mem_append.mp hc with h | h
      · exact ih _ c h
      · simp at h
        subst h
        exact isDigit_digitChar (Nat.mod_lt n (by norm_num))

theorem natToChars_all_digit (n : Nat) :
    ∀ c ∈ natToChars n, c.isDigit = true := by
  intro c hc
  unfold natToChars at hc
  by_cases h : n = 0
  · simp [h] at hc; subst hc; decide
  · rw [if_neg h] at hc
    exact natToCharsAux_all_digit n n c hc

/-! ## CIGAR (`utils/cigar.py`)

`CIGAR.__init__` extracts the `(count, op)` pairs matched by the regular
expression `(\d+)([MNDI])` via `findall`: the string is scanned left to
right, each maximal digit run immediately followed by one of `M`, `N`, `D`,
`I` yields a pair, and every other character (including an unrecognized
operation letter after a digit run) is skipped. -/

theorem length_dropWhile_le (p : α → Bool) (l : List α) :
    (l.dropWhile p).length ≤ l.length := by
  induction l with
  | nil => simp [List.dropWhile]
  | cons x xs ih =>
    by_cases h : p x
    · simp [List.dropWhile, h]; omega
    · simp [List.dropWhile, h]

/-- One step of the `re.findall(r'(\d+)([MNDI])', s)` scan of
`CIGAR.__init__`; the fuel argument only bounds the recursion depth and any
`fuel ≥ length of the input` gives the same result. -/
def parseCigarAux : Nat → List Char → List (Nat × Char)
  | 0, _ => []
  | _ + 1, [] => []
  | fuel + 1, c :: rest =>
    if c.isDigit then
      match (c :: rest).dropWhile Char.isDigit with
      | [] => []
      | op :: rest2 =>
        if op = 'M' ∨ op = 'N' ∨ op = 'D' ∨ op = 'I' then
          (charsToNat ((c :: rest).takeWhile Char.isDigit), op)
            :: parseCigarAux fuel rest2
        else parseCigarAux fuel rest2
    else parseCigarAux fuel rest

/-- The `re.findall(r'(\d+)([MNDI])', s)` scan of `CIGAR.__init__`: each
maximal digit run immediately followed by one of `MNDI` yields a pair and all
other characters are skipped. -/
def parseCigar (l : List Char) : List (Nat × Char) := parseCigarAux l.length l

theorem parseCigarAux_fuel_irrel :
    ∀ f1 f2 (l : List Char), l.length ≤ f1 → l.length ≤ f2 →
      parseCigarAux f1 l = parseCigarAux f2 l := by
  intro f1
  induction f1 with
  | zero =>
    intro f2 l h1 _
    have : l = [] := List.eq_nil_of_length_eq_zero (Nat.le_zero.mp h1)
    subst this
    cases f2 <;> rfl
  | succ f1 ih =>
    intro f2 l h1 h2
    match l, f2 with
    | [], f2 => cases f2 <;> rfl
    | c :: rest, 0 => simp at h2
    | c :: rest, f2 + 1 =>
      simp only [List.length_cons, Nat.add_le_add_iff_right] at h1 h2
      rw [parseCigarAux, parseCigarAux]
      by_cases hc : c.isDigit
      · simp only [hc, if_true]
        match hop : (c :: rest).dropWhile Char.isDigit with
        | [] => rfl
        | op :: rest2 =>
          have hlen : rest2.length + 1 ≤ rest.length := by
            have hd : (c :: rest).dropWhile Char.isDigit
                = rest.dropWhile Char.isDigit := by
              simp [List.dropWhile, hc]
            have h3 : (rest.dropWhile Char.isDigit).length ≤ rest.length :=
              length_dropWhile_le _ _
            rw [← hd, hop] at h3
            simpa using h3
          have hr : rest2.length ≤ f1 := by omega
          have hr2 : rest2.length ≤ f2 := by omega
          dsimp only
          rw [ih f2 rest2 hr hr2]
      · simp only [hc, if_false]
        exact ih f2 rest h1 h2

/-- Unfolding `parseCigar` when the head is a digit and the digit run is
followed by `op`. -/
theorem parseCigar_step (c : Char) (rest : List Char) (hc : c.isDigit = true)
    (op : Char) (rest2 : List Char)
    (hop : (c :: rest).dropWhile Char.isDigit = op :: rest2) :
    parseCigar (c :: rest) =
      if op = 'M' ∨ op = 'N' ∨ op = 'D' ∨ op = 'I' then
        (charsToNat ((c :: rest).takeWhile Char.isDigit), op) :: parseCigar rest2
      else parseCigar rest2 := by
  have hlen : rest2.length + 1 ≤ rest.length := by
    have hd : (c :: rest).dropWhile Char.isDigit
        = rest.dropWhile Char.isDigit := by
      simp [List.dropWhile, hc]
    have h3 : (rest.dropWhile Char.isDigit).length ≤ rest.length :=
      length_dropWhile_le _ _
    rw [← hd, hop] at h3
    simpa using h3
  show parseCigarAux (c :: rest).length (c :: rest) = _
  simp only [List.length_cons]
  rw [parseCigarAux]
  simp only [hc, if_true]
  rw [hop]
  dsimp only
  have : parseCigarAux rest.length rest2 = parseCigar rest2 :=
    parseCigarAux_fuel_irrel rest.length rest2.length rest2 (by omega) le_rfl
  rw [this]

/-- The set of operation codes the parser retains. -/
def isCigarOp (op : Char) : Prop := op = 'M' ∨ op = 'N' ∨ op = 'D' ∨ op = 'I'

instance (op : Char) : Decidable (isCigarOp op) := by
  unfold isCigarOp; infer_instance

/-- `''.join('{}{}'.format(num, op) for num, op in tuples)`. -/
def formatTupleChars (l : List (Nat × Char)) : List Char :=
  (l.map (fun p => natToChars p.1 ++ [p.2])).flatten

/-- A CIGAR object: two start offsets, the operation string and the parsed
`(count, op)` list (`cigar_tuple`). -/
structure CIGAR where
  ref_start : Nat
  seq_start : Nat
  cigar_string : String
  cigar_tuple : List (Nat × Char)
  deriving Repr, DecidableEq

/-- `CIGAR.__init__`: store the offsets and the string, parse the tuple. -/
def CIGAR.ofString (rs ss : Nat) (s : String) : CIGAR :=
  ⟨rs, ss, s, parseCigar s.data⟩

theorem cigar_tuple_ofString (rs ss : Nat) (s : String) :
    (CIGAR.ofString rs ss s).cigar_tuple = parseCigar s.data := rfl

theorem takeWhile_append_cons {α : Type} (p : α → Bool) (l1 : List α) (x : α)
    (l2 : List α) (h1 : ∀ a ∈ l1, p a = true) (hx : p x = false) :
    (l1 ++ x :: l2).takeWhile p = l1 := by
  induction l1 with
  | nil => simp [List.takeWhile, hx]
  | cons a tl ih =>
    simp only [List.cons_append, List.takeWhile_cons]
    rw [h1 a (List.mem_cons_self a tl)]
    simp only [if_true]
    rw [ih (fun b hb => h1 b (List.mem_cons_of_mem a hb))]

theorem dropWhile_append_cons {α : Type} (p : α → Bool) (l1 : List α) (x : α)
    (l2 : List α) (h1 : ∀ a ∈ l1, p a = true) (hx : p x = false) :
    (l1 ++ x :: l2).dropWhile p = x :: l2 := by
  induction l1 with
  | nil => simp [List.dropWhile, hx]
  | cons a tl ih =>
    simp only [List.cons_append, List.dropWhile_cons]
    rw [h1 a (List.mem_cons_self a tl)]
    simp only [if_true]
    rw [ih (fun b hb => h1 b (List.mem_cons_of_mem a hb))]

theorem not_isDigit_of_cigarOp {op : Char} (h : isCigarOp op) :
    op.isDigit = false := by
  rcases h with h | h | h | h <;> (subst h; decide)

/-- `CIGAR.__init__` applied to a rendered operation list recovers it, as
long as every operation code is one of `M`, `N`, `D`, `I`. -/
theorem parseCigar_formatTupleChars (l : List (Nat × Char))
    (h : ∀ p ∈ l, isCigarOp p.2) :
    parseCigar (formatTupleChars l) = l := by
  induction l with
  | nil => simp [formatTupleChars, parseCigar, parseCigarAux]
  | cons p rest ih =>
    obtain ⟨n, op⟩ := p
    have hop : isCigarOp op := h (n, op) (List.mem_cons_self _ _)
    have hfmt : formatTupleChars ((n, op) :: rest)
        = natToChars n ++ op :: formatTupleChars rest := by
      simp [formatTupleChars, List.append_assoc]
    obtain ⟨c, cs, hnc⟩ := List.exists_cons_of_ne_nil (natToChars_ne_nil n)
    have hall : ∀ a ∈ natToChars n, Char.isDigit a = true := natToChars_all_digit n
    have hcdig : c.isDigit = true := by
      apply hall; rw [hnc]; exact List.mem_cons_self _ _
    have hcs : ∀ a ∈ cs, Char.isDigit a = true := by
      intro a ha; apply hall; rw [hnc]; exact List.mem_cons_of_mem _ ha
    have hdrop : (c :: (cs ++ op :: formatTupleChars rest)).dropWhile Char.isDigit
        = op :: formatTupleChars rest := by
      have := dropWhile_append_cons Char.isDigit (c :: cs) op (formatTupleChars rest)
        (by intro a ha; rcases List.mem_cons.mp ha with h | h;
            · subst h; exact hcdig
            · exact hcs a h)
        (not_isDigit_of_cigarOp hop)
      simpa using this
    have htake : (c :: (cs ++ op :: formatTupleChars rest)).takeWhile Char.isDigit
        = c :: cs := by
      have := takeWhile_append_cons Char.isDigit (c :: cs) op (formatTupleChars rest)
        (by intro a ha; rcases List.mem_cons.mp ha with h | h;
            · subst h; exact hcdig
            · exact hcs a h)
        (not_isDigit_of_cigarOp hop)
      simpa using this
    rw [hfmt, hnc]
    simp only [List.cons_append]
    rw [parseCigar_step c (cs ++ op :: formatTupleChars rest) hcdig op
      (formatTupleChars rest) hdrop]
    rw [if_pos (show op = 'M' ∨ op = 'N' ∨ op = 'D' ∨ op = 'I' from hop),
      htake, ← hnc, charsToNat_natToChars]
    rw [ih (fun q hq => h q (List.mem_cons_of_mem _ hq))]

/-- Core loop of `CIGAR.shrink_by_ref`: walk the operation list keeping `I`
operations, keeping reference-consuming operations smaller than the remaining
budget, and clipping the first one that reaches it (then stopping). -/
def shrinkTuple : List (Nat × Char) → Nat → List (Nat × Char)
  | [], _ => []
  | (num, op) :: rest, remain =>
    if op = 'I' then (num, op) :: shrinkTuple rest remain
    else if num < remain then (num, op) :: shrinkTuple rest (remain - num)
    else [(remain, op)]

/-- `CIGAR.shrink_by_ref`: rebuild the operation string from the clipped
tuple and construct a new `CIGAR` (re-parsing the string, as the source
constructor does). -/
def CIGAR.shrink_by_ref (c : CIGAR) (keep_size : Nat) : CIGAR :=
  CIGAR.ofString c.ref_start c.seq_start
    ⟨formatTupleChars (shrinkTuple c.cigar_tuple keep_size)⟩

theorem shrinkTuple_ops (l : List (Nat × Char)) (k : Nat)
    (h : ∀ p ∈ l, isCigarOp p.2) :
    ∀ p ∈ shrinkTuple l k, isCigarOp p.2 := by
  induction l generalizing k with
  | nil => intro p hp; simp [shrinkTuple] at hp
  | cons q rest ih =>
    obtain ⟨num, op⟩ := q
    intro p hp
    rw [shrinkTuple] at hp
    split at hp
    · rcases List.mem_cons.mp hp with h1 | h1
      · subst h1; exact h (num, op) (List.mem_cons_self _ _)
      · exact ih k (fun r hr => h r (List.mem_cons_of_mem _ hr)) p h1
    · split at hp
      · rcases List.mem_cons.mp hp with h1 | h1
        · subst h1; exact h (num, op) (List.mem_cons_self _ _)
        · exact ih _ (fun r hr => h r (List.mem_cons_of_mem _ hr)) p h1
      · simp at hp
        subst hp
        exact h (num, op) (List.mem_cons_self _ _)

/-- The parsed tuple of a shrunk CIGAR is exactly `shrinkTuple` of the
original tuple (string render / re-parse round trip). -/
theorem shrink_by_ref_tuple (c : CIGAR) (k : Nat)
    (h : ∀ p ∈ c.cigar_tuple, isCigarOp p.2) :
    (c.shrink_by_ref k).cigar_tuple = shrinkTuple c.cigar_tuple k := by
  unfold CIGAR.shrink_by_ref CIGAR.ofString
  exact parseCigar_formatTupleChars _ (shrinkTuple_ops _ _ h)

/-- Total reference-consuming length of an operation list: the sum of the
counts of all non-`I` operations (for parser output these are `M`, `D`, `N`). -/
def refConsumingLen : List (Nat × Char) → Nat
  | [] => 0
  | (num, op) :: rest => (if op = 'I' then 0 else num) + refConsumingLen rest

/-! ## CIGAR decoding (`_get_alignment` / `CIGAR.get_alignment`) -/

/-- The operation walk of `_get_alignment`: `M` advances the offset, `D`/`N`
insert gaps into the query at the offset, `I` inserts gaps into the
reference; any other operation code in the tuple is skipped (the source loop
has no `else` branch). -/
def getAlignmentLoop :
    List (Nat × Char) → List NAPos → List NAPos → Nat →
      List NAPos × List NAPos × Nat
  | [], aref, aseq, offset => (aref, aseq, offset)
  | (num, op) :: rest, aref, aseq, offset =>
    if op = 'M' then getAlignmentLoop rest aref aseq (offset + num)
    else if op = 'D' ∨ op = 'N' then
      getAlignmentLoop rest aref
        (pyInsertAt aseq offset (NAPos.init_gaps num)) (offset + num)
    else if op = 'I' then
      getAlignmentLoop rest
        (pyInsertAt aref offset (NAPos.init_gaps num)) aseq (offset + num)
    else getAlignmentLoop rest aref aseq offset

/-- `_get_alignment` from `utils/cigar.py`: slice both inputs from their
start offsets, walk the operations, truncate both outputs to the final
offset, and raise (`Except.error`) when the two outputs differ in length. -/
def get_alignment_impl (cigar : CIGAR) (refseq seq : List NAPos) :
    Except String (List NAPos × List NAPos) :=
  let res := getAlignmentLoop cigar.cigar_tuple
    (refseq.drop cigar.ref_start) (seq.drop cigar.seq_start) 0
  let aligned_seq := res.2.1.take res.2.2
  let aligned_refseq := res.1.take res.2.2
  if aligned_refseq.length ≠ aligned_seq.length then
    Except.error ("Unmatched alignment length: " ++
      NAPos.as_str aligned_refseq ++ " and " ++ NAPos.as_str aligned_seq)
  else Except.ok (aligned_refseq, aligned_seq)

/-- `CIGAR.get_alignment` simply forwards to `_get_alignment`. -/
def CIGAR.get_alignment (c : CIGAR) (refseq seq : List NAPos) :
    Except String (List NAPos × List NAPos) :=
  get_alignment_impl c refseq seq

/-- C1: for every CIGAR whose operation tuple has operations among
`M`, `I`, `D`, `N` and any reference/query inputs, `get_alignment` either
raises (`Except.error`) or returns two lists of identical length. -/
theorem c1_get_alignment_equal_length (c : CIGAR) (refseq seq : List NAPos)
    (hops : ∀ p ∈ c.cigar_tuple, isCigarOp p.2) (a b : List NAPos)
    (h : c.get_alignment refseq seq = Except.ok (a, b)) :
    a.length = b.length := by
  unfold CIGAR.get_alignment get_alignment_impl at h
  dsimp only at h
  split at h
  · exact absurd h (by simp)
  · rename_i hlen
    injection h with h1
    rw [Prod.mk.injEq] at h1
    obtain ⟨ha, hb⟩ := h1
    subst ha
    subst hb
    exact Decidable.not_not.mp hlen

/-- C1 (witness): decoding `1M1I3M` against reference `ACGT` and query
`ATCGT` succeeds, and the claim theorem applies to it. -/
theorem c1_get_alignment_equal_length_witness :
    ([⟨65,1,0⟩,⟨45,-1,0⟩,⟨67,2,0⟩,⟨71,3,0⟩,⟨84,4,0⟩] : List NAPos).length
      = ([⟨65,1,0⟩,⟨84,2,0⟩,⟨67,3,0⟩,⟨71,4,0⟩,⟨84,5,0⟩] : List NAPos).length :=
  c1_get_alignment_equal_length
    (CIGAR.ofString 0 0 "1M1I3M")
    (NAPos.init_from_bytes [65,67,71,84])
    (NAPos.init_from_bytes [65,84,67,71,84])
    (by decide) _ _ rfl

/-! ## C4: `shrink_by_ref` -/

theorem shrinkTuple_spec (l : List (Nat × Char)) :
    ∀ k, 1 ≤ k → k ≤ refConsumingLen l →
      refConsumingLen (shrinkTuple l k) = k ∧
      (shrinkTuple l k).filter (fun p => p.2 == 'I')
        <+: l.filter (fun p => p.2 == 'I') := by
  induction l with
  | nil =>
    intro k h1 h2
    simp [refConsumingLen] at h2
    omega
  | cons q rest ih =>
    obtain ⟨num, op⟩ := q
    intro k h1 h2
    rw [shrinkTuple]
    by_cases hI : op = 'I'
    · rw [if_pos hI]
      have h2' : k ≤ refConsumingLen rest := by
        simp [refConsumingLen, hI] at h2
        exact h2
      obtain ⟨e, pre⟩ := ih k h1 h2'
      constructor
      · simp [refConsumingLen, hI, e]
      · subst hI
        simp only [List.filter_cons, beq_self_eq_true, if_true]
        exact (List.cons_prefix_cons.mpr ⟨rfl, pre⟩)
    · rw [if_neg hI]
      by_cases hlt : num < k
      · rw [if_pos hlt]
        have hk1 : 1 ≤ k - num := by omega
        have hk2 : k - num ≤ refConsumingLen rest := by
          simp [refConsumingLen, hI] at h2
          omega
        obtain ⟨e, pre⟩ := ih (k - num) hk1 hk2
        constructor
        · simp [refConsumingLen, hI, e]
          omega
        · simp only [List.filter_cons]
          have : (((num, op) : Nat × Char).2 == 'I') = false := by
            simp [hI]
          rw [this]
          simp only [Bool.false_eq_true, if_false]
          exact pre
      · rw [if_neg hlt]
        constructor
        · simp [refConsumingLen, hI]
        · have : (((k, op) : Nat × Char).2 == 'I') = false := by
            simp [hI]
          simp [List.filter_cons, this]

/-- C4 (counterexample): shrinking CIGAR `5M2I` (operations in `{M, I}`) to
reference length 5 — which satisfies the claim's bounds — drops the trailing
`I` operation instead of preserving all `I` operations verbatim. -/
theorem c4_counterexample :
    ((CIGAR.ofString 0 0 "5M2I").shrink_by_ref 5).cigar_tuple = [(5, 'M')] ∧
    (1 ≤ 5 ∧ 5 ≤ refConsumingLen (CIGAR.ofString 0 0 "5M2I").cigar_tuple) ∧
    (2, 'I') ∈ (CIGAR.ofString 0 0 "5M2I").cigar_tuple ∧
    ¬ (2, 'I') ∈ ((CIGAR.ofString 0 0 "5M2I").shrink_by_ref 5).cigar_tuple := by
  decide

/-- C4 (amended): for every CIGAR with operations among `M`, `I`, `D`, `N`
and `1 ≤ keep_size ≤` its reference-consuming length, `shrink_by_ref`
returns a CIGAR whose reference-consuming length equals `keep_size` and
whose `I` operations are, verbatim and in order, an initial segment of the
input's `I` operations (every `I` before the clip point is preserved; `I`
operations after the clip point are dropped). -/
theorem c4_shrink_by_ref_amended (c : CIGAR) (k : Nat)
    (hops : ∀ p ∈ c.cigar_tuple, isCigarOp p.2)
    (h1 : 1 ≤ k) (h2 : k ≤ refConsumingLen c.cigar_tuple) :
    refConsumingLen (c.shrink_by_ref k).cigar_tuple = k ∧
    (c.shrink_by_ref k).cigar_tuple.filter (fun p => p.2 == 'I')
      <+: c.cigar_tuple.filter (fun p => p.2 == 'I') := by
  rw [shrink_by_ref_tuple c k hops]
  exact shrinkTuple_spec c.cigar_tuple k h1 h2

/-- C4 (witness): the spec example `5M2I5M` shrunk to reference length 6
satisfies the hypotheses, and the amended theorem applies (the result is
`5M2I1M`). -/
theorem c4_shrink_by_ref_amended_witness :
    (((CIGAR.ofString 0 0 "5M2I5M").shrink_by_ref 6).cigar_tuple
        = [(5, 'M'), (2, 'I'), (1, 'M')]) ∧
    (refConsumingLen ((CIGAR.ofString 0 0 "5M2I5M").shrink_by_ref 6).cigar_tuple = 6 ∧
      ((CIGAR.ofString 0 0 "5M2I5M").shrink_by_ref 6).cigar_tuple.filter
          (fun p => p.2 == 'I')
        <+: (CIGAR.ofString 0 0 "5M2I5M").cigar_tuple.filter
          (fun p => p.2 == 'I')) :=
  ⟨by decide,
    c4_shrink_by_ref_amended (CIGAR.ofString 0 0 "5M2I5M") 6
      (by decide) (by decide) (by decide)⟩

/-! ## C7: unrecognized operation codes -/

theorem parseCigarAux_ops (fuel : Nat) :
    ∀ (l : List Char) p, p ∈ parseCigarAux fuel l → isCigarOp p.2 := by
  induction fuel with
  | zero => intro l p hp; simp [parseCigarAux] at hp
  | succ fuel ih =>
    intro l p hp
    match l with
    | [] => simp [parseCigarAux] at hp
    | c :: rest =>
      rw [parseCigarAux] at hp
      by_cases hc : c.isDigit
      · rw [if_pos hc] at hp
        split at hp
        · simp at hp
        · rename_i op rest2 heq
          split at hp
          · rename_i hcond
            rcases List.mem_cons.mp hp with h | h
            · subst h; exact hcond
            · exact ih rest2 p h
          · exact ih rest2 p hp
      · rw [if_neg hc] at hp
        exact ih rest p hp

/-- C7 (counterexample): constructing a CIGAR from `2M3X4D` — whose
operation string contains the unrecognized code `X` — is not a parse error:
it is silently accepted with the `3X` pair skipped, yielding exactly the
tuple of `2M4D`. -/
theorem c7_counterexample :
    (CIGAR.ofString 0 0 "2M3X4D").cigar_tuple = [(2, 'M'), (4, 'D')] ∧
    (CIGAR.ofString 0 0 "2M3X4D").cigar_tuple
      = (CIGAR.ofString 0 0 "2M4D").cigar_tuple := by
  decide

/-- C7 (amended): constructing a CIGAR never fails; the `(count, op)` pairs
with `op` among `M`, `N`, `D`, `I` are extracted and every other character —
including an unrecognized operation code and its count — is silently
skipped: every operation in the resulting tuple is one of `M`, `N`, `D`,
`I`. -/
theorem c7_unrecognized_op_skipped (rs ss : Nat) (s : String) :
    ∀ p ∈ (CIGAR.ofString rs ss s).cigar_tuple, isCigarOp p.2 := by
  intro p hp
  exact parseCigarAux_ops _ _ p hp

/-- C7 (witness): the amended theorem applied to the concrete string
`2M3X4D` and its first extracted operation. -/
theorem c7_unrecognized_op_skipped_witness : isCigarOp ((2, 'M') : Nat × Char).2 :=
  c7_unrecognized_op_skipped 0 0 "2M3X4D" (2, 'M') (by decide)

/-! ## Container model (`models/na_position.py`)

The container `NAPosition` holds three parallel lists: byte codes
(`_seq_text`), coordinates (`_seq_pos`) and flag sets (`_seq_flag`).  The
cached `_min_pos`/`_max_pos`/`_is_gap` fields of the source are observably
pure and are modelled as functions. -/

structure NAPosition where
  seq_text : List Nat
  seq_pos : List Int
  seq_flag : List (List String)
  deriving Repr, DecidableEq

/-- `enumerate_seq_pos` from `models/na_position.py` (same algorithm as
`enumPos` with starting offset 1). -/
def enumerate_seq_pos (seq_text : List Nat) : List Int := enumPos seq_text 1

/-- `NAPosition.init_from_nastring`: uppercase the bytes, enumerate
coordinates, start all flag sets empty. -/
def NAPosition.init_from_nastring (bs : List Nat) : NAPosition :=
  let up := bs.map upperByte
  ⟨up, enumerate_seq_pos up, up.map (fun _ => [])⟩

/-- `NAPosition.init_gaps`: `n` gap symbols (`-`), coordinate -1, no flags. -/
def NAPosition.init_gaps (gaplen : Nat) : NAPosition :=
  ⟨List.replicate gaplen 45, List.replicate gaplen (-1),
    List.replicate gaplen []⟩

/-- `__getitem__` with a slice `[a:b]` (no step): slice all three lists. -/
def NAPosition.slice (s : NAPosition) (a b : Nat) : NAPosition :=
  ⟨pySlice s.seq_text a b, pySlice s.seq_pos a b, pySlice s.seq_flag a b⟩

/-- `__add__`: concatenate all three lists. -/
def NAPosition.add (s t : NAPosition) : NAPosition :=
  ⟨s.seq_text ++ t.seq_text, s.seq_pos ++ t.seq_pos,
    s.seq_flag ++ t.seq_flag⟩

/-- `__setitem__` with an `NAPosition` value: splice the value's three lists
over the index range `[a:b]`. -/
def NAPosition.setitem (s : NAPosition) (a b : Nat) (v : NAPosition) :
    NAPosition :=
  ⟨pySetSlice s.seq_text a b v.seq_text,
    pySetSlice s.seq_pos a b v.seq_pos,
    pySetSlice s.seq_flag a b v.seq_flag⟩

/-- The `(byte, pos, flag)` triplets of a container (the `zip` of
`remove_gaps` / `__iter__`). -/
def NAPosition.triplets (s : NAPosition) : List ((Nat × Int) × List String) :=
  (s.seq_text.zip s.seq_pos).zip s.seq_flag

/-- `remove_gaps`: keep exactly the triplets whose byte is not a gap marker
(`init_from_triplets` of the filtered triplets). -/
def NAPosition.remove_gaps (s : NAPosition) : NAPosition :=
  let kept := s.triplets.filter (fun tr => !isGapByte tr.1.1)
  ⟨kept.map (fun tr => tr.1.1), kept.map (fun tr => tr.1.2),
    kept.map (fun tr => tr.2)⟩

/-- `min_pos`: the first coordinate greater than 0, or -1. -/
def NAPosition.min_pos (s : NAPosition) : Int :=
  (s.seq_pos.find? (fun p => decide (0 < p))).getD (-1)

/-- `max_pos`: the last coordinate greater than 0, or -1. -/
def NAPosition.max_pos (s : NAPosition) : Int :=
  (s.seq_pos.reverse.find? (fun p => decide (0 < p))).getD (-1)

/-- `pos2index(pos, 'first')`: index of the first occurrence of `pos`;
`none` models the `ValueError` of `list.index`. -/
def NAPosition.pos2index_first (s : NAPosition) (pos : Int) : Option Nat :=
  s.seq_pos.findIdx? (fun q => q == pos)

/-- `pos2index(pos, 'last')`: index of the last occurrence of `pos`
(`len - reversed.index(pos) - 1`); `none` models the `ValueError`. -/
def NAPosition.pos2index_last (s : NAPosition) (pos : Int) : Option Nat :=
  (s.seq_pos.reverse.findIdx? (fun q => q == pos)).map
    (fun i => s.seq_pos.length - i - 1)

/-- The forward scan of `posrange2indexrange`'s final branch: the first
coordinate in `pos_start..pos_end` present in the sequence gives
`idx_start`; `none` models the unbound-variable failure when no coordinate
in range is present. -/
def NAPosition.scanForward (s : NAPosition) (pos_start pos_end : Int) :
    Option Nat :=
  ((List.range (pos_end + 1 - pos_start).toNat).map
      (fun k => pos_start + k)).findSome?
    (fun p => s.pos2index_first p)

/-- The backward scan of `posrange2indexrange`'s final branch: the last
coordinate in `pos_end..pos_start` present gives `idx_end` (one past the
last index). -/
def NAPosition.scanBackward (s : NAPosition) (pos_start pos_end : Int) :
    Option Nat :=
  ((List.range (pos_end + 1 - pos_start).toNat).map
      (fun k => pos_end - k)).findSome?
    (fun p => (s.pos2index_last p).map (fun i => i + 1))

/-- `posrange2indexrange` from `models/na_position.py`.  The source returns a
pair of ints; `none` models the `UnboundLocalError` that the final branch
raises when a bound variable is never assigned (unreachable in the branches
the claims are about). -/
def NAPosition.posrange2indexrange (s : NAPosition)
    (pos_start pos_end : Int) : Option (Nat × Nat) :=
  let mx := s.max_pos
  let mn := s.min_pos
  if mx < 0 ∨ mn < 0 then some (0, 0)
  else if pos_start > mx then (s.pos2index_last mx).map (fun i => (i, i))
  else if pos_end < mn then (s.pos2index_first mn).map (fun i => (i, i))
  else
    let ps := max mn pos_start
    let pe := min mx pos_end
    match s.scanForward ps pe, s.scanBackward ps pe with
    | some i, some j => some (i, j)
    | _, _ => none

/-- The coordinates of the non-gap symbols of a container, left to right. -/
def nonGapPos (s : NAPosition) : List Int :=
  ((s.seq_text.zip s.seq_pos).filter (fun q => !isGapByte q.1)).map Prod.snd

/-- Index of the first non-gap coordinate (`pos > 0`). -/
def firstPosIndex (s : NAPosition) : Option Nat :=
  s.seq_pos.findIdx? (fun p => decide (0 < p))

/-- Index of the last non-gap coordinate (`pos > 0`). -/
def lastPosIndex (s : NAPosition) : Option Nat :=
  (s.seq_pos.reverse.findIdx? (fun p => decide (0 < p))).map
    (fun i => s.seq_pos.length - i - 1)

/-! ## C6: `posrange2indexrange` collapse branches -/

theorem findIdx?_eq_findIdx?_of_find? (l : List Int) (v : Int) (hv : 0 < v)
    (hfind : l.find? (fun p => decide (0 < p)) = some v) :
    l.findIdx? (fun q => q == v) = l.findIdx? (fun p => decide (0 < p)) := by
  suffices h : ∀ i, List.findIdx? (fun q => q == v) l i
      = List.findIdx? (fun p => decide (0 < p)) l i from h 0
  induction l with
  | nil => simp at hfind
  | cons x xs ih =>
    intro i
    by_cases hx : (0 : Int) < x
    · rw [List.find?_cons_of_pos _ (by simpa using hx)] at hfind
      injection hfind with hxv
      subst hxv
      rw [List.findIdx?_cons, List.findIdx?_cons]
      simp [hx]
    · rw [List.find?_cons_of_neg _ (by simpa using hx)] at hfind
      rw [List.findIdx?_cons, List.findIdx?_cons]
      have hne : (x == v) = false := by
        simp only [beq_eq_false_iff_ne, ne_eq]
        intro hcon
        subst hcon
        exact hx hv
      simp only [hne, Bool.false_eq_true, if_false,
        show (decide (0 < x)) = false by simpa using hx]
      rw [ih hfind]

theorem findIdx?_isSome_of_find? {α : Type} (l : List α) (p : α → Bool)
    (a : α) (h : l.find? p = some a) : ∃ i, l.findIdx? p = some i := by
  suffices hgen : ∀ j, ∃ i, List.findIdx? p l j = some i from hgen 0
  induction l with
  | nil => simp at h
  | cons x xs ih =>
    intro j
    by_cases hx : p x
    · exact ⟨j, by rw [List.findIdx?_cons, if_pos hx]⟩
    · rw [List.find?_cons_of_neg _ hx] at h
      obtain ⟨i, hi⟩ := ih h (j + 1)
      exact ⟨i, by rw [List.findIdx?_cons, if_neg hx]; exact hi⟩

/-- C6 (counterexample): for the sequence built from `AC` (coordinates
`[1, 2]`, min 1 at index 0, max 2 at index 1), the call
`posrange2indexrange(3, 0)` has `pos_end = 0` below the minimum coordinate,
yet returns `(1, 1)` — the last non-gap index — not the first non-gap index
pair `(0, 0)` demanded by the claim's second clause, because the
`pos_start > max` branch takes precedence. -/
theorem c6_counterexample :
    (NAPosition.init_from_nastring [65, 67]).posrange2indexrange 3 0
        = some (1, 1) ∧
    (0 : Int) < (NAPosition.init_from_nastring [65, 67]).min_pos ∧
    (3 : Int) > (NAPosition.init_from_nastring [65, 67]).max_pos ∧
    (0 : Int) < (NAPosition.init_from_nastring [65, 67]).min_pos ∧
    firstPosIndex (NAPosition.init_from_nastring [65, 67]) = some 0 ∧
    some (1, 1) ≠ some ((0 : Nat), (0 : Nat)) := by
  decide

/-- C6 (amended): for every container with at least one positive coordinate:
if `pos_start` exceeds the maximum coordinate, `posrange2indexrange` returns
`(i, i)` with `i` the index of the last non-gap symbol; if `pos_start` does
not exceed the maximum and `pos_end` is below the minimum coordinate, it
returns `(j, j)` with `j` the index of the first non-gap symbol (the first
branch takes precedence over the second). -/
theorem c6_posrange2indexrange_amended (s : NAPosition) (ps pe : Int)
    (h : ∃ p ∈ s.seq_pos, 0 < p) :
    (ps > s.max_pos →
      ∃ i, lastPosIndex s = some i ∧
        s.posrange2indexrange ps pe = some (i, i)) ∧
    (ps ≤ s.max_pos → pe < s.min_pos →
      ∃ j, firstPosIndex s = some j ∧
        s.posrange2indexrange ps pe = some (j, j)) := by
  have hfwd : ∃ v, s.seq_pos.find? (fun p => decide (0 < p)) = some v := by
    obtain ⟨p, hp, hp0⟩ := h
    have : (s.seq_pos.find? (fun p => decide (0 < p))).isSome := by
      rw [List.find?_isSome]
      exact ⟨p, hp, by simpa using hp0⟩
    exact Option.isSome_iff_exists.mp this
  have hbwd : ∃ v, s.seq_pos.reverse.find? (fun p => decide (0 < p))
      = some v := by
    obtain ⟨p, hp, hp0⟩ := h
    have : (s.seq_pos.reverse.find? (fun p => decide (0 < p))).isSome := by
      rw [List.find?_isSome]
      exact ⟨p, List.mem_reverse.mpr hp, by simpa using hp0⟩
    exact Option.isSome_iff_exists.mp this
  obtain ⟨mn, hmn⟩ := hfwd
  obtain ⟨mx, hmx⟩ := hbwd
  have hmn0 : (0 : Int) < mn := by
    have := List.find?_some hmn
    simpa using this
  have hmx0 : (0 : Int) < mx := by
    have := List.find?_some hmx
    simpa using this
  have hminp : s.min_pos = mn := by
    unfold NAPosition.min_pos
    rw [hmn]
    rfl
  have hmaxp : s.max_pos = mx := by
    unfold NAPosition.max_pos
    rw [hmx]
    rfl
  have hguard : ¬(s.max_pos < 0 ∨ s.min_pos < 0) := by
    rw [hminp, hmaxp]
    omega
  constructor
  · intro hgt
    have hlast : s.pos2index_last s.max_pos = lastPosIndex s := by
      unfold NAPosition.pos2index_last lastPosIndex
      rw [hmaxp, findIdx?_eq_findIdx?_of_find? _ mx hmx0 hmx]
    obtain ⟨i, hi⟩ := findIdx?_isSome_of_find? _ _ _ hmx
    refine ⟨s.seq_pos.length - i - 1, ?_, ?_⟩
    · unfold lastPosIndex
      rw [hi]
      rfl
    · unfold NAPosition.posrange2indexrange
      dsimp only
      rw [if_neg hguard, if_pos hgt, hlast]
      unfold lastPosIndex
      rw [hi]
      rfl
  · intro hle hlt
    have hfirst : s.pos2index_first s.min_pos = firstPosIndex s := by
      unfold NAPosition.pos2index_first firstPosIndex
      rw [hminp, findIdx?_eq_findIdx?_of_find? _ mn hmn0 hmn]
    obtain ⟨j, hj⟩ := findIdx?_isSome_of_find? _ _ _ hmn
    refine ⟨j, ?_, ?_⟩
    · unfold firstPosIndex
      rw [hj]
    · unfold NAPosition.posrange2indexrange
      dsimp only
      rw [if_neg hguard, if_neg (by omega), if_pos hlt, hfirst]
      unfold firstPosIndex
      rw [hj]
      rfl

/-- C6 (witness): both amended branches applied to the container built from
`AC`: `posrange2indexrange(3, 0)` collapses to the last non-gap index and
`posrange2indexrange(1, 0)` collapses to the first non-gap index. -/
theorem c6_posrange2indexrange_amended_witness :
    (∃ i, lastPosIndex (NAPosition.init_from_nastring [65, 67]) = some i ∧
      (NAPosition.init_from_nastring [65, 67]).posrange2indexrange 3 0
        = some (i, i)) ∧
    (∃ j, firstPosIndex (NAPosition.init_from_nastring [65, 67]) = some j ∧
      (NAPosition.init_from_nastring [65, 67]).posrange2indexrange 1 0
        = some (j, j)) :=
  ⟨(c6_posrange2indexrange_amended (NAPosition.init_from_nastring [65, 67]) 3 0
      ⟨1, by decide, by decide⟩).1 (by decide),
    (c6_posrange2indexrange_amended (NAPosition.init_from_nastring [65, 67]) 1 0
      ⟨1, by decide, by decide⟩).2 (by decide) (by decide)⟩

/-! ## C3: coordinate monotonicity of reachable containers -/

/-- Parallel-list well-formedness of a container (all three lists have the
same length); every public constructor establishes it and every operation
preserves it. -/
def NAPosition.WF (s : NAPosition) : Prop :=
  s.seq_text.length = s.seq_pos.length ∧
  s.seq_text.length = s.seq_flag.length

/-- Containers reachable through the public constructors and operations of
`models/na_position.py` named by the claim, with concatenation restricted —
as the counterexample forces — to operands whose non-gap coordinates are
compatible (every left coordinate below every right coordinate).  Gap
insertion via slice assignment is `seq[a:b] = init_gaps(n)`. -/
inductive NAPosition.Reachable : NAPosition → Prop
  | init_from_nastring (bs : List Nat) :
      Reachable (NAPosition.init_from_nastring bs)
  | init_gaps (n : Nat) : Reachable (NAPosition.init_gaps n)
  | slice (s : NAPosition) (a b : Nat) :
      Reachable s → Reachable (s.slice a b)
  | add (s t : NAPosition) : Reachable s → Reachable t →
      (∀ p ∈ nonGapPos s, ∀ q ∈ nonGapPos t, p < q) →
      Reachable (s.add t)
  | insert_gaps (s : NAPosition) (a b n : Nat) :
      Reachable s → Reachable (s.setitem a b (NAPosition.init_gaps n))
  | remove_gaps (s : NAPosition) : Reachable s → Reachable s.remove_gaps

theorem length_enumPos (bs : List Nat) (off : Int) :
    (enumPos bs off).length = bs.length := by
  induction bs generalizing off with
  | nil => rfl
  | cons b rest ih =>
    rw [enumPos]
    by_cases hb : isGapByte b
    · simp [hb, ih]
    · simp [hb, ih]

theorem take_zip_eq {α β : Type} :
    ∀ (n : Nat) (l1 : List α) (l2 : List β),
      (l1.zip l2).take n = (l1.take n).zip (l2.take n) := by
  intro n
  induction n with
  | zero => intro l1 l2; simp
  | succ n ih =>
    intro l1 l2
    match l1, l2 with
    | [], l2 => simp
    | x :: xs, [] => simp
    | x :: xs, y :: ys =>
      simp only [List.zip_cons_cons, List.take_succ_cons]
      rw [ih]

theorem drop_zip_eq {α β : Type} :
    ∀ (n : Nat) (l1 : List α) (l2 : List β),
      (l1.zip l2).drop n = (l1.drop n).zip (l2.drop n) := by
  intro n
  induction n with
  | zero => intro l1 l2; simp
  | succ n ih =>
    intro l1 l2
    match l1, l2 with
    | [], l2 => simp
    | x :: xs, [] => simp
    | x :: xs, y :: ys =>
      simp only [List.zip_cons_cons, List.drop_succ_cons]
      rw [ih]

theorem pySlice_zip {α β : Type} (l1 : List α) (l2 : List β) (a b : Nat) :
    (pySlice l1 a b).zip (pySlice l2 a b) = pySlice (l1.zip l2) a b := by
  unfold pySlice
  rw [drop_zip_eq, take_zip_eq]

theorem zip_replicate_pair {α β : Type} (n : Nat) (a : α) (b : β) :
    (List.replicate n a).zip (List.replicate n b) = List.replicate n (a, b) := by
  induction n with
  | zero => rfl
  | succ n ih => simp [List.replicate_succ, ih]

theorem nonGapPos_enum (bs : List Nat) (off : Int) :
    ((bs.zip (enumPos bs off)).filter (fun q => !isGapByte q.1)).map Prod.snd
      = (List.range (bs.countP (fun b => !isGapByte b))).map
          (fun k : Nat => off + (k : Int)) := by
  induction bs generalizing off with
  | nil => rfl
  | cons b rest ih =>
    rw [enumPos]
    by_cases hb : isGapByte b
    · simp only [hb, if_true, List.zip_cons_cons, List.filter_cons]
      simp only [hb, Bool.not_true, Bool.false_eq_true, if_false]
      rw [List.countP_cons]
      simp only [hb, Bool.not_true, Bool.false_eq_true, if_false]
      simpa using ih off
    · have hb' : isGapByte b = false := by simpa using hb
      simp only [hb', Bool.false_eq_true, if_false, List.zip_cons_cons,
        List.filter_cons]
      simp only [hb', Bool.not_false, if_true]
      rw [List.countP_cons]
      simp only [hb', Bool.not_false, if_true]
      rw [List.range_succ_eq_map]
      simp only [List.map_cons, List.map_map]
      congr 1
      · simp
      · rw [ih (off + 1)]
        apply List.map_congr_left
        intro k _
        simp only [Function.comp_apply]
        push_cast
        ring

theorem enumPos_gap_eq_neg_one (bs : List Nat) (off : Int) :
    ∀ q ∈ bs.zip (enumPos bs off), isGapByte q.1 = true → q.2 = -1 := by
  induction bs generalizing off with
  | nil => intro q hq; simp at hq
  | cons b rest ih =>
    intro q hq hgap
    rw [enumPos] at hq
    by_cases hb : isGapByte b
    · rw [if_pos hb] at hq
      rcases List.mem_cons.mp hq with h | h
      · subst h; rfl
      · exact ih off q h hgap
    · rw [if_neg hb] at hq
      rcases List.mem_cons.mp hq with h | h
      · subst h; simp at hgap; exact absurd hgap hb
      · exact ih (off + 1) q h hgap

theorem nonGapPos_init_from_nastring (bs : List Nat) :
    nonGapPos (NAPosition.init_from_nastring bs)
      = (List.range ((bs.map upperByte).countP (fun b => !isGapByte b))).map
          (fun k : Nat => 1 + (k : Int)) := by
  unfold nonGapPos NAPosition.init_from_nastring enumerate_seq_pos
  exact nonGapPos_enum (bs.map upperByte) 1

theorem pairwise_nonGapPos_init (bs : List Nat) :
    List.Pairwise (· < ·) (nonGapPos (NAPosition.init_from_nastring bs)) := by
  rw [nonGapPos_init_from_nastring]
  rw [List.pairwise_map]
  apply List.Pairwise.imp ?_ (List.pairwise_lt_range _)
  intro a b hab
  omega

theorem filter_gap_replicate_pair (n : Nat) :
    (List.replicate n ((45 : Nat), (-1 : Int))).filter
      (fun q => !isGapByte q.1) = [] := by
  induction n with
  | zero => rfl
  | succ n ih =>
    rw [List.replicate_succ, List.filter_cons]
    simp only [show (!isGapByte ((45 : Nat), (-1 : Int)).1) = false by decide,
      Bool.false_eq_true, if_false]
    exact ih

theorem nonGapPos_init_gaps (n : Nat) :
    nonGapPos (NAPosition.init_gaps n) = [] := by
  unfold nonGapPos NAPosition.init_gaps
  dsimp only
  rw [zip_replicate_pair, filter_gap_replicate_pair]
  rfl

theorem nonGapPos_slice_sublist (s : NAPosition) (a b : Nat) :
    List.Sublist (nonGapPos (s.slice a b)) (nonGapPos s) := by
  unfold nonGapPos NAPosition.slice
  dsimp only
  rw [pySlice_zip]
  apply List.Sublist.map
  apply List.Sublist.filter
  unfold pySlice
  exact (List.take_sublist _ _).trans (List.drop_sublist _ _)

theorem nonGapPos_add (s t : NAPosition)
    (hlen : s.seq_text.length = s.seq_pos.length) :
    nonGapPos (s.add t) = nonGapPos s ++ nonGapPos t := by
  unfold nonGapPos NAPosition.add
  dsimp only
  rw [List.zip_append hlen, List.filter_append, List.map_append]

theorem nonGapPos_setitem_gaps_sublist (s : NAPosition) (a b n : Nat)
    (hlen : s.seq_text.length = s.seq_pos.length) :
    List.Sublist (nonGapPos (s.setitem a b (NAPosition.init_gaps n)))
      (nonGapPos s) := by
  unfold nonGapPos NAPosition.setitem NAPosition.init_gaps pySetSlice
  dsimp only
  have h1 : (s.seq_text.take a).length = (s.seq_pos.take a).length := by
    simp [hlen]
  have h2 : (List.replicate n (45 : Nat)).length
      = (List.replicate n (-1 : Int)).length := by simp
  rw [List.append_assoc, List.append_assoc, List.zip_append h1,
    List.zip_append h2, zip_replicate_pair, ← take_zip_eq, ← drop_zip_eq]
  rw [List.filter_append, List.filter_append, filter_gap_replicate_pair]
  rw [List.map_append, List.map_append]
  simp only [List.map_nil, List.nil_append]
  set z := s.seq_text.zip s.seq_pos with hz
  set c := max a b with hc
  have hdecomp : (z.filter (fun q => !isGapByte q.1)).map Prod.snd
      = ((z.take c).filter (fun q => !isGapByte q.1)).map Prod.snd
        ++ ((z.drop c).filter (fun q => !isGapByte q.1)).map Prod.snd := by
    rw [← List.map_append, ← List.filter_append, List.take_append_drop]
  rw [hdecomp]
  apply List.Sublist.append ?_ (List.Sublist.refl _)
  apply List.Sublist.map
  apply List.Sublist.filter
  have : z.take a = (z.take c).take a := by
    rw [List.take_take]
    congr 1
    omega
  rw [this]
  exact List.take_sublist _ _

theorem map_fst_filter_fst_zip {α β : Type} (q : α → Bool) :
    ∀ (A : List α) (B : List β), A.length ≤ B.length →
      ((A.zip B).filter (fun x => q x.1)).map Prod.fst = A.filter q := by
  intro A
  induction A with
  | nil => intro B _; rfl
  | cons x xs ih =>
    intro B hB
    match B with
    | [] => simp at hB
    | y :: ys =>
      simp only [List.zip_cons_cons, List.filter_cons]
      by_cases hx : q x
      · simp only [hx, if_true, List.map_cons]
        rw [ih ys (by simpa using hB)]
      · have hx' : q x = false := by simpa using hx
        simp only [hx', Bool.false_eq_true, if_false]
        rw [ih ys (by simpa using hB)]

theorem nonGapPos_remove_gaps (s : NAPosition)
    (hlen : s.seq_text.length = s.seq_pos.length)
    (hflag : s.seq_text.length = s.seq_flag.length) :
    nonGapPos s.remove_gaps = nonGapPos s := by
  unfold NAPosition.remove_gaps
  dsimp only
  set kept := s.triplets.filter (fun tr => !isGapByte tr.1.1) with hkept
  unfold nonGapPos
  dsimp only
  rw [List.zip_map']
  have hmk : (kept.map fun tr => (tr.1.1, tr.1.2)) = kept.map Prod.fst := by
    apply List.map_congr_left
    intro tr _
    exact Prod.mk.eta
  rw [hmk, hkept]
  unfold NAPosition.triplets
  rw [map_fst_filter_fst_zip (fun y : Nat × Int => !isGapByte y.1)
    (s.seq_text.zip s.seq_pos) s.seq_flag
    (by simp [List.length_zip]; omega)]
  rw [List.filter_filter]
  rw [show (fun a : Nat × Int => !isGapByte a.1 && !isGapByte a.1)
      = (fun q : Nat × Int => !isGapByte q.1) from funext fun q => by simp]

/-- C3 invariant: every reachable container has equal-length parallel lists
and strictly increasing non-gap coordinates. -/
theorem reachable_invariant (s : NAPosition) (h : NAPosition.Reachable s) :
    NAPosition.WF s ∧ List.Pairwise (· < ·) (nonGapPos s) := by
  induction h with
  | init_from_nastring bs =>
    refine ⟨⟨?_, ?_⟩, pairwise_nonGapPos_init bs⟩
    · unfold NAPosition.init_from_nastring enumerate_seq_pos
      dsimp only
      rw [length_enumPos]
    · unfold NAPosition.init_from_nastring
      simp
  | init_gaps n =>
    refine ⟨⟨by simp [NAPosition.init_gaps], by simp [NAPosition.init_gaps]⟩, ?_⟩
    rw [nonGapPos_init_gaps]
    exact List.Pairwise.nil
  | slice s a b _ ih =>
    obtain ⟨⟨h1, h2⟩, hp⟩ := ih
    refine ⟨⟨?_, ?_⟩, hp.sublist (nonGapPos_slice_sublist s a b)⟩
    · simp only [NAPosition.slice, pySlice, List.length_take, List.length_drop]
      omega
    · simp only [NAPosition.slice, pySlice, List.length_take, List.length_drop]
      omega
  | add s t _ _ hcompat ihs iht =>
    obtain ⟨⟨hs1, hs2⟩, hps⟩ := ihs
    obtain ⟨⟨ht1, ht2⟩, hpt⟩ := iht
    refine ⟨⟨by simp [NAPosition.add, hs1, ht1], by simp [NAPosition.add, hs2, ht2]⟩, ?_⟩
    rw [nonGapPos_add s t hs1]
    rw [List.pairwise_append]
    exact ⟨hps, hpt, hcompat⟩
  | insert_gaps s a b n _ ih =>
    obtain ⟨⟨h1, h2⟩, hp⟩ := ih
    refine ⟨⟨?_, ?_⟩, hp.sublist (nonGapPos_setitem_gaps_sublist s a b n h1)⟩
    · simp only [NAPosition.setitem, NAPosition.init_gaps, pySetSlice,
        List.length_append, List.length_take, List.length_drop,
        List.length_replicate]
      omega
    · simp only [NAPosition.setitem, NAPosition.init_gaps, pySetSlice,
        List.length_append, List.length_take, List.length_drop,
        List.length_replicate]
      omega
  | remove_gaps s _ ih =>
    obtain ⟨⟨h1, h2⟩, hp⟩ := ih
    refine ⟨⟨by simp [NAPosition.remove_gaps], by simp [NAPosition.remove_gaps]⟩, ?_⟩
    rw [nonGapPos_remove_gaps s h1 h2]
    exact hp

/-- C3 (counterexample): concatenating the container built from `AC`
(coordinates `[1, 2]`) with itself — a value reachable through the claim's
listed operations `init_from_nastring` and concatenation alone — yields
non-gap coordinates `[1, 2, 1, 2]`, which are not strictly increasing. -/
theorem c3_counterexample :
    ¬ List.Pairwise (· < ·)
      (nonGapPos ((NAPosition.init_from_nastring [65, 67]).add
        (NAPosition.init_from_nastring [65, 67]))) := by
  decide

/-- C3 (amended): every container reachable through `init_from_nastring`,
`init_gaps`, slicing, gap insertion via slice assignment, `remove_gaps`, and
concatenation of coordinate-compatible operands (each left non-gap
coordinate below each right one) has strictly increasing non-gap
coordinates; and `init_from_nastring` assigns coordinates `1..N` to the
non-gap bytes in input order and `-1` to every gap byte. -/
theorem c3_coordinate_monotonicity_amended :
    (∀ s, NAPosition.Reachable s → List.Pairwise (· < ·) (nonGapPos s)) ∧
    (∀ bs : List Nat,
      nonGapPos (NAPosition.init_from_nastring bs)
        = (List.range ((bs.map upperByte).countP (fun b => !isGapByte b))).map
            (fun k : Nat => 1 + (k : Int)) ∧
      ∀ q ∈ (NAPosition.init_from_nastring bs).seq_text.zip
          (NAPosition.init_from_nastring bs).seq_pos,
        isGapByte q.1 = true → q.2 = -1) :=
  ⟨fun s h => (reachable_invariant s h).2,
    fun bs => ⟨nonGapPos_init_from_nastring bs,
      enumPos_gap_eq_neg_one (bs.map upperByte) 1⟩⟩

/-- C3 (witness): the amended theorem applied to the concrete container
`init_from_nastring "AC-" ++ init_gaps 2` (compatible concatenation). -/
theorem c3_coordinate_monotonicity_amended_witness :
    List.Pairwise (· < ·)
      (nonGapPos ((NAPosition.init_from_nastring [65, 67, 45]).add
        (NAPosition.init_gaps 2))) :=
  c3_coordinate_monotonicity_amended.1 _
    (NAPosition.Reachable.add _ _
      (NAPosition.Reachable.init_from_nastring _)
      (NAPosition.Reachable.init_gaps _)
      (by decide))

/-! ## C8: `sanitize_sequence` (`models/_sequence.py`)

The nucleotide path of `sanitize_sequence` (the amino-acid type checks of
the source reject `AAPosition` inputs before this logic; the embedding is
the nucleotide-only data model). -/

/-- `VALID_NOTATIONS[NAPosition]`: the byte codes of `ACGTUWSMKRYBDHVN.-`. -/
def validNAByte (b : Nat) : Bool :=
  b == 65 || b == 67 || b == 71 || b == 84 || b == 85 || b == 87 || b == 83 ||
  b == 77 || b == 75 || b == 82 || b == 89 || b == 66 || b == 68 || b == 72 ||
  b == 86 || b == 78 || b == 46 || b == 45

/-- `sanitize_sequence`: split the symbols into valids and invalids; with
invalids present, lenient mode (`skip_invalid`) keeps exactly the valids,
strict mode raises; with no invalid symbol the input is returned
unchanged. -/
def sanitize_sequence (seqtext : List NAPos) (header : String)
    (skip_invalid : Bool) : Except String (List NAPos) :=
  let valids := seqtext.filter (fun one => validNAByte one.code)
  let invalids := (seqtext.filter (fun one => !validNAByte one.code)).map
    (fun one => one.code)
  if invalids ≠ [] ∧ skip_invalid then Except.ok valids
  else if invalids ≠ [] then
    Except.error ("sequence " ++ header ++ " contains invalid notation(s) " ++
      "while skip_invalid=False")
  else Except.ok seqtext

/-- C8: strict-mode sanitization raises exactly when some symbol's byte is
outside `ACGTUWSMKRYBDHVN` plus the gap markers; lenient mode always returns
the subsequence of valid symbols unchanged (stripping every invalid one);
and an input with no invalid byte passes through unchanged in both modes. -/
theorem c8_sanitize_sequence (seqtext : List NAPos) (header : String) :
    ((∃ e, sanitize_sequence seqtext header false = Except.error e)
      ↔ ∃ one ∈ seqtext, validNAByte one.code = false) ∧
    (sanitize_sequence seqtext header true
      = Except.ok (seqtext.filter (fun one => validNAByte one.code))) ∧
    ((∀ one ∈ seqtext, validNAByte one.code = true) →
      sanitize_sequence seqtext header false = Except.ok seqtext ∧
      sanitize_sequence seqtext header true = Except.ok seqtext) := by
  have hinv : ((seqtext.filter (fun one => !validNAByte one.code)).map
      (fun one => one.code) ≠ [])
      ↔ ∃ one ∈ seqtext, validNAByte one.code = false := by
    rw [ne_eq, List.map_eq_nil_iff, List.filter_eq_nil_iff]
    constructor
    · intro h
      by_contra hcon
      push_neg at hcon
      apply h
      intro a ha
      have := hcon a ha
      simp [this]
    · rintro ⟨one, hone, hv⟩ hall
      exact absurd (by simp [hv]) (hall one hone)
  refine ⟨?_, ?_, ?_⟩
  · constructor
    · rintro ⟨e, he⟩
      unfold sanitize_sequence at he
      dsimp only at he
      split at he
      · exact absurd he (by simp)
      · split at he
        · rename_i h2
          exact hinv.mp h2
        · exact absurd he (by simp)
    · intro hex
      unfold sanitize_sequence
      dsimp only
      rw [if_neg (by simp), if_pos (hinv.mpr hex)]
      exact ⟨_, rfl⟩
  · unfold sanitize_sequence
    dsimp only
    by_cases h : (seqtext.filter (fun one => !validNAByte one.code)).map
        (fun one => one.code) ≠ []
    · rw [if_pos ⟨h, rfl⟩]
    · rw [if_neg (fun hcon => h hcon.1), if_neg h]
      push_neg at h
      congr 1
      rw [List.map_eq_nil_iff, List.filter_eq_nil_iff] at h
      symm
      apply List.filter_eq_self.mpr
      intro a ha
      have := h a ha
      simpa using this
  · intro hall
    have hemp : (seqtext.filter (fun one => !validNAByte one.code)).map
        (fun one => one.code) = [] := by
      rw [List.map_eq_nil_iff, List.filter_eq_nil_iff]
      intro a ha
      simp [hall a ha]
    constructor
    · unfold sanitize_sequence
      dsimp only
      rw [if_neg (by simp [hemp]), if_neg (by simp [hemp])]
    · unfold sanitize_sequence
      dsimp only
      rw [if_neg (by simp [hemp]), if_neg (by simp [hemp])]

/-- C8 (witness): the theorem applied to the concrete sequence `AXG`
(`X` = byte 88 is outside the alphabet): lenient mode strips the `X`,
strict mode raises. -/
theorem c8_sanitize_sequence_witness :
    (sanitize_sequence
        [⟨65, 1, 0⟩, ⟨88, 2, 0⟩, ⟨71, 3, 0⟩] "q" true
      = Except.ok (([⟨65, 1, 0⟩, ⟨88, 2, 0⟩, ⟨71, 3, 0⟩] : List NAPos).filter
          (fun one => validNAByte one.code))) ∧
    (∃ e, sanitize_sequence
        [⟨65, 1, 0⟩, ⟨88, 2, 0⟩, ⟨71, 3, 0⟩] "q" false = Except.error e) :=
  ⟨(c8_sanitize_sequence [⟨65, 1, 0⟩, ⟨88, 2, 0⟩, ⟨71, 3, 0⟩] "q").2.1,
    (c8_sanitize_sequence [⟨65, 1, 0⟩, ⟨88, 2, 0⟩, ⟨71, 3, 0⟩] "q").1.mpr
      ⟨⟨88, 2, 0⟩, by decide, by decide⟩⟩

/-! ## `group_by_codons` (`utils/group_by_codons.py`)

The source zips the two tracks and walks the columns: columns before the
first non-gap reference symbol are discarded (`lastrefcodon is None`); a new
codon begins at every non-gap reference symbol whose running non-gap count
`bp` hits 0 mod 3; every other column is appended to the current codon.
`gbcTake cols cnt` collects the remainder of the current codon when `cnt`
non-gap reference symbols are already in it, and `gbcChunks` produces the
codons as lists of `(refna, seqna)` columns. -/

/-- Number of columns with a non-gap reference symbol. -/
def countNongapFst (cd : List (NAPos × NAPos)) : Nat :=
  (cd.filter (fun c => !c.1.is_gap)).length

def gbcTake : List (NAPos × NAPos) → Nat →
    List (NAPos × NAPos) × List (NAPos × NAPos)
  | [], _ => ([], [])
  | col :: rest, cnt =>
    if !col.1.is_gap && cnt == 3 then ([], col :: rest)
    else
      let p := gbcTake rest (if col.1.is_gap then cnt else cnt + 1)
      (col :: p.1, p.2)

theorem gbcTake_append (l : List (NAPos × NAPos)) :
    ∀ cnt, (gbcTake l cnt).1 ++ (gbcTake l cnt).2 = l := by
  induction l with
  | nil => intro cnt; rfl
  | cons col rest ih =>
    intro cnt
    rw [gbcTake]
    split
    · rfl
    · dsimp only
      rw [List.cons_append, ih]

theorem gbcTake_rem_length (l : List (NAPos × NAPos)) :
    ∀ cnt, (gbcTake l cnt).2.length ≤ l.length := by
  induction l with
  | nil => intro cnt; simp [gbcTake]
  | cons col rest ih =>
    intro cnt
    rw [gbcTake]
    split
    · simp
    · dsimp only
      exact le_trans (ih _) (by simp)

theorem gbcTake_rem_head (l : List (NAPos × NAPos)) :
    ∀ cnt, ∀ c ∈ (gbcTake l cnt).2.take 1, c.1.is_gap = false := by
  induction l with
  | nil => intro cnt c hc; simp [gbcTake] at hc
  | cons col rest ih =>
    intro cnt c hc
    rw [gbcTake] at hc
    split at hc
    · rename_i hcond
      simp only [List.take_succ_cons, List.take_zero, List.mem_singleton] at hc
      subst hc
      rcases Bool.and_eq_true_iff.mp hcond with ⟨h1, _⟩
      simpa using h1
    · dsimp only at hc
      exact ih _ c hc

def gbcChunksAux : Nat → List (NAPos × NAPos) → List (List (NAPos × NAPos))
  | 0, _ => []
  | _ + 1, [] => []
  | fuel + 1, col :: rest =>
    if col.1.is_gap then gbcChunksAux fuel rest
    else
      let p := gbcTake rest 1
      (col :: p.1) :: gbcChunksAux fuel p.2

def gbcChunks (cols : List (NAPos × NAPos)) : List (List (NAPos × NAPos)) :=
  gbcChunksAux cols.length cols

/-- `group_by_codons(refnas, seqnas)`: group the zipped columns into codons
and split each codon back into its reference and query symbols. -/
def group_by_codons (refnas seqnas : List NAPos) :
    List (List NAPos) × List (List NAPos) :=
  let chunks := gbcChunks (refnas.zip seqnas)
  (chunks.map (fun cd => cd.map Prod.fst),
    chunks.map (fun cd => cd.map Prod.snd))

theorem gbcChunksAux_fuel_irrel :
    ∀ f1 f2 (l : List (NAPos × NAPos)), l.length ≤ f1 → l.length ≤ f2 →
      gbcChunksAux f1 l = gbcChunksAux f2 l := by
  intro f1
  induction f1 with
  | zero =>
    intro f2 l h1 _
    have : l = [] := List.eq_nil_of_length_eq_zero (Nat.le_zero.mp h1)
    subst this
    cases f2 <;> rfl
  | succ f1 ih =>
    intro f2 l h1 h2
    match l, f2 with
    | [], f2 => cases f2 <;> rfl
    | col :: rest, 0 => simp at h2
    | col :: rest, f2 + 1 =>
      simp only [List.length_cons, Nat.add_le_add_iff_right] at h1 h2
      rw [gbcChunksAux, gbcChunksAux]
      by_cases hg : col.1.is_gap
      · simp only [hg, if_true]
        exact ih f2 rest h1 h2
      · simp only [hg, Bool.false_eq_true, if_false]
        have hrem := gbcTake_rem_length rest 1
        rw [ih f2 (gbcTake rest 1).2 (by omega) (by omega)]

theorem dropWhile_eq_self_of_head {α : Type} (p : α → Bool) (l : List α)
    (h : ∀ c ∈ l.take 1, p c = false) : l.dropWhile p = l := by
  match l with
  | [] => rfl
  | x :: xs =>
    rw [List.dropWhile_cons]
    have : p x = false := h x (by simp)
    simp [this]

theorem gbcChunksAux_flatten :
    ∀ fuel (cols : List (NAPos × NAPos)), cols.length ≤ fuel →
      (gbcChunksAux fuel cols).flatten
        = cols.dropWhile (fun c => c.1.is_gap) := by
  intro fuel
  induction fuel with
  | zero =>
    intro cols h
    have : cols = [] := List.eq_nil_of_length_eq_zero (Nat.le_zero.mp h)
    subst this
    rfl
  | succ fuel ih =>
    intro cols h
    match cols with
    | [] => rfl
    | col :: rest =>
      simp only [List.length_cons, Nat.add_le_add_iff_right] at h
      rw [gbcChunksAux, List.dropWhile_cons]
      by_cases hg : col.1.is_gap
      · simp only [hg, if_true]
        exact ih rest h
      · simp only [hg, Bool.false_eq_true, if_false]
        rw [List.flatten_cons]
        have hrem := gbcTake_rem_length rest 1
        rw [ih (gbcTake rest 1).2 (by omega)]
        rw [dropWhile_eq_self_of_head _ _ (gbcTake_rem_head rest 1)]
        rw [List.cons_append, gbcTake_append]

theorem gbcTake_count (l : List (NAPos × NAPos)) :
    ∀ cnt, cnt ≤ 3 →
      countNongapFst (gbcTake l cnt).1 + cnt ≤ 3 ∧
      ((gbcTake l cnt).2 ≠ [] → countNongapFst (gbcTake l cnt).1 + cnt = 3) := by
  induction l with
  | nil =>
    intro cnt hc
    refine ⟨by simpa [gbcTake, countNongapFst] using hc, ?_⟩
    intro hcon
    exact absurd (show (gbcTake [] cnt).2 = [] from rfl) hcon
  | cons col rest ih =>
    intro cnt hc
    rw [gbcTake]
    split
    · rename_i hcond
      rcases Bool.and_eq_true_iff.mp hcond with ⟨_, h3⟩
      have : cnt = 3 := by simpa using h3
      subst this
      exact ⟨by simp [countNongapFst], fun _ => by simp [countNongapFst]⟩
    · rename_i hcond
      by_cases hg : col.1.is_gap
      · dsimp only
        have hcnt : (if col.1.is_gap then cnt else cnt + 1) = cnt := by
          simp [hg]
        rw [hcnt]
        obtain ⟨hle, heq⟩ := ih cnt hc
        have hfil : countNongapFst (col :: (gbcTake rest cnt).1)
            = countNongapFst (gbcTake rest cnt).1 := by
          unfold countNongapFst
          rw [List.filter_cons]
          simp [hg]
        rw [hfil]
        exact ⟨hle, heq⟩
      · have hcnt3 : cnt ≠ 3 := by
          intro hcon
          subst hcon
          apply hcond
          simp [hg]
        have hcle : cnt + 1 ≤ 3 := by omega
        dsimp only
        have hcnt : (if col.1.is_gap then cnt else cnt + 1) = cnt + 1 := by
          simp [hg]
        rw [hcnt]
        obtain ⟨hle, heq⟩ := ih (cnt + 1) hcle
        have hfil : countNongapFst (col :: (gbcTake rest (cnt + 1)).1)
            = countNongapFst (gbcTake rest (cnt + 1)).1 + 1 := by
          unfold countNongapFst
          rw [List.filter_cons]
          simp [hg]
        rw [hfil]
        exact ⟨by omega, fun hne => by have := heq hne; omega⟩

theorem gbcChunksAux_nil (fuel : Nat) : gbcChunksAux fuel [] = [] := by
  cases fuel <;> rfl

theorem gbcChunksAux_struct :
    ∀ fuel (cols : List (NAPos × NAPos)), cols.length ≤ fuel →
      (∀ cd ∈ gbcChunksAux fuel cols,
        cd ≠ [] ∧ (∀ c ∈ cd.take 1, c.1.is_gap = false) ∧
        1 ≤ countNongapFst cd ∧ countNongapFst cd ≤ 3) ∧
      (∀ cd ∈ (gbcChunksAux fuel cols).dropLast, countNongapFst cd = 3) := by
  intro fuel
  induction fuel with
  | zero =>
    intro cols h
    have : cols = [] := List.eq_nil_of_length_eq_zero (Nat.le_zero.mp h)
    subst this
    exact ⟨by simp [gbcChunksAux], by simp [gbcChunksAux]⟩
  | succ fuel ih =>
    intro cols h
    match cols with
    | [] => exact ⟨by simp [gbcChunksAux], by simp [gbcChunksAux]⟩
    | col :: rest =>
      simp only [List.length_cons, Nat.add_le_add_iff_right] at h
      rw [gbcChunksAux]
      by_cases hg : col.1.is_gap
      · simp only [hg, if_true]
        exact ih rest h
      · simp only [hg, Bool.false_eq_true, if_false]
        have hrem := gbcTake_rem_length rest 1
        obtain ⟨ihall, ihlast⟩ := ih (gbcTake rest 1).2 (by omega)
        have hcount : countNongapFst (col :: (gbcTake rest 1).1)
            = countNongapFst (gbcTake rest 1).1 + 1 := by
          unfold countNongapFst
          rw [List.filter_cons]
          simp [hg]
        obtain ⟨htle, hteq⟩ := gbcTake_count rest 1 (by omega)
        constructor
        · intro cd hcd
          rcases List.mem_cons.mp hcd with hh | hh
          · subst hh
            refine ⟨by simp, ?_, ?_, ?_⟩
            · intro c hc
              simp only [List.take_succ_cons, List.take_zero,
                List.mem_singleton] at hc
              subst hc
              simpa using hg
            · rw [hcount]; omega
            · rw [hcount]; omega
          · exact ihall cd hh
        · intro cd hcd
          by_cases hnil : gbcChunksAux fuel (gbcTake rest 1).2 = []
          · rw [hnil] at hcd
            simp at hcd
          · rw [List.dropLast_cons_of_ne_nil hnil] at hcd
            rcases List.mem_cons.mp hcd with hh | hh
            · subst hh
              have hp2 : (gbcTake rest 1).2 ≠ [] := by
                intro hcon
                apply hnil
                rw [hcon]
                exact gbcChunksAux_nil fuel
              rw [hcount]
              have := hteq hp2
              omega
            · exact ihlast cd hh

theorem dropWhile_eq_drop_len_takeWhile {α : Type} (p : α → Bool) (l : List α) :
    l.dropWhile p = l.drop ((l.takeWhile p).length) := by
  induction l with
  | nil => rfl
  | cons x xs ih =>
    rw [List.dropWhile_cons, List.takeWhile_cons]
    by_cases hx : p x
    · simp only [hx, if_true, List.length_cons, List.drop_succ_cons]
      exact ih
    · have hx' : p x = false := by simpa using hx
      simp [hx']

theorem takeWhile_zip_fst_length (p : NAPos → Bool) :
    ∀ (a : List NAPos) (b : List NAPos), a.length = b.length →
      ((a.zip b).takeWhile (fun c => p c.1)).length
        = (a.takeWhile p).length := by
  intro a
  induction a with
  | nil => intro b _; simp
  | cons x xs ih =>
    intro b hb
    match b with
    | [] => simp at hb
    | y :: ys =>
      rw [List.zip_cons_cons, List.takeWhile_cons, List.takeWhile_cons]
      by_cases hx : p x
      · simp only [hx, if_true]
        simp only [List.length_cons]
        rw [ih ys (by simpa using hb)]
      · have hx' : p x = false := by simpa using hx
        simp [hx']

theorem map_flatten_eq {α β : Type} (f : α → β) (l : List (List α)) :
    (l.map (fun cd => cd.map f)).flatten = l.flatten.map f := by
  induction l with
  | nil => rfl
  | cons x xs ih =>
    rw [List.map_cons, List.flatten_cons, List.flatten_cons,
      List.map_append, ih]

/-- C10: for equal-length tracks, `group_by_codons` discards exactly the
columns preceding the first non-gap reference symbol: the concatenation of
the reference codons is the reference track with those leading columns
removed, the query codons likewise lose exactly those columns, and every
returned codon except possibly the last contains exactly three non-gap
reference symbols. -/
theorem c10_group_by_codons (refnas seqnas : List NAPos)
    (hlen : refnas.length = seqnas.length) :
    (group_by_codons refnas seqnas).1.flatten
      = refnas.drop ((refnas.takeWhile (fun na => na.is_gap)).length) ∧
    (group_by_codons refnas seqnas).2.flatten
      = seqnas.drop ((refnas.takeWhile (fun na => na.is_gap)).length) ∧
    ∀ cd ∈ (group_by_codons refnas seqnas).1.dropLast,
      NAPos.count_nongaps cd = 3 := by
  have hflat : (gbcChunks (refnas.zip seqnas)).flatten
      = (refnas.zip seqnas).drop
          ((refnas.takeWhile (fun na => na.is_gap)).length) := by
    unfold gbcChunks
    rw [gbcChunksAux_flatten _ _ le_rfl,
      dropWhile_eq_drop_len_takeWhile,
      takeWhile_zip_fst_length (fun na => na.is_gap) refnas seqnas hlen]
  refine ⟨?_, ?_, ?_⟩
  · unfold group_by_codons
    dsimp only
    rw [map_flatten_eq, hflat, List.map_drop]
    rw [List.map_fst_zip refnas seqnas (le_of_eq hlen)]
  · unfold group_by_codons
    dsimp only
    rw [map_flatten_eq, hflat, List.map_drop]
    rw [List.map_snd_zip refnas seqnas (ge_of_eq hlen)]
  · intro cd hcd
    unfold group_by_codons at hcd
    dsimp only at hcd
    rw [← List.map_dropLast] at hcd
    obtain ⟨chunk, hchunk, rfl⟩ := List.mem_map.mp hcd
    have h3 := (gbcChunksAux_struct (refnas.zip seqnas).length
      (refnas.zip seqnas) le_rfl).2 chunk hchunk
    unfold NAPos.count_nongaps
    rw [List.filter_map]
    simp only [List.length_map]
    exact h3

/-- C10 (witness): the theorem applied to reference `-ACGTA` (one leading
gap column, codons `ACG` and `TA`) and query `GGGGGG`. -/
theorem c10_group_by_codons_witness :
    (group_by_codons (NAPos.init_from_bytes [45, 65, 67, 71, 84, 65])
        (NAPos.init_from_bytes [71, 71, 71, 71, 71, 71])).1.flatten
      = (NAPos.init_from_bytes [45, 65, 67, 71, 84, 65]).drop
          (((NAPos.init_from_bytes [45, 65, 67, 71, 84, 65]).takeWhile
            (fun na => na.is_gap)).length) ∧
    (group_by_codons (NAPos.init_from_bytes [45, 65, 67, 71, 84, 65])
        (NAPos.init_from_bytes [71, 71, 71, 71, 71, 71])).2.flatten
      = (NAPos.init_from_bytes [71, 71, 71, 71, 71, 71]).drop
          (((NAPos.init_from_bytes [45, 65, 67, 71, 84, 65]).takeWhile
            (fun na => na.is_gap)).length) ∧
    ∀ cd ∈ (group_by_codons (NAPos.init_from_bytes [45, 65, 67, 71, 84, 65])
        (NAPos.init_from_bytes [71, 71, 71, 71, 71, 71])).1.dropLast,
      NAPos.count_nongaps cd = 3 :=
  c10_group_by_codons _ _ (by decide)

/-! ## PAF assembler (`parsers/paf.py`)

The per-query assembling loop of `load` (its *assembling* state): the
no-record and all-reverse branches yield empty `error()` pairs before this
loop and reverse-strand records are dropped while building `paf_lookup`, so
the assembler proper receives only forward records.  Python `set`s of
indices become `Finset ℕ`; Python's `sorted(..., key=(tend, tstart),
reverse=True)` becomes a stable descending insertion sort on the same key.
The source's in-place mutation of the shared `messages` list becomes the
`messages` field of the state; a fatal `ValueError` from the CIGAR decoder
becomes `Except.error` (it aborts the sequence as in the source). -/

def natStr (n : Nat) : String := ⟨natToChars n⟩

inductive MessageLevel
  | INFO
  | WARNING
  | ERROR
  deriving Repr, DecidableEq

structure Message where
  seqid : Nat
  level : MessageLevel
  text : String
  deriving Repr, DecidableEq

/-- One PAF record's consumed fields: target start/end, query start/end and
the `cg` tag (forward strand). -/
structure PafRec where
  tstart : Nat
  tend : Nat
  qstart : Nat
  qend : Nat
  cg : String
  deriving Repr, DecidableEq

/-- Sort key `(tend, tstart)` as used by the assembler. -/
def pafKey (r : PafRec) : Nat × Nat := (r.tend, r.tstart)

def pafKeyLt (a b : Nat × Nat) : Bool :=
  a.1 < b.1 || (a.1 == b.1 && a.2 < b.2)

/-- Stable descending insertion: `r` is placed before the first element with
a strictly smaller key, i.e. after all elements with keys ≥ its own. -/
def insertPafDesc (r : PafRec) : List PafRec → List PafRec
  | [] => [r]
  | x :: xs =>
    if pafKeyLt (pafKey x) (pafKey r) then r :: x :: xs
    else x :: insertPafDesc r xs

/-- `sorted(pafs, key=lambda x: (x[1], x[0]), reverse=True)`. -/
def sortPafsDesc (l : List PafRec) : List PafRec :=
  l.foldl (fun acc r => insertPafDesc r acc) []

/-- `insert_unaligned_region` from `parsers/paf.py`: compute the unaligned
sizes on both axes, no-op when the sequence axis crossed (negative size) or
both sizes are zero; otherwise insert that many reference gaps and the
`UNALIGNED`-flagged slice of the original query bytes at
`align1_ref_end + offset` in both buffers.  (The source's negative
insertion index — Python wrap-around indexing on doubly malformed input —
is clamped to 0 here; no claim exercises it.) -/
def insert_unaligned_region (reftext seqtext orig_seqtext : List NAPos)
    (align1_ref_end align1_seq_end align2_ref_start align2_seq_start : Nat)
    (insert_close_to : Nat) : List NAPos × List NAPos :=
  let unaligned_ref_size : Int :=
    (align2_ref_start : Int) - (align1_ref_end : Int)
  let unaligned_seq_size : Int :=
    (align2_seq_start : Int) - (align1_seq_end : Int)
  let offset0 : Int := min unaligned_ref_size unaligned_seq_size
  let offset : Int :=
    if insert_close_to = 2 then unaligned_ref_size - offset0 else offset0
  if unaligned_seq_size < 0 then (reftext, seqtext)
  else if unaligned_ref_size = 0 ∧ unaligned_seq_size = 0 then
    (reftext, seqtext)
  else
    let idx : Nat := ((align1_ref_end : Int) + offset).toNat
    let reftext' := pyInsertAt reftext idx
      (NAPos.init_gaps unaligned_seq_size.toNat)
    let unaligneds := NAPos.set_flag
      (pySlice orig_seqtext align1_seq_end
        (align1_seq_end + unaligned_seq_size.toNat))
      PositionFlag.UNALIGNED
    let seqtext' := pyInsertAt seqtext idx unaligneds
    (reftext', seqtext')

/-- Assembler state carried through the record loop of `load`. -/
structure AsmState where
  final_reftext : List NAPos
  final_seqtext : List NAPos
  prev_ref_start : Nat
  prev_seq_start : Nat
  ref_paf_params : List String
  seq_paf_params : List String
  scanned_ref_range : Finset Nat
  scanned_seq_range : Finset Nat
  messages : List Message

def pafOmitSeqText (seq_start seq_end ref_start ref_end : Nat) : String :=
  "Alignment of " ++ natStr seq_start ++ "-" ++ natStr seq_end ++
  " to reference region " ++ natStr ref_start ++ "-" ++ natStr ref_end ++
  " is omitted, since " ++ "the SEQ has already been aligned" ++ "."

def pafOmitRefText (seq_start seq_end ref_start ref_end : Nat) : String :=
  "Alignment of " ++ natStr seq_start ++ "-" ++ natStr seq_end ++
  " to reference region " ++ natStr ref_start ++ "-" ++ natStr ref_end ++
  " is omitted, since " ++ "the REF has already been aligned" ++ "."

def pafPartialOmitRefText (seq_start seq_end ref_start ref_end : Nat) :
    String :=
  "Alignment of " ++ natStr seq_start ++ "-" ++ natStr seq_end ++
  " to reference region " ++ natStr ref_start ++ "-" ++ natStr ref_end ++
  " is partially omitted, since " ++ "the REF has already been aligned" ++ "."

def finsetMax (s : Finset Nat) : Nat := s.max.unbot' 0

/-- One iteration of the record loop of `load`: the query-overlap check
(drop with a SEQ warning), the reference-overlap resolution (drop with a REF
warning when nothing remains, shrink with a partial-omission warning
otherwise), CIGAR decoding, the recomputed `seq_end` for shrunk records,
parameter recording, unaligned-region filling against the previous record,
and writing the decoded spans into the output buffers. -/
def processPafRecord (refSyms seqSyms : List NAPos) (seqid : Nat)
    (st : AsmState) (r : PafRec) : Except String AsmState :=
  let ref_start := r.tstart
  let seq_start := r.qstart
  let cigar_obj := CIGAR.ofString ref_start seq_start r.cg
  let ref_range := Finset.Ico ref_start r.tend
  let seq_range := Finset.Ico seq_start r.qend
  if seq_range ∩ st.scanned_seq_range ≠ ∅ then
    Except.ok { st with messages := st.messages ++
      [⟨seqid, MessageLevel.WARNING,
        pafOmitSeqText seq_start r.qend ref_start r.tend⟩] }
  else if ref_range ∩ st.scanned_ref_range ≠ ∅ ∧
      ref_range \ st.scanned_ref_range = ∅ then
    Except.ok { st with messages := st.messages ++
      [⟨seqid, MessageLevel.WARNING,
        pafOmitRefText seq_start r.qend ref_start r.tend⟩] }
  else
    let shr :=
      if ref_range ∩ st.scanned_ref_range ≠ ∅ then
        let ref_range2 := ref_range \ st.scanned_ref_range
        let ref_end2 := finsetMax ref_range2 + 1
        let cigar_obj2 := cigar_obj.shrink_by_ref (ref_end2 - ref_start)
        (true, ref_end2, ref_range2, cigar_obj2, cigar_obj2.cigar_string,
          [(⟨seqid, MessageLevel.WARNING,
            pafPartialOmitRefText seq_start r.qend ref_start r.tend⟩ :
            Message)])
      else
        (false, r.tend, ref_range, cigar_obj, r.cg, ([] : List Message))
    match shr.2.2.2.1.get_alignment refSyms seqSyms with
    | Except.error e => Except.error e
    | Except.ok d =>
      let is_shrunken := shr.1
      let ref_end := shr.2.1
      let cigar_text := shr.2.2.2.2.1
      let seq_end :=
        if is_shrunken then seq_start + NAPos.count_nongaps d.2 else r.qend
      let fill := insert_unaligned_region st.final_reftext st.final_seqtext
        seqSyms ref_end seq_end st.prev_ref_start st.prev_seq_start 1
      Except.ok {
        final_reftext := pySetSlice fill.1 ref_start ref_end d.1
        final_seqtext := pySetSlice fill.2 ref_start ref_end d.2
        prev_ref_start := ref_start
        prev_seq_start := seq_start
        ref_paf_params := st.ref_paf_params ++
          [natStr ref_start ++ "," ++ natStr ref_end ++ "," ++ cigar_text]
        seq_paf_params := st.seq_paf_params ++
          [natStr seq_start ++ "," ++ natStr seq_end ++ "," ++ cigar_text]
        scanned_ref_range := st.scanned_ref_range ∪ shr.2.2.1
        scanned_seq_range := st.scanned_seq_range ∪ seq_range
        messages := st.messages ++ shr.2.2.2.2.2 }

/-- Result of assembling one query: the two output buffers, the recorded
`paf(...)` parameter triples and the diagnostic messages. -/
structure AsmResult where
  final_reftext : List NAPos
  final_seqtext : List NAPos
  ref_paf_params : List String
  seq_paf_params : List String
  messages : List Message
  deriving Repr, DecidableEq

/-- Whether a symbol carries the `UNALIGNED` flag (`flag & UNALIGNED`
truthiness). -/
def NAPos.isUnaligned (p : NAPos) : Bool :=
  p.flag &&& PositionFlag.UNALIGNED != 0

/-- Post-loop work of the assembling state: the final unaligned-region fill
biased toward the start of the sequence (`insert_close_to = 2`), then the
masking pass that overwrites with a single gap every `UNALIGNED` symbol
whose coordinate was also claimed by a properly aligned symbol. -/
def finalizeAsm (seqSyms : List NAPos) (st : AsmState) : AsmResult :=
  let fill := insert_unaligned_region st.final_reftext st.final_seqtext
    seqSyms 0 0 st.prev_ref_start st.prev_seq_start 2
  let aligned_positions : List Int := fill.2.foldl
    (fun acc p =>
      if !p.isUnaligned && decide (p.pos > -1) then p.pos :: acc else acc) []
  let masked := fill.2.map (fun p =>
    if p.isUnaligned && decide (p.pos > -1) &&
        aligned_positions.contains p.pos then
      (⟨45, -1, 0⟩ : NAPos)
    else p)
  { final_reftext := fill.1
    final_seqtext := masked
    ref_paf_params := st.ref_paf_params
    seq_paf_params := st.seq_paf_params
    messages := st.messages }

/-- The assembling state of `load` for one query: initialize the output
buffers (copied reference, all-gap query of the same length) and process the
records in descending `(ref_end, ref_start)` order, then finalize. -/
def assemblePafs (refSyms seqSyms : List NAPos) (seqid : Nat)
    (pafs : List PafRec) : Except String AsmResult :=
  let st0 : AsmState := {
    final_reftext := refSyms
    final_seqtext := NAPos.init_gaps refSyms.length
    prev_ref_start := refSyms.length
    prev_seq_start := seqSyms.length
    ref_paf_params := []
    seq_paf_params := []
    scanned_ref_range := ∅
    scanned_seq_range := ∅
    messages := [] }
  match (sortPafsDesc pafs).foldlM (processPafRecord refSyms seqSyms seqid)
      st0 with
  | Except.error e => Except.error e
  | Except.ok st => Except.ok (finalizeAsm seqSyms st)

/-- C2: assembling reference `ACGT` and query `ACNNGT` from the two forward
records `(ref 0-2, seq 0-2, 2M)` and `(ref 2-4, seq 4-6, 2M)` raises no
fatal error and yields reference track `AC--GT` and query track `ACNNGT`,
with exactly the query symbols at indices 2 and 3 (the half-open range
`[2, 4)`) carrying the `UNALIGNED` flag, and no diagnostic message. -/
theorem c2_paf_assembler_example :
    (assemblePafs (NAPos.init_from_bytes [65, 67, 71, 84])
        (NAPos.init_from_bytes [65, 67, 78, 78, 71, 84]) 1
        [⟨0, 2, 0, 2, "2M"⟩, ⟨2, 4, 4, 6, "2M"⟩]).toOption.map
      (fun r => (NAPos.as_str r.final_reftext, NAPos.as_str r.final_seqtext,
        r.final_seqtext.map NAPos.isUnaligned, r.messages))
      = some ("AC--GT", "ACNNGT",
          [false, false, true, true, false, false], []) := by
  decide

/-! ## C5: overlap resolution of the assembler -/

theorem finalizeAsm_messages (seqSyms : List NAPos) (st : AsmState) :
    (finalizeAsm seqSyms st).messages = st.messages := rfl

theorem finalizeAsm_ref_paf_params (seqSyms : List NAPos) (st : AsmState) :
    (finalizeAsm seqSyms st).ref_paf_params = st.ref_paf_params := rfl

theorem exceptBind_ok {α β ε : Type} (a : α) (f : α → Except ε β) :
    ((Except.ok a : Except ε α) >>= f) = f a := rfl

theorem exceptPure {α ε : Type} (a : α) :
    (pure a : Except ε α) = Except.ok a := rfl

/-- Record step when neither axis overlaps anything scanned and decoding
succeeds. -/
theorem processPafRecord_no_overlap (refSyms seqSyms : List NAPos)
    (seqid : Nat) (st : AsmState) (r : PafRec) (d : List NAPos × List NAPos)
    (h1 : Finset.Ico r.qstart r.qend ∩ st.scanned_seq_range = ∅)
    (h2 : Finset.Ico r.tstart r.tend ∩ st.scanned_ref_range = ∅)
    (hd : (CIGAR.ofString r.tstart r.qstart r.cg).get_alignment refSyms
      seqSyms = Except.ok d) :
    processPafRecord refSyms seqSyms seqid st r = Except.ok {
      final_reftext := pySetSlice (insert_unaligned_region st.final_reftext
        st.final_seqtext seqSyms r.tend r.qend st.prev_ref_start
        st.prev_seq_start 1).1 r.tstart r.tend d.1
      final_seqtext := pySetSlice (insert_unaligned_region st.final_reftext
        st.final_seqtext seqSyms r.tend r.qend st.prev_ref_start
        st.prev_seq_start 1).2 r.tstart r.tend d.2
      prev_ref_start := r.tstart
      prev_seq_start := r.qstart
      ref_paf_params := st.ref_paf_params ++
        [natStr r.tstart ++ "," ++ natStr r.tend ++ "," ++ r.cg]
      seq_paf_params := st.seq_paf_params ++
        [natStr r.qstart ++ "," ++ natStr r.qend ++ "," ++ r.cg]
      scanned_ref_range := st.scanned_ref_range ∪ Finset.Ico r.tstart r.tend
      scanned_seq_range := st.scanned_seq_range ∪ Finset.Ico r.qstart r.qend
      messages := st.messages } := by
  unfold processPafRecord
  dsimp only
  rw [if_neg (show ¬ Finset.Ico r.qstart r.qend ∩ st.scanned_seq_range ≠ ∅
    from by simp [h1])]
  rw [if_neg (show ¬ (Finset.Ico r.tstart r.tend ∩ st.scanned_ref_range ≠ ∅ ∧
      Finset.Ico r.tstart r.tend \ st.scanned_ref_range = ∅)
    from fun hc => hc.1 (by simp [h2]))]
  rw [if_neg (show ¬ Finset.Ico r.tstart r.tend ∩ st.scanned_ref_range ≠ ∅
    from by simp [h2])]
  dsimp only
  rw [hd]
  simp

/-- Record step when the query range overlaps something scanned: the record
is dropped with a SEQ-omission warning. -/
theorem processPafRecord_seq_overlap (refSyms seqSyms : List NAPos)
    (seqid : Nat) (st : AsmState) (r : PafRec)
    (h1 : Finset.Ico r.qstart r.qend ∩ st.scanned_seq_range ≠ ∅) :
    processPafRecord refSyms seqSyms seqid st r = Except.ok { st with
      messages := st.messages ++ [⟨seqid, MessageLevel.WARNING,
        pafOmitSeqText r.qstart r.qend r.tstart r.tend⟩] } := by
  unfold processPafRecord
  dsimp only
  rw [if_pos h1]

/-- Record step when the query range is clean but the reference range is
entirely inside the scanned region: the record is dropped with a
REF-omission warning. -/
theorem processPafRecord_ref_full_omit (refSyms seqSyms : List NAPos)
    (seqid : Nat) (st : AsmState) (r : PafRec)
    (h1 : Finset.Ico r.qstart r.qend ∩ st.scanned_seq_range = ∅)
    (h2 : Finset.Ico r.tstart r.tend ∩ st.scanned_ref_range ≠ ∅)
    (h3 : Finset.Ico r.tstart r.tend \ st.scanned_ref_range = ∅) :
    processPafRecord refSyms seqSyms seqid st r = Except.ok { st with
      messages := st.messages ++ [⟨seqid, MessageLevel.WARNING,
        pafOmitRefText r.qstart r.qend r.tstart r.tend⟩] } := by
  unfold processPafRecord
  dsimp only
  rw [if_neg (show ¬ Finset.Ico r.qstart r.qend ∩ st.scanned_seq_range ≠ ∅
    from by simp [h1])]
  rw [if_pos ⟨h2, h3⟩]

/-- Record step when the query range is clean, the reference range overlaps
the scanned region but a non-empty remainder is left, and decoding the
shrunk CIGAR succeeds: the record is shrunk to the remainder with a
partial-omission warning. -/
theorem processPafRecord_ref_partly_omit (refSyms seqSyms : List NAPos)
    (seqid : Nat) (st : AsmState) (r : PafRec) (d : List NAPos × List NAPos)
    (h1 : Finset.Ico r.qstart r.qend ∩ st.scanned_seq_range = ∅)
    (h2 : Finset.Ico r.tstart r.tend ∩ st.scanned_ref_range ≠ ∅)
    (h3 : Finset.Ico r.tstart r.tend \ st.scanned_ref_range ≠ ∅)
    (hd : ((CIGAR.ofString r.tstart r.qstart r.cg).shrink_by_ref
        (finsetMax (Finset.Ico r.tstart r.tend \ st.scanned_ref_range) + 1
          - r.tstart)).get_alignment refSyms seqSyms = Except.ok d) :
    processPafRecord refSyms seqSyms seqid st r = Except.ok {
      final_reftext := pySetSlice (insert_unaligned_region st.final_reftext
        st.final_seqtext seqSyms
        (finsetMax (Finset.Ico r.tstart r.tend \ st.scanned_ref_range) + 1)
        (r.qstart + NAPos.count_nongaps d.2) st.prev_ref_start
        st.prev_seq_start 1).1 r.tstart
        (finsetMax (Finset.Ico r.tstart r.tend \ st.scanned_ref_range) + 1)
        d.1
      final_seqtext := pySetSlice (insert_unaligned_region st.final_reftext
        st.final_seqtext seqSyms
        (finsetMax (Finset.Ico r.tstart r.tend \ st.scanned_ref_range) + 1)
        (r.qstart + NAPos.count_nongaps d.2) st.prev_ref_start
        st.prev_seq_start 1).2 r.tstart
        (finsetMax (Finset.Ico r.tstart r.tend \ st.scanned_ref_range) + 1)
        d.2
      prev_ref_start := r.tstart
      prev_seq_start := r.qstart
      ref_paf_params := st.ref_paf_params ++
        [natStr r.tstart ++ "," ++
          natStr (finsetMax (Finset.Ico r.tstart r.tend \
            st.scanned_ref_range) + 1) ++ "," ++
          ((CIGAR.ofString r.tstart r.qstart r.cg).shrink_by_ref
            (finsetMax (Finset.Ico r.tstart r.tend \ st.scanned_ref_range)
              + 1 - r.tstart)).cigar_string]
      seq_paf_params := st.seq_paf_params ++
        [natStr r.qstart ++ "," ++
          natStr (r.qstart + NAPos.count_nongaps d.2) ++ "," ++
          ((CIGAR.ofString r.tstart r.qstart r.cg).shrink_by_ref
            (finsetMax (Finset.Ico r.tstart r.tend \ st.scanned_ref_range)
              + 1 - r.tstart)).cigar_string]
      scanned_ref_range := st.scanned_ref_range ∪
        (Finset.Ico r.tstart r.tend \ st.scanned_ref_range)
      scanned_seq_range := st.scanned_seq_range ∪
        Finset.Ico r.qstart r.qend
      messages := st.messages ++ [⟨seqid, MessageLevel.WARNING,
        pafPartialOmitRefText r.qstart r.qend r.tstart r.tend⟩] } := by
  unfold processPafRecord
  dsimp only
  rw [if_neg (show ¬ Finset.Ico r.qstart r.qend ∩ st.scanned_seq_range ≠ ∅
    from by simp [h1])]
  rw [if_neg (show ¬ (Finset.Ico r.tstart r.tend ∩ st.scanned_ref_range ≠ ∅ ∧
      Finset.Ico r.tstart r.tend \ st.scanned_ref_range = ∅)
    from fun hc => h3 hc.2)]
  rw [if_pos h2]
  dsimp only
  rw [hd]
  simp

theorem Ico_sdiff_Ico_eq (r2s r2e r1s r1e : Nat) (h1 : r2s < r1s)
    (h2 : r1s ≤ r2e) (h3 : r2e ≤ r1e) :
    Finset.Ico r2s r2e \ Finset.Ico r1s r1e = Finset.Ico r2s r1s := by
  ext x
  simp only [Finset.mem_sdiff, Finset.mem_Ico]
  omega

theorem finsetMax_Ico (a b : Nat) (h : a < b) :
    finsetMax (Finset.Ico a b) = b - 1 := by
  unfold finsetMax
  have hne : (Finset.Ico a b).Nonempty := ⟨a, by simp [Finset.mem_Ico]; omega⟩
  rw [← Finset.coe_max' hne]
  have hval : (Finset.Ico a b).max' hne = b - 1 := by
    apply le_antisymm
    · apply Finset.max'_le
      intro y hy
      simp only [Finset.mem_Ico] at hy
      omega
    · apply Finset.le_max'
      simp only [Finset.mem_Ico]
      omega
  rw [hval]
  rfl

/-- C5 (counterexample): reference `ACGTAC`, query `ACGTAC`, two forward
records `(ref 2-6, seq 2-6, 4M)` (rightmost, processed first) and
`(ref 0-4, seq 0-2, 2M2D)` — reference ranges overlap on `[2, 4)`, query
ranges are disjoint.  Exactly one WARNING mentioning
"the REF has already been aligned" is appended and no error is raised, but
the first-processed record's CIGAR `4M` is recorded unshrunk (`2,6,4M`); it
is the second-processed record whose CIGAR is shrunk (to `2M`, recorded as
`0,2,2M`), contradicting the claim that the first-processed record is
shrunk to the non-overlapping length. -/
theorem c5_counterexample :
    (Finset.Ico 0 4 ∩ Finset.Ico 2 6 ≠ (∅ : Finset Nat)) ∧
    (Finset.Ico 0 2 ∩ Finset.Ico 2 6 = (∅ : Finset Nat)) ∧
    (assemblePafs (NAPos.init_from_bytes [65, 67, 71, 84, 65, 67])
        (NAPos.init_from_bytes [65, 67, 71, 84, 65, 67]) 1
        [⟨0, 4, 0, 2, "2M2D"⟩, ⟨2, 6, 2, 6, "4M"⟩]).toOption.map
      (fun r => (r.messages, r.ref_paf_params))
      = some ([⟨1, MessageLevel.WARNING,
          "Alignment of 0-2 to reference region 0-4 is partially omitted, " ++
          "since the REF has already been aligned."⟩],
        ["2,6,4M", "0,2,2M"]) := by
  decide

/-- C5 (amended): whenever the assembler processes exactly two
forward-strand records for a query whose reference index ranges overlap
while their query index ranges do not, and decoding succeeds, it appends
exactly one WARNING Diagnostic Message whose text mentions "the REF has
already been aligned" and raises no exception; when the non-overlapping
portion of the second-processed (leftmost) record is non-empty, that
record's — not the first-processed record's — CIGAR is shrunk via
`shrink_by_ref` to the non-overlapping reference length; when it is empty,
the second-processed record is dropped entirely. -/
theorem c5_paf_ref_overlap_amended (refSyms seqSyms : List NAPos)
    (seqid : Nat) (pafs : List PafRec) (r1 r2 : PafRec)
    (d1 : List NAPos × List NAPos)
    (hsorted : sortPafsDesc pafs = [r1, r2])
    (htend : r2.tend ≤ r1.tend)
    (hqdisj : Finset.Ico r2.qstart r2.qend ∩ Finset.Ico r1.qstart r1.qend
      = ∅)
    (hoverlap : Finset.Ico r2.tstart r2.tend ∩ Finset.Ico r1.tstart r1.tend
      ≠ ∅)
    (hd1 : (CIGAR.ofString r1.tstart r1.qstart r1.cg).get_alignment refSyms
      seqSyms = Except.ok d1) :
    ((Finset.Ico r2.tstart r2.tend \ Finset.Ico r1.tstart r1.tend ≠ ∅) →
      ∀ d2, ((CIGAR.ofString r2.tstart r2.qstart r2.cg).shrink_by_ref
          (r1.tstart - r2.tstart)).get_alignment refSyms seqSyms
          = Except.ok d2 →
      (assemblePafs refSyms seqSyms seqid pafs).toOption.map
        (fun res => (res.messages, res.ref_paf_params))
        = some ([⟨seqid, MessageLevel.WARNING,
            pafPartialOmitRefText r2.qstart r2.qend r2.tstart r2.tend⟩],
          [natStr r1.tstart ++ "," ++ natStr r1.tend ++ "," ++ r1.cg,
            natStr r2.tstart ++ "," ++ natStr r1.tstart ++ "," ++
              ((CIGAR.ofString r2.tstart r2.qstart r2.cg).shrink_by_ref
                (r1.tstart - r2.tstart)).cigar_string])) ∧
    ((Finset.Ico r2.tstart r2.tend \ Finset.Ico r1.tstart r1.tend = ∅) →
      (assemblePafs refSyms seqSyms seqid pafs).toOption.map
        (fun res => (res.messages, res.ref_paf_params))
        = some ([⟨seqid, MessageLevel.WARNING,
            pafOmitRefText r2.qstart r2.qend r2.tstart r2.tend⟩],
          [natStr r1.tstart ++ "," ++ natStr r1.tend ++ "," ++ r1.cg])) ∧
    (∃ pre post,
      pafPartialOmitRefText r2.qstart r2.qend r2.tstart r2.tend
        = pre ++ "the REF has already been aligned" ++ post) ∧
    (∃ pre post,
      pafOmitRefText r2.qstart r2.qend r2.tstart r2.tend
        = pre ++ "the REF has already been aligned" ++ post) := by
  have hr1s_lt_r2e : r1.tstart < r2.tend := by
    obtain ⟨y, hy⟩ := Finset.nonempty_iff_ne_empty.mpr hoverlap
    simp only [Finset.mem_inter, Finset.mem_Ico] at hy
    omega
  have hstep1 : ∀ st0 : AsmState, st0.scanned_seq_range = ∅ →
      st0.scanned_ref_range = ∅ →
      processPafRecord refSyms seqSyms seqid st0 r1 = Except.ok {
        final_reftext := pySetSlice (insert_unaligned_region st0.final_reftext
          st0.final_seqtext seqSyms r1.tend r1.qend st0.prev_ref_start
          st0.prev_seq_start 1).1 r1.tstart r1.tend d1.1
        final_seqtext := pySetSlice (insert_unaligned_region st0.final_reftext
          st0.final_seqtext seqSyms r1.tend r1.qend st0.prev_ref_start
          st0.prev_seq_start 1).2 r1.tstart r1.tend d1.2
        prev_ref_start := r1.tstart
        prev_seq_start := r1.qstart
        ref_paf_params := st0.ref_paf_params ++
          [natStr r1.tstart ++ "," ++ natStr r1.tend ++ "," ++ r1.cg]
        seq_paf_params := st0.seq_paf_params ++
          [natStr r1.qstart ++ "," ++ natStr r1.qend ++ "," ++ r1.cg]
        scanned_ref_range := st0.scanned_ref_range ∪
          Finset.Ico r1.tstart r1.tend
        scanned_seq_range := st0.scanned_seq_range ∪
          Finset.Ico r1.qstart r1.qend
        messages := st0.messages } := by
    intro st0 hs hr
    exact processPafRecord_no_overlap refSyms seqSyms seqid st0 r1 d1
      (by rw [hs, Finset.inter_empty]) (by rw [hr, Finset.inter_empty]) hd1
  refine ⟨?_, ?_, ?_, ?_⟩
  · intro hrem d2 hd2
    have hr2s_lt_r1s : r2.tstart < r1.tstart := by
      obtain ⟨x, hx⟩ := Finset.nonempty_iff_ne_empty.mpr hrem
      simp only [Finset.mem_sdiff, Finset.mem_Ico] at hx
      omega
    have hdiff : Finset.Ico r2.tstart r2.tend \ Finset.Ico r1.tstart r1.tend
        = Finset.Ico r2.tstart r1.tstart :=
      Ico_sdiff_Ico_eq _ _ _ _ hr2s_lt_r1s (by omega) htend
    have hmax1 : finsetMax (Finset.Ico r2.tstart r2.tend \
        Finset.Ico r1.tstart r1.tend) + 1 = r1.tstart := by
      rw [hdiff, finsetMax_Ico _ _ hr2s_lt_r1s]
      omega
    unfold assemblePafs
    rw [hsorted]
    simp only [List.foldlM_cons, List.foldlM_nil]
    rw [hstep1 _ rfl rfl, exceptBind_ok]
    rw [processPafRecord_ref_partly_omit refSyms seqSyms seqid _ r2 d2
      (by dsimp only; rw [Finset.empty_union]; exact hqdisj)
      (by dsimp only; rw [Finset.empty_union]; exact hoverlap)
      (by dsimp only; rw [Finset.empty_union]; exact hrem)
      (by dsimp only; rw [Finset.empty_union, hmax1]; exact hd2)]
    rw [exceptBind_ok, exceptPure]
    dsimp only
    simp only [Except.toOption, Option.map_some']
    rw [finalizeAsm_messages, finalizeAsm_ref_paf_params]
    dsimp only
    rw [Finset.empty_union, hmax1]
    simp
  · intro hrem
    unfold assemblePafs
    rw [hsorted]
    simp only [List.foldlM_cons, List.foldlM_nil]
    rw [hstep1 _ rfl rfl, exceptBind_ok]
    rw [processPafRecord_ref_full_omit refSyms seqSyms seqid _ r2
      (by dsimp only; rw [Finset.empty_union]; exact hqdisj)
      (by dsimp only; rw [Finset.empty_union]; exact hoverlap)
      (by dsimp only; rw [Finset.empty_union]; exact hrem)]
    rw [exceptBind_ok, exceptPure]
    dsimp only
    simp only [Except.toOption, Option.map_some']
    rw [finalizeAsm_messages, finalizeAsm_ref_paf_params]
    simp
  · exact ⟨"Alignment of " ++ natStr r2.qstart ++ "-" ++ natStr r2.qend ++
      " to reference region " ++ natStr r2.tstart ++ "-" ++
      natStr r2.tend ++ " is partially omitted, since ", ".", rfl⟩
  · exact ⟨"Alignment of " ++ natStr r2.qstart ++ "-" ++ natStr r2.qend ++
      " to reference region " ++ natStr r2.tstart ++ "-" ++
      natStr r2.tend ++ " is omitted, since ", ".", rfl⟩

/-- C5 (witness): the amended theorem applied to the concrete overlapping
pair (reference `ACGTAC`, records `(2-6, 2-6, 4M)` and `(0-4, 0-2, 2M2D)`):
exactly one partial-omission warning and the second-processed record shrunk
to `2M` over reference range `[0, 2)`. -/
theorem c5_paf_ref_overlap_amended_witness :
    (assemblePafs (NAPos.init_from_bytes [65, 67, 71, 84, 65, 67])
        (NAPos.init_from_bytes [65, 67, 71, 84, 65, 67]) 1
        [⟨0, 4, 0, 2, "2M2D"⟩, ⟨2, 6, 2, 6, "4M"⟩]).toOption.map
      (fun res => (res.messages, res.ref_paf_params))
      = some ([⟨1, MessageLevel.WARNING, pafPartialOmitRefText 0 2 0 4⟩],
        [natStr 2 ++ "," ++ natStr 6 ++ "," ++ "4M",
          natStr 0 ++ "," ++ natStr 2 ++ "," ++
            ((CIGAR.ofString 0 0 "2M2D").shrink_by_ref (2 - 0)).cigar_string]) :=
  (c5_paf_ref_overlap_amended
    (NAPos.init_from_bytes [65, 67, 71, 84, 65, 67])
    (NAPos.init_from_bytes [65, 67, 71, 84, 65, 67]) 1
    [⟨0, 4, 0, 2, "2M2D"⟩, ⟨2, 6, 2, 6, "4M"⟩]
    ⟨2, 6, 2, 6, "4M"⟩ ⟨0, 4, 0, 2, "2M2D"⟩
    ([⟨71, 3, 0⟩, ⟨84, 4, 0⟩, ⟨65, 5, 0⟩, ⟨67, 6, 0⟩],
      [⟨71, 3, 0⟩, ⟨84, 4, 0⟩, ⟨65, 5, 0⟩, ⟨67, 6, 0⟩])
    (by decide) (by decide) (by decide) (by decide) rfl).1
    (by decide)
    ([⟨65, 1, 0⟩, ⟨67, 2, 0⟩], [⟨65, 1, 0⟩, ⟨67, 2, 0⟩])
    rfl

/-! ## Codon-alignment gap realignment (`processors/codon_alignment.py`)

Embedding of `realign_gaps` and its callees.  Score values are `ℚ`; the
source's float scores only select which candidate placement wins, and no
claim settled here depends on score values.  Dictionary lookups that the
source would crash on (`IUPAC[...]`/`CODON_TABLE[...]` `KeyError` for bytes
such as `U` outside the tables) are totalized with neutral defaults, again
only affecting score values.  The memoizing writes into `CODON_TABLE` are
observably pure (each input always maps to the same result) and are modelled
functionally. -/

def NOGAP : Nat := 0
def REFGAP : Nat := 1
def SEQGAP : Nat := 2

def LEFT : Nat := 0
def RIGHT : Nat := 1

/-- `find_first_gap`: index of the first gap symbol, `-1` when none. -/
def find_first_gap (nas : List NAPos) : Int :=
  match nas.findIdx? (fun na => na.is_gap) with
  | some i => (i : Int)
  | none => -1

/-- `separate_gaps_from_nas`: partition into (non-gaps, gaps), order kept. -/
def separate_gaps_from_nas (nas : List NAPos) : List NAPos × List NAPos :=
  (nas.filter (fun na => !na.is_gap), nas.filter (fun na => na.is_gap))

/-- `move_gaps_to_center`: reinsert all gaps as one block at the midpoint of
the non-gap symbols. -/
def move_gaps_to_center (nas : List NAPos) : List NAPos :=
  let p := separate_gaps_from_nas nas
  pyInsertAt p.1 (p.1.length / 2) p.2

/-- `remove_n_gaps`: drop the first `n` gap symbols, keep everything else. -/
def remove_n_gaps : List NAPos → Nat → List NAPos
  | [], _ => []
  | na :: rest, n =>
    if na.is_gap ∧ n > 0 then remove_n_gaps rest (n - 1)
    else na :: remove_n_gaps rest n

/-- `remove_redundant_gaps`: drop `min(gap counts)` gaps from each track. -/
def remove_redundant_gaps (refnas seqnas : List NAPos) :
    List NAPos × List NAPos :=
  let n_gaps := min (NAPos.count_gaps refnas) (NAPos.count_gaps seqnas)
  if n_gaps ≠ 0 then
    (remove_n_gaps refnas n_gaps, remove_n_gaps seqnas n_gaps)
  else (refnas, seqnas)

/-- The scan of `find_windows_with_gap`: maintain the first/last gap-column
indices of the open window, close it when the next gap column is more than
`min_gap_distance` away. -/
def findWindowsAux (mgd : Nat) :
    List (Nat × (NAPos × NAPos)) → Option (Nat × Nat) → List (Nat × Nat)
  | [], none => []
  | [], some fl => [(fl.1, fl.2 + 1)]
  | (idx, c) :: rest, st =>
    if !c.1.is_gap && !c.2.is_gap then findWindowsAux mgd rest st
    else
      match st with
      | none => findWindowsAux mgd rest (some (idx, idx))
      | some fl =>
        if idx - fl.2 > mgd then
          (fl.1, fl.2 + 1) :: findWindowsAux mgd rest (some (idx, idx))
        else findWindowsAux mgd rest (some (fl.1, idx))

/-- `find_windows_with_gap`: the index windows (as `[first, last+1)` pairs)
containing gap columns, merging runs separated by at most
`min_gap_distance`. -/
def find_windows_with_gap (refnas seqnas : List NAPos) (mgd : Nat) :
    List (Nat × Nat) :=
  findWindowsAux mgd (refnas.zip seqnas).enum none

/-- One window step of `gather_gaps`: slice out the window from both
tracks, remove redundant gaps, move each track's gaps to the window center,
splice back. -/
def gatherStep (pair : List NAPos × List NAPos) (w : Nat × Nat) :
    List NAPos × List NAPos :=
  let win_refnas := pySlice pair.1 w.1 w.2
  let win_seqnas := pySlice pair.2 w.1 w.2
  let rr := remove_redundant_gaps win_refnas win_seqnas
  let wr := move_gaps_to_center rr.1
  let ws := move_gaps_to_center rr.2
  (pySetSlice pair.1 w.1 w.2 wr, pySetSlice pair.2 w.1 w.2 ws)

/-- `gather_gaps`: apply the window steps over the windows of the input, in
reversed order so earlier windows' indices stay valid. -/
def gather_gaps (refnas seqnas : List NAPos) (mgd : Nat) :
    List NAPos × List NAPos :=
  (find_windows_with_gap refnas seqnas mgd).reverse.foldl gatherStep
    (refnas, seqnas)

/-! ### Scoring stack (`utils/codonutils.py`, `utils/iupac.py`)

`utils/blosum62.py` is imported by the optimizer but absent from `src/`;
`blosum62_score` is therefore modelled from the spec.  The claim settled
below never depends on any score value. -/

/-- The static `CODON_TABLE` of `utils/codonutils.py` (64 unambiguous
codons; amino acids as single byte codes, stop as `*` = 42). -/
def aaOfCodon : Nat → Nat → Nat → Option Nat
  | 84, 84, 84 => some 70 -- TTT F
  | 84, 84, 67 => some 70 -- TTC F
  | 84, 84, 65 => some 76 -- TTA L
  | 84, 84, 71 => some 76 -- TTG L
  | 67, 84, 84 => some 76 -- CTT L
  | 67, 84, 67 => some 76 -- CTC L
  | 67, 84, 65 => some 76 -- CTA L
  | 67, 84, 71 => some 76 -- CTG L
  | 65, 84, 84 => some 73 -- ATT I
  | 65, 84, 67 => some 73 -- ATC I
  | 65, 84, 65 => some 73 -- ATA I
  | 65, 84, 71 => some 77 -- ATG M
  | 71, 84, 84 => some 86 -- GTT V
  | 71, 84, 67 => some 86 -- GTC V
  | 71, 84, 65 => some 86 -- GTA V
  | 71, 84, 71 => some 86 -- GTG V
  | 84, 67, 84 => some 83 -- TCT S
  | 84, 67, 67 => some 83 -- TCC S
  | 84, 67, 65 => some 83 -- TCA S
  | 84, 67, 71 => some 83 -- TCG S
  | 67, 67, 84 => some 80 -- CCT P
  | 67, 67, 67 => some 80 -- CCC P
  | 67, 67, 65 => some 80 -- CCA P
  | 67, 67, 71 => some 80 -- CCG P
  | 65, 67, 84 => some 84 -- ACT T
  | 65, 67, 67 => some 84 -- ACC T
  | 65, 67, 65 => some 84 -- ACA T
  | 65, 67, 71 => some 84 -- ACG T
  | 71, 67, 84 => some 65 -- GCT A
  | 71, 67, 67 => some 65 -- GCC A
  | 71, 67, 65 => some 65 -- GCA A
  | 71, 67, 71 => some 65 -- GCG A
  | 84, 65, 84 => some 89 -- TAT Y
  | 84, 65, 67 => some 89 -- TAC Y
  | 67, 65, 84 => some 72 -- CAT H
  | 67, 65, 67 => some 72 -- CAC H
  | 67, 65, 65 => some 81 -- CAA Q
  | 67, 65, 71 => some 81 -- CAG Q
  | 65, 65, 84 => some 78 -- AAT N
  | 65, 65, 67 => some 78 -- AAC N
  | 65, 65, 65 => some 75 -- AAA K
  | 65, 65, 71 => some 75 -- AAG K
  | 71, 65, 84 => some 68 -- GAT D
  | 71, 65, 67 => some 68 -- GAC D
  | 71, 65, 65 => some 69 -- GAA E
  | 71, 65, 71 => some 69 -- GAG E
  | 84, 71, 84 => some 67 -- TGT C
  | 84, 71, 67 => some 67 -- TGC C
  | 84, 71, 71 => some 87 -- TGG W
  | 67, 71, 84 => some 82 -- CGT R
  | 67, 71, 67 => some 82 -- CGC R
  | 67, 71, 65 => some 82 -- CGA R
  | 67, 71, 71 => some 82 -- CGG R
  | 65, 71, 84 => some 83 -- AGT S
  | 65, 71, 67 => some 83 -- AGC S
  | 65, 71, 65 => some 82 -- AGA R
  | 65, 71, 71 => some 82 -- AGG R
  | 71, 71, 84 => some 71 -- GGT G
  | 71, 71, 67 => some 71 -- GGC G
  | 71, 71, 65 => some 71 -- GGA G
  | 71, 71, 71 => some 71 -- GGG G
  | 84, 65, 65 => some 42 -- TAA *
  | 84, 71, 65 => some 42 -- TGA *
  | 84, 65, 71 => some 42 -- TAG *
  | _, _, _ => none

/-- `AMBIGUOUS_NAS`: expansions of the ambiguous nucleotide codes. -/
def ambiguousNAs : Nat → Option (List Nat)
  | 87 => some [65, 84] -- W AT
  | 83 => some [67, 71] -- S CG
  | 77 => some [65, 67] -- M AC
  | 75 => some [71, 84] -- K GT
  | 82 => some [65, 71] -- R AG
  | 89 => some [67, 84] -- Y CT
  | 66 => some [67, 71, 84] -- B CGT
  | 68 => some [65, 71, 84] -- D AGT
  | 72 => some [65, 67, 84] -- H ACT
  | 86 => some [65, 67, 71] -- V ACG
  | 78 => some [65, 67, 71, 84] -- N ACGT
  | _ => none

/-- Insert into a sorted duplicate-free list, keeping it sorted and
duplicate-free. -/
def insSorted (x : Nat) : List Nat → List Nat
  | [] => [x]
  | y :: ys =>
    if x < y then x :: y :: ys
    else if x = y then y :: ys
    else y :: insSorted x ys

/-- `tuple(sorted(set(l)))`: the sorted duplicate-free list of `l`'s
elements. -/
def sortedSet (l : List Nat) : List Nat :=
  l.foldl (fun acc x => insSorted x acc) []

/-- `itertools.product` over a list of candidate lists, leftmost factor
varying slowest. -/
def listProd : List (List Nat) → List (List Nat)
  | [] => [[]]
  | l :: ls => l.flatMap (fun x => (listProd ls).map (fun r => x :: r))

/-- `_translate_codon`: static-table lookup, then the in-frame-deletion and
frameshift shortcuts, then ambiguity expansion.  The source memoizes the
expansion result back into `CODON_TABLE`; the memoized value always equals
the expansion, so the lookup is modelled as the static table plus the
expansion.  A candidate codon outside the table (bytes the source's
`CODON_TABLE[cand_nas]` would raise `KeyError` on) is totalized to
`X` = 88; no claim below depends on score values. -/
def translateCodonImpl (nas fs_as del_as : List Nat) : List Nat :=
  let static : Option Nat := match nas with
    | [a, b, c] => aaOfCodon a b c
    | _ => none
  match static with
  | some aa => [aa]
  | none =>
    if del_as ≠ [] ∧ nas.length = 3 ∧ nas = [45, 45, 45] then del_as
    else if fs_as ≠ [] ∧ (nas.length < 3 ∨ 45 ∈ nas) then fs_as
    else
      let expand := fun na => match ambiguousNAs na with
        | some l => l
        | none => [na]
      let cands := listProd (nas.map expand)
      sortedSet (cands.map (fun cand =>
        (match cand with
          | [a, b, c] => aaOfCodon a b c
          | _ => none).getD 88))

/-- `more_itertools.chunked(_, 3)`: split into chunks of 3, last chunk
possibly shorter. -/
def chunked3 : List α → List (List α)
  | [] => []
  | [a] => [[a]]
  | [a, b] => [[a, b]]
  | a :: b :: c :: rest => [a, b, c] :: chunked3 rest

/-- `translate_codons` with its default `fs_as=b'X'`, `del_as=b'-'`. -/
def translate_codons (nas : List NAPos) : List (List Nat) :=
  (chunked3 (NAPos.as_bytes nas)).map
    (fun codon => translateCodonImpl codon [88] [45])

/-- The `IUPAC` expansion table of `utils/iupac.py`; byte codes outside the
table (on which the source raises `KeyError`) are totalized to the empty
set. -/
def iupacSet : Nat → List Nat
  | 65 => [65] -- A
  | 67 => [67] -- C
  | 71 => [71] -- G
  | 84 => [84] -- T
  | 87 => [65, 84] -- W AT
  | 83 => [67, 71] -- S CG
  | 77 => [65, 67] -- M AC
  | 75 => [71, 84] -- K GT
  | 82 => [65, 71] -- R AG
  | 89 => [67, 84] -- Y CT
  | 66 => [67, 71, 84] -- B CGT
  | 68 => [65, 71, 84] -- D AGT
  | 72 => [65, 67, 84] -- H ACT
  | 86 => [65, 67, 71] -- V ACG
  | 78 => [65, 67, 71, 84] -- N ACGT
  | 45 => [45] -- gap
  | _ => []

/-- `iupac_score` with its default `del_as = '-'`: 0 for two gaps, 1 for
equal codes, otherwise minus the Jaccard distance of the IUPAC expansions
(`ℚ` instead of float; `x / 0 = 0` covers the totalized empty sets). -/
def iupac_score (na_a na_b : Nat) : ℚ :=
  if na_a = na_b ∧ na_b = 45 then 0
  else if na_a = na_b then 1
  else
    let ea := iupacSet na_a
    let eb := iupacSet na_b
    let onlyb := (eb.filter (fun x => !ea.contains x)).length
    let symdiff := (ea.filter (fun x => !eb.contains x)).length + onlyb
    let denom : ℚ := ((ea.length + onlyb : Nat) : ℚ)
    0 - (symdiff : ℚ) / denom

/-- Modelled from the spec: the optimizer scores candidate gap placements
with a "BLOSUM-62-equivalent substitution matrix" collaborator that is
"simple, static lookup data and not specified further"; `utils/blosum62.py`
is absent from `src/`.  Any fixed static lookup satisfies the spec; the
claim proved below holds for every choice. -/
def blosum62_score (aa_a aa_b : List Nat) : ℚ :=
  if aa_a = aa_b then 4 else 0

/-- `calc_match_score`: base score plus symbol-wise IUPAC scores plus
codon-wise substitution scores. -/
def calc_match_score (mynas othernas : List NAPos) (base_score : ℚ) : ℚ :=
  let myaas := translate_codons mynas
  let otheraas := translate_codons othernas
  let s1 := (mynas.zip othernas).foldl
    (fun acc p => acc + iupac_score p.1.code p.2.code) base_score
  (myaas.zip otheraas).foldl
    (fun acc p => acc + blosum62_score p.1 p.2) s1

/-! ### Best-match scan and gap-placement adjustment -/

/-- Strict lexicographic `>` on Python's `(score, priority)` tuples. -/
def scoreGtB (x y : ℚ × Nat) : Bool :=
  decide (y.1 < x.1) || (decide (x.1 = y.1) && decide (y.2 < x.2))

/-- `range(scanstart, mynas_len + 1, 3)`. -/
def fbmCandidates (scanstart len : Nat) : List Nat :=
  (List.range ((len + 1 - scanstart + 2) / 3)).map (fun k => scanstart + 3 * k)

/-- One candidate index of the `find_best_matches` scan: insert the gap
block at `idx`, score the result, keep it when it beats the running best.
`napos` reads `mynas[idx - 1]` (`REFGAP`, where `idx ≥ 3`) or
`othernas[idx]` (`SEQGAP`); the out-of-range accesses Python would raise
on are totalized with a default symbol — they only affect score values. -/
def fbmScore (mynas' mygap othernas : List NAPos) (bp1_indices : List Nat)
    (gap_type : Nat) (gps : Int × Nat → Option Int) (is_start is_end : Bool)
    (orig_gapidx : Int) (idx : Nat) : ℚ × Nat :=
  let mynas_len := mynas'.length
  let gaplen := mygap.length
  let test_mynas := pyInsertAt mynas' idx mygap
  let base_score : ℚ :=
    if is_start && decide (idx = 0) then 0
    else if is_end && decide (idx + 3 > mynas_len) then 0
    else 0 - (gaplen : ℚ)
  let score_val := calc_match_score test_mynas othernas base_score
  let napos : Int :=
    if gap_type = REFGAP then (mynas'.getD (idx - 1) ⟨45, -1, 0⟩).pos
    else (othernas.getD idx ⟨45, -1, 0⟩).pos
  let score_val := score_val +
    (match gps (napos, gaplen) with
      | some v => (v : ℚ)
      | none => match gps (napos, 0) with
        | some v => (v : ℚ)
        | none => 0)
  if bp1_indices.contains idx then (score_val + 1, 2)
  else if (idx : Int) = orig_gapidx then (score_val, 1)
  else (score_val, 0)

def fbmStep (mynas' mygap othernas : List NAPos) (bp1_indices : List Nat)
    (gap_type : Nat) (gps : Int × Nat → Option Int) (is_start is_end : Bool)
    (orig_gapidx : Int) (acc : Option ((ℚ × Nat) × List NAPos)) (idx : Nat) :
    Option ((ℚ × Nat) × List NAPos) :=
  let score := fbmScore mynas' mygap othernas bp1_indices gap_type gps
    is_start is_end orig_gapidx idx
  let test_mynas := pyInsertAt mynas' idx mygap
  match acc with
  | none => some (score, test_mynas)
  | some best =>
    if scoreGtB score best.1 then some (score, test_mynas) else some best

/-- `find_best_matches`: try each codon-aligned insertion point for the gap
block, return the best-scoring arrangement (the gap-free symbols alone when
no candidate exists). -/
def find_best_matches (mynas othernas : List NAPos)
    (bp1_indices : List Nat) (gap_type : Nat)
    (gps : Int × Nat → Option Int) (is_start is_end : Bool) : List NAPos :=
  let orig_gapidx := find_first_gap mynas
  let sep := separate_gaps_from_nas mynas
  let scanstart := if gap_type = REFGAP then 3 else 0
  match (fbmCandidates scanstart sep.1.length).foldl
      (fbmStep sep.1 sep.2 othernas bp1_indices gap_type gps is_start is_end
        orig_gapidx) none with
  | some best => best.2
  | none => sep.1

/-- The `bp1_indices` scan of `paired_find_best_matches`: indices of the
reference symbols starting a codon (1st, 4th, ... non-gap symbol). -/
def bp1IndicesAux : List (Nat × NAPos) → Nat → List Nat
  | [], _ => []
  | (idx, na) :: rest, bp =>
    if na.is_gap then bp1IndicesAux rest bp
    else
      let bp' := (bp + 1) % 3
      if bp' = 1 then idx :: bp1IndicesAux rest bp'
      else bp1IndicesAux rest bp'

def bp1Indices (refnas : List NAPos) : List Nat :=
  bp1IndicesAux refnas.enum 0

/-- `paired_find_best_matches`: rearrange the gapped track of the pair. -/
def paired_find_best_matches (refnas seqnas : List NAPos) (gap_type : Nat)
    (gps : Nat → Int × Nat → Option Int) (is_seq_start is_seq_end : Bool) :
    List NAPos × List NAPos :=
  let bp1 := bp1Indices refnas
  if gap_type = REFGAP then
    (find_best_matches refnas seqnas bp1 gap_type (gps gap_type) false false,
      seqnas)
  else if gap_type = SEQGAP then
    (refnas,
      find_best_matches seqnas refnas bp1 gap_type (gps gap_type)
        is_seq_start is_seq_end)
  else (refnas, seqnas)

/-- `codon_pairs_group_key` on the codon pair itself. -/
def codon_pairs_group_key (refcd seqcd : List NAPos) : Nat :=
  if NAPos.any_has_gap refcd then REFGAP
  else if NAPos.any_has_gap seqcd then SEQGAP
  else NOGAP

/-- `find_codon_trim_slice`: the `[left, right)` range of codons remaining
after trimming the leading and trailing all-gap codons. -/
def find_codon_trim_slice (codons : List (List NAPos)) : Nat × Nat :=
  ((codons.takeWhile (fun cd => NAPos.all_have_gap cd)).length,
    codons.length
      - ((codons.reverse.takeWhile (fun cd => NAPos.all_have_gap cd)).length))

/-- A codon pair containing a gap on either track (the inner loop of
`extend_codons_until_gap`). -/
def codonPairHasGap (p : List NAPos × List NAPos) : Bool :=
  NAPos.any_has_gap p.1 || NAPos.any_has_gap p.2

/-- The truncation inside `extend_codons_until_gap`: keep codon pairs up to
the first one containing a gap. -/
def extendTruncate (ref_codons seq_codons : List (List NAPos)) :
    List (List NAPos) × List (List NAPos) × Nat :=
  let endidx := match (ref_codons.zip seq_codons).findIdx? codonPairHasGap with
    | some i => i
    | none => ref_codons.length
  let r := ref_codons.take endidx
  let s := seq_codons.take endidx
  (r, s, r.length)

/-- `extend_codons_until_gap`: the gap-free run of codon pairs adjacent to
a window (`LEFT`: reverse, truncate, reverse back). -/
def extend_codons_until_gap (ref_codons seq_codons : List (List NAPos))
    (direction : Nat) : List (List NAPos) × List (List NAPos) × Nat :=
  if direction = LEFT then
    let t := extendTruncate ref_codons.reverse seq_codons.reverse
    (t.1.reverse, t.2.1.reverse, t.2.2)
  else extendTruncate ref_codons seq_codons

/-- `itertools.groupby` (fuel-based: the fuel bounds the number of groups
by the input length). -/
def pyGroupByAux (key : α → Nat) : Nat → List α → List (Nat × List α)
  | 0, _ => []
  | _, [] => []
  | fuel + 1, x :: xs =>
    let k := key x
    (k, x :: xs.takeWhile (fun y => key y == k)) ::
      pyGroupByAux key fuel (xs.dropWhile (fun y => key y == k))

def pyGroupBy (key : α → Nat) (l : List α) : List (Nat × List α) :=
  pyGroupByAux key l.length l

/-- One group of the `adjust_gap_placement` loop: skip gap-free groups;
otherwise take the group's codons (from the snapshot the groups were built
over), extend them left and right with adjacent gap-free codon pairs from
the current state, rearrange the gaps, regroup into codons and splice back
into the current state. -/
def adjustStep (ws : Nat) (gps : Nat → Int × Nat → Option Int)
    (iss ise : Bool) (trim : Nat × Nat)
    (st : List (List NAPos) × List (List NAPos))
    (grp : Nat × List (Nat × (List NAPos × List NAPos))) :
    List (List NAPos) × List (List NAPos) :=
  let gap_type := grp.1
  if gap_type = NOGAP then st
  else
    let codonpairs := grp.2
    let start := (codonpairs.head?.map Prod.fst).getD 0
    let e := ((codonpairs.getLast?.map Prod.fst).getD 0) + 1
    let refcds := codonpairs.map (fun p => p.2.1)
    let seqcds := codonpairs.map (fun p => p.2.2)
    let extL := extend_codons_until_gap (pySlice st.1 (start - ws) start)
      (pySlice st.2 (start - ws) start) LEFT
    let rse1 : List (List NAPos) × List (List NAPos) × Nat :=
      if extL.2.2 ≠ 0 then (extL.1 ++ refcds, extL.2.1 ++ seqcds,
        start - extL.2.2)
      else (refcds, seqcds, start)
    let refcds1 := rse1.1
    let seqcds1 := rse1.2.1
    let start1 := rse1.2.2
    let extR := extend_codons_until_gap (pySlice st.1 e (e + ws))
      (pySlice st.2 e (e + ws)) RIGHT
    let rse2 : List (List NAPos) × List (List NAPos) × Nat :=
      if extR.2.2 ≠ 0 then (refcds1 ++ extR.1, seqcds1 ++ extR.2.1,
        e + extR.2.2)
      else (refcds1, seqcds1, e)
    let refcds2 := rse2.1
    let seqcds2 := rse2.2.1
    let e1 := rse2.2.2
    let win_refnas := refcds2.flatten
    let win_seqnas := seqcds2.flatten
    let pr := paired_find_best_matches win_refnas win_seqnas gap_type gps
      (iss && decide (start1 = trim.1)) (ise && decide (e1 = trim.2))
    let gc := group_by_codons pr.1 pr.2
    (pySetSlice st.1 start1 e1 gc.1, pySetSlice st.2 start1 e1 gc.2)

/-- `adjust_gap_placement`: group the (trimmed) codon-pair snapshot by gap
type and process each gapped group. -/
def adjust_gap_placement (refcodons seqcodons : List (List NAPos))
    (ws : Nat) (gps : Nat → Int × Nat → Option Int) (iss ise : Bool) :
    List (List NAPos) × List (List NAPos) :=
  let trim := find_codon_trim_slice seqcodons
  let snapshot := pySlice (refcodons.zip seqcodons).enum trim.1 trim.2
  let gap_groups := pyGroupBy
    (fun p => codon_pairs_group_key p.2.1 p.2.2) snapshot
  gap_groups.foldl (adjustStep ws gps iss ise trim) (refcodons, seqcodons)

/-- `move_gap_to_codon_end`: within each codon, non-gaps first. -/
def move_gap_to_codon_end (codons : List (List NAPos)) :
    List (List NAPos) :=
  codons.map (fun cd =>
    cd.filter (fun na => !na.is_gap) ++ cd.filter (fun na => na.is_gap))

/-- `realign_gaps`: gather nearby gaps, group into codons, adjust gap
placement, move query gaps to codon ends, flatten back to tracks. -/
def realign_gaps (refnas seqnas : List NAPos) (mgd ws : Nat)
    (gps : Nat → Int × Nat → Option Int) (iss ise : Bool) :
    List NAPos × List NAPos :=
  let g := gather_gaps refnas seqnas mgd
  let gc := group_by_codons g.1 g.2
  let adj := adjust_gap_placement gc.1 gc.2 ws gps iss ise
  let sc := move_gap_to_codon_end adj.2
  (adj.1.flatten, sc.flatten)

/-! ### Invariant proofs: gap gathering -/

theorem filter_partition_length (p : α → Bool) (l : List α) :
    (l.filter p).length + (l.filter (fun x => !p x)).length = l.length := by
  induction l with
  | nil => rfl
  | cons x xs ih =>
    by_cases hx : p x
    · simp only [List.filter_cons, hx, if_true, Bool.not_true,
        Bool.false_eq_true, if_false, List.length_cons]
      omega
    · have hx' : p x = false := by simpa using hx
      simp only [List.filter_cons, hx', Bool.false_eq_true, if_false,
        Bool.not_false, if_true, List.length_cons]
      omega

theorem remove_n_gaps_filter (l : List NAPos) :
    ∀ n, nonGapSyms (remove_n_gaps l n) = nonGapSyms l := by
  induction l with
  | nil => intro n; rfl
  | cons na rest ih =>
    intro n
    rw [remove_n_gaps]
    by_cases hc : na.is_gap = true ∧ n > 0
    · rw [if_pos hc]
      unfold nonGapSyms
      rw [List.filter_cons]
      simp only [hc.1, Bool.not_true, Bool.false_eq_true, if_false]
      exact ih (n - 1)
    · rw [if_neg hc]
      unfold nonGapSyms
      rw [List.filter_cons, List.filter_cons]
      have := ih n
      unfold nonGapSyms at this
      rw [this]

theorem remove_n_gaps_length (l : List NAPos) :
    ∀ n, n ≤ NAPos.count_gaps l →
      (remove_n_gaps l n).length = l.length - n := by
  induction l with
  | nil =>
    intro n hn
    unfold NAPos.count_gaps at hn
    simp only [List.filter_nil, List.length_nil, Nat.le_zero] at hn
    simp [remove_n_gaps, hn]
  | cons na rest ih =>
    intro n hn
    rw [remove_n_gaps]
    unfold NAPos.count_gaps at hn
    rw [List.filter_cons] at hn
    by_cases hg : na.is_gap
    · simp only [hg, if_true, List.length_cons] at hn
      by_cases hp : n > 0
      · rw [if_pos ⟨hg, hp⟩]
        rw [ih (n - 1) (by unfold NAPos.count_gaps; omega)]
        simp only [List.length_cons]
        omega
      · have hn0 : n = 0 := by omega
        subst hn0
        rw [if_neg (by simp)]
        simp only [List.length_cons]
        rw [ih 0 (by unfold NAPos.count_gaps; omega)]
        omega
    · have hg' : na.is_gap = false := by simpa using hg
      simp only [hg', Bool.false_eq_true, if_false] at hn
      rw [if_neg (by simp [hg'])]
      simp only [List.length_cons]
      rw [ih n (by unfold NAPos.count_gaps; exact hn)]
      have : n ≤ rest.length := by
        calc n ≤ NAPos.count_gaps rest := hn
        _ ≤ rest.length := by
          unfold NAPos.count_gaps
          exact List.length_filter_le _ _
      omega

theorem move_gaps_to_center_filter (l : List NAPos) :
    nonGapSyms (move_gaps_to_center l) = nonGapSyms l := by
  unfold move_gaps_to_center separate_gaps_from_nas pyInsertAt
  dsimp only
  unfold nonGapSyms
  rw [List.filter_append, List.filter_append]
  have h1 : ∀ (k : Nat),
      ((l.filter (fun na => !na.is_gap)).take k).filter
        (fun na => !na.is_gap) = (l.filter (fun na => !na.is_gap)).take k := by
    intro k
    rw [List.filter_eq_self]
    intro a ha
    have hmem : a ∈ l.filter (fun na => !na.is_gap) :=
      List.mem_of_mem_take ha
    simpa using List.of_mem_filter hmem
  have h2 : ∀ (k : Nat),
      ((l.filter (fun na => !na.is_gap)).drop k).filter
        (fun na => !na.is_gap) = (l.filter (fun na => !na.is_gap)).drop k := by
    intro k
    rw [List.filter_eq_self]
    intro a ha
    have hmem : a ∈ l.filter (fun na => !na.is_gap) :=
      List.mem_of_mem_drop ha
    simpa using List.of_mem_filter hmem
  have h3 : (l.filter (fun na => na.is_gap)).filter
      (fun na => !na.is_gap) = [] := by
    rw [List.filter_eq_nil_iff]
    intro a ha
    have := List.of_mem_filter ha
    simp [this]
  rw [h1, h2, h3]
  simp [List.take_append_drop]

theorem move_gaps_to_center_length (l : List NAPos) :
    (move_gaps_to_center l).length = l.length := by
  unfold move_gaps_to_center separate_gaps_from_nas pyInsertAt
  dsimp only
  simp only [List.length_append, List.length_take, List.length_drop]
  have := filter_partition_length (fun na : NAPos => na.is_gap) l
  have hle : (l.filter (fun na => !na.is_gap)).length ≤ l.length :=
    List.length_filter_le _ _
  omega

theorem pySlice_decomp (l : List α) (a b : Nat) :
    l = l.take a ++ pySlice l a b ++ l.drop (max a b) := by
  unfold pySlice
  by_cases hab : a ≤ b
  · have hmax : max a b = b := by omega
    rw [hmax]
    have hdrop : l.drop b = ((l.drop a).drop (b - a)) := by
      rw [List.drop_drop]
      congr 1
      omega
    rw [hdrop, List.append_assoc, List.take_append_drop,
      List.take_append_drop]
  · have hmax : max a b = a := by omega
    have hba : b - a = 0 := by omega
    rw [hmax, hba]
    simp

theorem pySlice_length (l : List α) (a b : Nat) :
    (pySlice l a b).length = min (b - a) (l.length - a) := by
  unfold pySlice
  simp [List.length_take, List.length_drop]

theorem pySetSlice_length (l v : List α) (a b : Nat) :
    (pySetSlice l a b v).length
      = min a l.length + v.length + (l.length - max a b) := by
  unfold pySetSlice
  simp only [List.length_append, List.length_take, List.length_drop]

theorem pySetSlice_filter (p : α → Bool) (l v : List α) (a b : Nat)
    (hv : v.filter p = (pySlice l a b).filter p) :
    (pySetSlice l a b v).filter p = l.filter p := by
  conv_rhs => rw [pySlice_decomp l a b]
  unfold pySetSlice
  rw [List.filter_append, List.filter_append,
    List.filter_append, List.filter_append, hv]

theorem remove_redundant_gaps_spec (r s : List NAPos) :
    nonGapSyms (remove_redundant_gaps r s).1 = nonGapSyms r ∧
    nonGapSyms (remove_redundant_gaps r s).2 = nonGapSyms s ∧
    (remove_redundant_gaps r s).1.length
      = r.length - min (NAPos.count_gaps r) (NAPos.count_gaps s) ∧
    (remove_redundant_gaps r s).2.length
      = s.length - min (NAPos.count_gaps r) (NAPos.count_gaps s) := by
  unfold remove_redundant_gaps
  dsimp only
  by_cases hn : min (NAPos.count_gaps r) (NAPos.count_gaps s) ≠ 0
  · rw [if_pos hn]
    exact ⟨remove_n_gaps_filter r _, remove_n_gaps_filter s _,
      remove_n_gaps_length r _ (Nat.min_le_left _ _),
      remove_n_gaps_length s _ (Nat.min_le_right _ _)⟩
  · rw [if_neg hn]
    have h0 : min (NAPos.count_gaps r) (NAPos.count_gaps s) = 0 := by
      omega
    rw [h0]
    exact ⟨rfl, rfl, by simp, by simp⟩

theorem gatherStep_filter (pair : List NAPos × List NAPos) (w : Nat × Nat) :
    nonGapSyms (gatherStep pair w).1 = nonGapSyms pair.1 ∧
    nonGapSyms (gatherStep pair w).2 = nonGapSyms pair.2 := by
  obtain ⟨hf1, hf2, _, _⟩ := remove_redundant_gaps_spec
    (pySlice pair.1 w.1 w.2) (pySlice pair.2 w.1 w.2)
  unfold gatherStep
  dsimp only
  constructor
  · apply pySetSlice_filter
    show nonGapSyms _ = nonGapSyms _
    rw [move_gaps_to_center_filter, hf1]
  · apply pySetSlice_filter
    show nonGapSyms _ = nonGapSyms _
    rw [move_gaps_to_center_filter, hf2]

theorem gatherStep_length (pair : List NAPos × List NAPos) (w : Nat × Nat)
    (h : pair.1.length = pair.2.length) :
    (gatherStep pair w).1.length = (gatherStep pair w).2.length := by
  obtain ⟨_, _, hl1, hl2⟩ := remove_redundant_gaps_spec
    (pySlice pair.1 w.1 w.2) (pySlice pair.2 w.1 w.2)
  unfold gatherStep
  dsimp only
  rw [pySetSlice_length, pySetSlice_length,
    move_gaps_to_center_length, move_gaps_to_center_length, hl1, hl2]
  have hgle1 : NAPos.count_gaps (pySlice pair.1 w.1 w.2)
      ≤ (pySlice pair.1 w.1 w.2).length := List.length_filter_le _ _
  have hgle2 : NAPos.count_gaps (pySlice pair.2 w.1 w.2)
      ≤ (pySlice pair.2 w.1 w.2).length := List.length_filter_le _ _
  simp only [pySlice_length] at hgle1 hgle2 ⊢
  omega

theorem gatherFold_inv (wins : List (Nat × Nat)) :
    ∀ (pair : List NAPos × List NAPos), pair.1.length = pair.2.length →
      (wins.foldl gatherStep pair).1.length
          = (wins.foldl gatherStep pair).2.length ∧
      nonGapSyms (wins.foldl gatherStep pair).1 = nonGapSyms pair.1 ∧
      nonGapSyms (wins.foldl gatherStep pair).2 = nonGapSyms pair.2 := by
  induction wins with
  | nil => intro pair h; exact ⟨h, rfl, rfl⟩
  | cons w ws ih =>
    intro pair h
    rw [List.foldl_cons]
    have hstep := gatherStep_length pair w h
    obtain ⟨hf1, hf2⟩ := gatherStep_filter pair w
    obtain ⟨ih1, ih3, ih4⟩ := ih (gatherStep pair w) hstep
    exact ⟨ih1, by rw [ih3, hf1], by rw [ih4, hf2]⟩

theorem gather_gaps_inv (r s : List NAPos) (mgd : Nat)
    (h : r.length = s.length) :
    (gather_gaps r s mgd).1.length = (gather_gaps r s mgd).2.length ∧
    nonGapSyms (gather_gaps r s mgd).1 = nonGapSyms r ∧
    nonGapSyms (gather_gaps r s mgd).2 = nonGapSyms s := by
  unfold gather_gaps
  exact gatherFold_inv _ (r, s) h

/-! ### Invariant proofs: group and index bookkeeping -/

theorem pyGroupByAux_flatten (key : α → Nat) :
    ∀ fuel (l : List α), l.length ≤ fuel →
      ((pyGroupByAux key fuel l).map Prod.snd).flatten = l := by
  intro fuel
  induction fuel with
  | zero =>
    intro l h
    have : l = [] := List.eq_nil_of_length_eq_zero (Nat.le_zero.mp h)
    subst this
    rfl
  | succ fuel ih =>
    intro l h
    match l with
    | [] => rfl
    | x :: xs =>
      simp only [List.length_cons, Nat.add_le_add_iff_right] at h
      rw [pyGroupByAux]
      rw [List.map_cons, List.flatten_cons]
      have hdle := length_dropWhile_le (fun y => key y == key x) xs
      rw [ih _ (le_trans hdle h)]
      rw [List.cons_append, List.takeWhile_append_dropWhile]

theorem pyGroupBy_flatten (key : α → Nat) (l : List α) :
    ((pyGroupBy key l).map Prod.snd).flatten = l :=
  pyGroupByAux_flatten key l.length l le_rfl

theorem pyGroupByAux_nonempty (key : α → Nat) :
    ∀ fuel (l : List α) g, g ∈ pyGroupByAux key fuel l → g.2 ≠ [] := by
  intro fuel
  induction fuel with
  | zero => intro l g hg; simp [pyGroupByAux] at hg
  | succ fuel ih =>
    intro l g hg
    match l with
    | [] => simp [pyGroupByAux] at hg
    | x :: xs =>
      rw [pyGroupByAux] at hg
      rcases List.mem_cons.mp hg with hh | hh
      · subst hh; simp
      · exact ih _ g hh

theorem pyGroupByAux_key (key : α → Nat) :
    ∀ fuel (l : List α) g, g ∈ pyGroupByAux key fuel l →
      ∀ y ∈ g.2, key y = g.1 := by
  intro fuel
  induction fuel with
  | zero => intro l g hg; simp [pyGroupByAux] at hg
  | succ fuel ih =>
    intro l g hg y hy
    match l with
    | [] => simp [pyGroupByAux] at hg
    | x :: xs =>
      rw [pyGroupByAux] at hg
      rcases List.mem_cons.mp hg with hh | hh
      · subst hh
        dsimp only at hy
        rcases List.mem_cons.mp hy with hy' | hy'
        · subst hy'; rfl
        · have := List.mem_takeWhile_imp hy'
          simpa using this
      · exact ih _ g hh y hy

theorem enumFrom_append (a b : List α) :
    ∀ k, (a ++ b).enumFrom k = a.enumFrom k ++ b.enumFrom (k + a.length) := by
  induction a with
  | nil => intro k; simp
  | cons x xs ih =>
    intro k
    rw [List.cons_append, List.enumFrom_cons, List.enumFrom_cons, ih (k + 1)]
    simp only [List.cons_append, List.length_cons]
    have harith : k + 1 + xs.length = k + (xs.length + 1) := by omega
    rw [harith]

theorem enumFrom_map_snd (l : List α) :
    ∀ k, (l.enumFrom k).map Prod.snd = l := by
  induction l with
  | nil => intro k; rfl
  | cons x xs ih =>
    intro k
    rw [List.enumFrom_cons, List.map_cons, ih (k + 1)]

theorem enumFrom_take (l : List α) :
    ∀ k n, (l.enumFrom k).take n = (l.take n).enumFrom k := by
  induction l with
  | nil => intro k n; simp
  | cons x xs ih =>
    intro k n
    match n with
    | 0 => rfl
    | n + 1 =>
      rw [List.enumFrom_cons, List.take_succ_cons, List.take_succ_cons,
        List.enumFrom_cons, ih (k + 1) n]

theorem enumFrom_drop (l : List α) :
    ∀ k n, (l.enumFrom k).drop n = (l.drop n).enumFrom (k + n) := by
  induction l with
  | nil => intro k n; simp
  | cons x xs ih =>
    intro k n
    match n with
    | 0 => rfl
    | n + 1 =>
      rw [List.enumFrom_cons, List.drop_succ_cons, List.drop_succ_cons,
        ih (k + 1) n]
      congr 1
      omega

theorem enumFrom_length (l : List α) :
    ∀ k, (l.enumFrom k).length = l.length := by
  induction l with
  | nil => intro k; rfl
  | cons x xs ih =>
    intro k
    rw [List.enumFrom_cons, List.length_cons, List.length_cons, ih (k + 1)]

theorem mem_enumFrom_spec (l : List α) :
    ∀ k pr, pr ∈ l.enumFrom k → k ≤ pr.1 ∧ l.get? (pr.1 - k) = some pr.2 := by
  induction l with
  | nil => intro k pr h; simp at h
  | cons x xs ih =>
    intro k pr h
    rw [List.enumFrom_cons] at h
    rcases List.mem_cons.mp h with hh | hh
    · subst hh
      exact ⟨le_rfl, by simp⟩
    · obtain ⟨h1, h2⟩ := ih (k + 1) pr hh
      refine ⟨by omega, ?_⟩
      have : pr.1 - k = (pr.1 - (k + 1)) + 1 := by omega
      rw [this, List.get?_cons_succ]
      exact h2

theorem enumFrom_getLast?_fst (l : List α) :
    ∀ k, l ≠ [] →
      ((l.enumFrom k).getLast?).map Prod.fst = some (k + l.length - 1) := by
  induction l with
  | nil => intro k h; exact absurd rfl h
  | cons x xs ih =>
    intro k _
    match xs, ih with
    | [], _ => simp [List.enumFrom_cons]
    | y :: ys, ih =>
      rw [List.enumFrom_cons, List.enumFrom_cons, List.getLast?_cons_cons]
      have := ih (k + 1) (by simp)
      rw [List.enumFrom_cons] at this
      rw [this]
      congr 1
      simp only [List.length_cons]
      omega

theorem findIdx?_some_spec (p : α → Bool) :
    ∀ (l : List α) (i j : Nat), List.findIdx? p l i = some j →
      i ≤ j ∧ j - i < l.length ∧ ∀ x ∈ l.take (j - i), p x = false := by
  intro l
  induction l with
  | nil => intro i j h; simp [List.findIdx?] at h
  | cons x xs ih =>
    intro i j h
    rw [List.findIdx?_cons] at h
    by_cases hx : p x
    · rw [if_pos hx] at h
      have : j = i := by simpa using h.symm
      subst this
      refine ⟨le_rfl, by simp, ?_⟩
      intro y hy
      simp at hy
    · have hx' : p x = false := by simpa using hx
      rw [if_neg hx] at h
      obtain ⟨h1, h2, h3⟩ := ih (i + 1) j h
      refine ⟨by omega, by simp only [List.length_cons]; omega, ?_⟩
      intro y hy
      have hji : j - i = (j - (i + 1)) + 1 := by omega
      rw [hji, List.take_succ_cons] at hy
      rcases List.mem_cons.mp hy with hh | hh
      · subst hh; exact hx'
      · exact h3 y hh

theorem findIdx?_none_spec (p : α → Bool) :
    ∀ (l : List α) (i : Nat), List.findIdx? p l i = none →
      ∀ x ∈ l, p x = false := by
  intro l
  induction l with
  | nil => intro i _ x hx; simp at hx
  | cons y ys ih =>
    intro i h x hx
    rw [List.findIdx?_cons] at h
    by_cases hy : p y
    · rw [if_pos hy] at h; simp at h
    · rw [if_neg hy] at h
      rcases List.mem_cons.mp hx with hh | hh
      · subst hh; simpa using hy
      · exact ih (i + 1) h x hh

theorem get?_zip_spec {β : Type} (a : List α) :
    ∀ (b : List β) (i : Nat) pr, (a.zip b).get? i = some pr →
      a.get? i = some pr.1 ∧ b.get? i = some pr.2 := by
  induction a with
  | nil => intro b i pr h; simp at h
  | cons x xs ih =>
    intro b i pr h
    match b with
    | [] => simp at h
    | y :: ys =>
      rw [List.zip_cons_cons] at h
      match i with
      | 0 =>
        rw [List.get?_cons_zero] at h
        have : (x, y) = pr := by simpa using h
        subst this
        exact ⟨rfl, rfl⟩
      | i + 1 =>
        rw [List.get?_cons_succ] at h
        exact ih ys i pr h

theorem zip_get?_of_get? {β : Type} (a : List α) :
    ∀ (b : List β) (i : Nat) x y, a.get? i = some x → b.get? i = some y →
      (a.zip b).get? i = some (x, y) := by
  induction a with
  | nil => intro b i x y h1 _; simp at h1
  | cons u us ih =>
    intro b i x y h1 h2
    match b with
    | [] => simp at h2
    | v :: vs =>
      rw [List.zip_cons_cons]
      match i with
      | 0 =>
        rw [List.get?_cons_zero] at h1 h2
        rw [List.get?_cons_zero]
        have hx : u = x := by simpa using h1
        have hy : v = y := by simpa using h2
        rw [hx, hy]
      | i + 1 =>
        rw [List.get?_cons_succ] at h1 h2
        rw [List.get?_cons_succ]
        exact ih vs i x y h1 h2

theorem get?_eq_of_drop_eq (xs ys : List α) (m : Nat)
    (h : xs.drop m = ys.drop m) :
    ∀ i, m ≤ i → xs.get? i = ys.get? i := by
  intro i hi
  have h1 : xs.get? i = (xs.drop m).get? (i - m) := by
    rw [List.get?_drop]
    congr 1
    omega
  have h2 : ys.get? i = (ys.drop m).get? (i - m) := by
    rw [List.get?_drop]
    congr 1
    omega
  rw [h1, h2, h]

theorem forall2_take {β : Type} {R : α → β → Prop} :
    ∀ {a : List α} {b : List β}, List.Forall₂ R a b →
      ∀ n, List.Forall₂ R (a.take n) (b.take n) := by
  intro a b h
  induction h with
  | nil => intro n; simp
  | cons hxy _ ih =>
    intro n
    match n with
    | 0 => simp
    | n + 1 =>
      rw [List.take_succ_cons, List.take_succ_cons]
      exact List.Forall₂.cons hxy (ih n)

theorem forall2_drop {β : Type} {R : α → β → Prop} :
    ∀ {a : List α} {b : List β}, List.Forall₂ R a b →
      ∀ n, List.Forall₂ R (a.drop n) (b.drop n) := by
  intro a b h
  induction h with
  | nil => intro n; simp
  | cons hxy htl ih =>
    intro n
    match n with
    | 0 => exact List.Forall₂.cons hxy htl
    | n + 1 =>
      rw [List.drop_succ_cons, List.drop_succ_cons]
      exact ih n

theorem flatten_length_forall2 {β : Type} :
    ∀ {a : List (List α)} {b : List (List β)},
      List.Forall₂ (fun x y => x.length = y.length) a b →
      a.flatten.length = b.flatten.length := by
  intro a b h
  induction h with
  | nil => rfl
  | cons hxy _ ih =>
    rw [List.flatten_cons, List.flatten_cons, List.length_append,
      List.length_append, hxy, ih]

theorem count_nongaps_flatten :
    ∀ (cds : List (List NAPos)),
      NAPos.count_nongaps cds.flatten
        = (cds.map NAPos.count_nongaps).sum := by
  intro cds
  induction cds with
  | nil => rfl
  | cons cd rest ih =>
    rw [List.flatten_cons, List.map_cons, List.sum_cons]
    unfold NAPos.count_nongaps at ih ⊢
    rw [List.filter_append, List.length_append, ih]

theorem sum_le_three_mul (l : List Nat) (h : ∀ x ∈ l, x ≤ 3) :
    l.sum ≤ 3 * l.length := by
  induction l with
  | nil => simp
  | cons x xs ih =>
    rw [List.sum_cons, List.length_cons]
    have hx := h x (by simp)
    have := ih (fun y hy => h y (List.mem_cons_of_mem _ hy))
    omega

theorem all_eq_three_of_sum (l : List Nat) (hle : ∀ x ∈ l, x ≤ 3)
    (hsum : l.sum = 3 * l.length) : ∀ x ∈ l, x = 3 := by
  induction l with
  | nil => intro x hx; simp at hx
  | cons y ys ih =>
    intro x hx
    rw [List.sum_cons, List.length_cons] at hsum
    have hy := hle y (by simp)
    have hrest := sum_le_three_mul ys
      (fun z hz => hle z (List.mem_cons_of_mem _ hz))
    rcases List.mem_cons.mp hx with hh | hh
    · subst hh; omega
    · exact ih (fun z hz => hle z (List.mem_cons_of_mem _ hz))
        (by omega) x hh

theorem pyInsertAt_length (l v : List α) (i : Nat) :
    (pyInsertAt l i v).length = l.length + v.length := by
  unfold pyInsertAt
  simp only [List.length_append, List.length_take, List.length_drop]
  omega

theorem pyInsertAt_filter_gaps (ng gaps : List NAPos) (i : Nat)
    (hng : ∀ x ∈ ng, x.is_gap = false) (hg : ∀ x ∈ gaps, x.is_gap = true) :
    nonGapSyms (pyInsertAt ng i gaps) = ng := by
  unfold pyInsertAt nonGapSyms
  rw [List.filter_append, List.filter_append]
  have h1 : (ng.take i).filter (fun na => !na.is_gap) = ng.take i := by
    rw [List.filter_eq_self]
    intro a ha
    simp [hng a (List.mem_of_mem_take ha)]
  have h2 : (ng.drop i).filter (fun na => !na.is_gap) = ng.drop i := by
    rw [List.filter_eq_self]
    intro a ha
    simp [hng a (List.mem_of_mem_drop ha)]
  have h3 : gaps.filter (fun na => !na.is_gap) = [] := by
    rw [List.filter_eq_nil_iff]
    intro a ha
    simp [hg a ha]
  rw [h1, h2, h3]
  simp [List.take_append_drop]

theorem pyInsertAt_take_one (l v : List α) (i : Nat) (hi : 1 ≤ i) :
    l ≠ [] → (pyInsertAt l i v).take 1 = l.take 1 := by
  intro hne
  match l, i with
  | x :: xs, i + 1 =>
    unfold pyInsertAt
    rw [List.take_succ_cons, List.cons_append, List.cons_append,
      List.take_succ_cons, List.take_succ_cons]
    simp

/-- The running best of the `find_best_matches` scan is either absent or a
candidate insertion of the gap block. -/
def fbmInsertSpec (mynas' mygap : List NAPos) (s L : Nat)
    (acc : Option ((ℚ × Nat) × List NAPos)) : Prop :=
  match acc with
  | none => True
  | some b => ∃ idx, s ≤ idx ∧ idx ≤ L ∧ b.2 = pyInsertAt mynas' idx mygap

theorem fbmStep_cases (mynas' mygap othernas : List NAPos)
    (bp1 : List Nat) (gt : Nat) (gps : Int × Nat → Option Int)
    (iss ise : Bool) (og : Int)
    (acc : Option ((ℚ × Nat) × List NAPos)) (idx : Nat) :
    (∃ sc, fbmStep mynas' mygap othernas bp1 gt gps iss ise og acc idx
        = some (sc, pyInsertAt mynas' idx mygap)) ∨
    (acc ≠ none ∧
      fbmStep mynas' mygap othernas bp1 gt gps iss ise og acc idx = acc) := by
  unfold fbmStep
  match acc with
  | none =>
    left
    exact ⟨_, rfl⟩
  | some best =>
    dsimp only
    split
    · left; exact ⟨_, rfl⟩
    · right; exact ⟨by simp, rfl⟩

theorem fbmStep_isSome (mynas' mygap othernas : List NAPos)
    (bp1 : List Nat) (gt : Nat) (gps : Int × Nat → Option Int)
    (iss ise : Bool) (og : Int)
    (acc : Option ((ℚ × Nat) × List NAPos)) (idx : Nat) :
    ∃ c, fbmStep mynas' mygap othernas bp1 gt gps iss ise og acc idx
      = some c := by
  rcases fbmStep_cases mynas' mygap othernas bp1 gt gps iss ise og acc idx
    with ⟨sc, h⟩ | ⟨hne, h⟩
  · exact ⟨_, h⟩
  · match acc, hne with
    | some b, _ => exact ⟨b, h⟩

theorem fbmFold_spec (mynas' mygap othernas : List NAPos)
    (bp1 : List Nat) (gt : Nat) (gps : Int × Nat → Option Int)
    (iss ise : Bool) (og : Int) (s L : Nat) :
    ∀ (idxs : List Nat) (acc : Option ((ℚ × Nat) × List NAPos)),
      (∀ i ∈ idxs, s ≤ i ∧ i ≤ L) →
      fbmInsertSpec mynas' mygap s L acc →
      fbmInsertSpec mynas' mygap s L
        (idxs.foldl (fbmStep mynas' mygap othernas bp1 gt gps iss ise og)
          acc) := by
  intro idxs
  induction idxs with
  | nil => intro acc _ hacc; exact hacc
  | cons i rest ih =>
    intro acc hb hacc
    rw [List.foldl_cons]
    apply ih _ (fun j hj => hb j (List.mem_cons_of_mem _ hj))
    rcases fbmStep_cases mynas' mygap othernas bp1 gt gps iss ise og acc i
      with ⟨sc, h⟩ | ⟨_, h⟩
    · rw [h]
      obtain ⟨hs, hL⟩ := hb i (by simp)
      exact ⟨i, hs, hL, rfl⟩
    · rw [h]
      exact hacc

theorem fbmFold_isSome (mynas' mygap othernas : List NAPos)
    (bp1 : List Nat) (gt : Nat) (gps : Int × Nat → Option Int)
    (iss ise : Bool) (og : Int) :
    ∀ (idxs : List Nat) (b : (ℚ × Nat) × List NAPos),
      ∃ c, idxs.foldl (fbmStep mynas' mygap othernas bp1 gt gps iss ise og)
        (some b) = some c := by
  intro idxs
  induction idxs with
  | nil => intro b; exact ⟨b, rfl⟩
  | cons i rest ih =>
    intro b
    rw [List.foldl_cons]
    obtain ⟨c, hc⟩ := fbmStep_isSome mynas' mygap othernas bp1 gt gps iss
      ise og (some b) i
    rw [hc]
    exact ih c

theorem fbmCandidates_empty_iff (s L : Nat) :
    fbmCandidates s L = [] ↔ L + 1 ≤ s := by
  unfold fbmCandidates
  rw [List.map_eq_nil_iff, List.range_eq_nil]
  omega

theorem fbmCandidates_bounds (s L : Nat) :
    ∀ i ∈ fbmCandidates s L, s ≤ i ∧ i ≤ L := by
  intro i hi
  unfold fbmCandidates at hi
  obtain ⟨k, hk, rfl⟩ := List.mem_map.mp hi
  rw [List.mem_range] at hk
  omega

/-- `find_best_matches` either returns the gap-free symbols unchanged (only
when the scan range is empty, i.e. `REFGAP` with fewer than 3 non-gap
symbols) or reinserts the gap block at some scanned index. -/
theorem find_best_matches_spec (mynas othernas : List NAPos)
    (bp1 : List Nat) (gt : Nat) (gps : Int × Nat → Option Int)
    (iss ise : Bool) :
    (find_best_matches mynas othernas bp1 gt gps iss ise
        = (separate_gaps_from_nas mynas).1 ∧
      (separate_gaps_from_nas mynas).1.length + 1
        ≤ (if gt = REFGAP then 3 else 0)) ∨
    (∃ idx, (if gt = REFGAP then 3 else 0) ≤ idx ∧
      idx ≤ (separate_gaps_from_nas mynas).1.length ∧
      find_best_matches mynas othernas bp1 gt gps iss ise
        = pyInsertAt (separate_gaps_from_nas mynas).1 idx
            (separate_gaps_from_nas mynas).2) := by
  unfold find_best_matches
  dsimp only
  set sep := separate_gaps_from_nas mynas with hsep
  set s := if gt = REFGAP then 3 else 0 with hs
  by_cases hempty : fbmCandidates s sep.1.length = []
  · rw [hempty]
    left
    exact ⟨rfl, (fbmCandidates_empty_iff s sep.1.length).mp hempty⟩
  · match hcand : fbmCandidates s sep.1.length, hempty with
    | c :: rest, _ =>
      rw [List.foldl_cons]
      obtain ⟨sc0, hstep0⟩ := fbmStep_cases sep.1 sep.2 othernas bp1 gt gps
        iss ise (find_first_gap mynas) none c |>.resolve_right
        (fun hcon => hcon.1 rfl)
      rw [hstep0]
      obtain ⟨cfin, hcfin⟩ := fbmFold_isSome sep.1 sep.2 othernas bp1 gt gps
        iss ise (find_first_gap mynas) rest
        (sc0, pyInsertAt sep.1 c sep.2)
      have hbounds : ∀ i ∈ fbmCandidates s sep.1.length,
          s ≤ i ∧ i ≤ sep.1.length := fbmCandidates_bounds s sep.1.length
      rw [hcand] at hbounds
      have hspec := fbmFold_spec sep.1 sep.2 othernas bp1 gt gps iss ise
        (find_first_gap mynas) s sep.1.length rest
        (some (sc0, pyInsertAt sep.1 c sep.2))
        (fun j hj => hbounds j (List.mem_cons_of_mem _ hj))
        ⟨c, (hbounds c (by simp)).1, (hbounds c (by simp)).2, rfl⟩
      rw [hcfin] at hspec
      obtain ⟨idx, h1, h2, h3⟩ := hspec
      right
      exact ⟨idx, h1, h2, by rw [hcfin]; exact h3⟩

/-! ### Invariant proofs: codon structure -/

/-- The shape invariant maintained on the reference codon list: every codon
is nonempty, starts with a non-gap reference symbol and holds 1–3 non-gap
reference symbols; every codon but the last holds exactly 3. -/
def codonStruct (rcs : List (List NAPos)) : Prop :=
  (∀ cd ∈ rcs, cd ≠ [] ∧ (∀ c ∈ cd.take 1, c.is_gap = false) ∧
    1 ≤ NAPos.count_nongaps cd ∧ NAPos.count_nongaps cd ≤ 3) ∧
  (∀ cd ∈ rcs.dropLast, NAPos.count_nongaps cd = 3)

theorem count_nongaps_map_fst (chunk : List (NAPos × NAPos)) :
    NAPos.count_nongaps (chunk.map Prod.fst) = countNongapFst chunk := by
  unfold NAPos.count_nongaps countNongapFst
  rw [List.filter_map]
  simp only [List.length_map]
  rfl

theorem group_by_codons_struct (r s : List NAPos) :
    codonStruct (group_by_codons r s).1 := by
  obtain ⟨hall, hlast⟩ := gbcChunksAux_struct (r.zip s).length (r.zip s)
    le_rfl
  unfold group_by_codons
  dsimp only
  constructor
  · intro cd hcd
    obtain ⟨chunk, hchunk, rfl⟩ := List.mem_map.mp hcd
    obtain ⟨h1, h2, h3, h4⟩ := hall chunk hchunk
    refine ⟨by simpa using h1, ?_, ?_, ?_⟩
    · intro c hc
      rw [← List.map_take] at hc
      obtain ⟨col, hcol, rfl⟩ := List.mem_map.mp hc
      exact h2 col hcol
    · rw [count_nongaps_map_fst]; exact h3
    · rw [count_nongaps_map_fst]; exact h4
  · intro cd hcd
    rw [← List.map_dropLast] at hcd
    obtain ⟨chunk, hchunk, rfl⟩ := List.mem_map.mp hcd
    rw [count_nongaps_map_fst]
    exact hlast chunk hchunk

theorem forall2_map_map {β γ : Type} (l : List γ) (f : γ → List α)
    (g : γ → List β) (h : ∀ x ∈ l, (f x).length = (g x).length) :
    List.Forall₂ (fun a b => a.length = b.length) (l.map f) (l.map g) := by
  induction l with
  | nil => simp
  | cons x xs ih =>
    rw [List.map_cons, List.map_cons]
    exact List.Forall₂.cons (h x (by simp))
      (ih (fun y hy => h y (List.mem_cons_of_mem _ hy)))

theorem group_by_codons_forall2 (r s : List NAPos) :
    List.Forall₂ (fun a b => a.length = b.length)
      (group_by_codons r s).1 (group_by_codons r s).2 := by
  unfold group_by_codons
  dsimp only
  exact forall2_map_map _ _ _ (fun chunk _ => by simp)

theorem take_one_zip_fst (r s : List NAPos)
    (hhead : ∀ c ∈ r.take 1, c.is_gap = false) :
    ∀ c ∈ (r.zip s).take 1, c.1.is_gap = false := by
  intro c hc
  match r, s with
  | [], _ => simp at hc
  | x :: xs, [] => simp at hc
  | x :: xs, y :: ys =>
    rw [List.zip_cons_cons, List.take_succ_cons, List.take_zero] at hc
    have : c = (x, y) := by simpa using hc
    subst this
    exact hhead x (by simp)

theorem map_snd_zip_take {β : Type} :
    ∀ (r : List α) (s : List β), r.length ≤ s.length →
      (r.zip s).map Prod.snd = s.take r.length := by
  intro r
  induction r with
  | nil => intro s _; simp
  | cons x xs ih =>
    intro s hs
    match s with
    | [] => simp at hs
    | y :: ys =>
      rw [List.zip_cons_cons, List.map_cons, List.length_cons,
        List.take_succ_cons, ih ys (by simpa using hs)]

theorem group_by_codons_flatten_of_head (r s : List NAPos)
    (hlen : r.length ≤ s.length)
    (hhead : ∀ c ∈ r.take 1, c.is_gap = false) :
    (group_by_codons r s).1.flatten = r ∧
    (group_by_codons r s).2.flatten = s.take r.length := by
  have hflat : (gbcChunks (r.zip s)).flatten = r.zip s := by
    unfold gbcChunks
    rw [gbcChunksAux_flatten _ _ le_rfl]
    exact dropWhile_eq_self_of_head _ _ (take_one_zip_fst r s hhead)
  unfold group_by_codons
  dsimp only
  constructor
  · rw [map_flatten_eq, hflat]
    exact List.map_fst_zip r s hlen
  · rw [map_flatten_eq, hflat]
    exact map_snd_zip_take r s hlen

theorem countNongapFst_flatten :
    ∀ (chunks : List (List (NAPos × NAPos))),
      countNongapFst chunks.flatten = (chunks.map countNongapFst).sum := by
  intro chunks
  induction chunks with
  | nil => rfl
  | cons cd rest ih =>
    rw [List.flatten_cons, List.map_cons, List.sum_cons]
    unfold countNongapFst at ih ⊢
    rw [List.filter_append, List.length_append, ih]

theorem sum_map_eq_three_mul {β : Type} (l : List β) (f : β → Nat)
    (h : ∀ x ∈ l, f x = 3) : (l.map f).sum = 3 * l.length := by
  induction l with
  | nil => simp
  | cons x xs ih =>
    rw [List.map_cons, List.sum_cons, List.length_cons,
      h x (by simp), ih (fun y hy => h y (List.mem_cons_of_mem _ hy))]
    omega

theorem gbc_count (r s : List NAPos) :
    (group_by_codons r s).1.length
      = (countNongapFst ((r.zip s).dropWhile (fun c => c.1.is_gap)) + 2)
        / 3 := by
  obtain ⟨chunks, hchunks⟩ :
      ∃ c, gbcChunksAux (r.zip s).length (r.zip s) = c := ⟨_, rfl⟩
  obtain ⟨hall, hlast⟩ := gbcChunksAux_struct (r.zip s).length (r.zip s)
    le_rfl
  have hflat := gbcChunksAux_flatten (r.zip s).length (r.zip s) le_rfl
  rw [hchunks] at hall hlast hflat
  have hsum : countNongapFst ((r.zip s).dropWhile (fun c => c.1.is_gap))
      = (chunks.map countNongapFst).sum := by
    rw [← hflat, countNongapFst_flatten]
  unfold group_by_codons gbcChunks
  dsimp only
  rw [List.length_map, hchunks, hsum]
  cases chunks with
  | nil => simp
  | cons c0 crest =>
    have hne : c0 :: crest ≠ [] := by simp
    have hdec := List.dropLast_append_getLast hne
    have hsum2 : ((c0 :: crest).map countNongapFst).sum
        = 3 * (c0 :: crest).dropLast.length
          + countNongapFst ((c0 :: crest).getLast hne) := by
      conv_lhs => rw [← hdec]
      rw [List.map_append, List.sum_append, List.map_cons, List.map_nil,
        List.sum_cons, List.sum_nil]
      rw [sum_map_eq_three_mul _ _ (fun cd hcd => hlast cd hcd)]
      omega
    have hlastmem : (c0 :: crest).getLast hne ∈ c0 :: crest :=
      List.getLast_mem hne
    obtain ⟨_, _, hge1, hle3⟩ := hall _ hlastmem
    have hlen : (c0 :: crest).dropLast.length = (c0 :: crest).length - 1 := by
      simp [List.length_dropLast]
    have hlpos : 1 ≤ (c0 :: crest).length := by simp
    rw [hsum2, hlen]
    omega

theorem pySlice_eq_drop (l : List α) (a b : Nat) (hb : l.length ≤ b) :
    pySlice l a b = l.drop a := by
  unfold pySlice
  apply List.take_of_length_le
  simp only [List.length_drop]
  omega

theorem pySlice_append_adj (l : List α) (a b c : Nat) (h1 : a ≤ b)
    (h2 : b ≤ c) :
    pySlice l a b ++ pySlice l b c = pySlice l a c := by
  unfold pySlice
  have hdrop : l.drop b = (l.drop a).drop (b - a) := by
    rw [List.drop_drop]
    congr 1
    omega
  rw [hdrop, ← List.take_add]
  congr 1
  omega

theorem pySlice_take (l : List α) (e b n : Nat) (h : n ≤ b - e) :
    (pySlice l e b).take n = pySlice l e (e + n) := by
  unfold pySlice
  rw [List.take_take]
  congr 1
  omega

theorem reverse_take_reverse (l : List α) (n : Nat) (h : n ≤ l.length) :
    (l.reverse.take n).reverse = l.drop (l.length - n) := by
  have hlen : (l.drop (l.length - n)).reverse.length = n := by
    simp only [List.length_reverse, List.length_drop]
    omega
  have hsplit : l.reverse
      = (l.drop (l.length - n)).reverse ++ (l.take (l.length - n)).reverse := by
    rw [← List.reverse_append, List.take_append_drop]
  rw [hsplit, List.take_left' hlen, List.reverse_reverse]

theorem zip_reverse {β : Type} :
    ∀ (a : List α) (b : List β), a.length = b.length →
      a.reverse.zip b.reverse = (a.zip b).reverse := by
  intro a
  induction a with
  | nil => intro b h; simp
  | cons x xs ih =>
    intro b h
    match b with
    | [] => simp at h
    | y :: ys =>
      rw [List.reverse_cons, List.reverse_cons, List.zip_cons_cons,
        List.reverse_cons]
      rw [List.zip_append (by simp; simpa using h), ih ys (by simpa using h)]
      rfl

theorem extendTruncate_spec (a b : List (List NAPos)) :
    (extendTruncate a b).2.2 ≤ a.length ∧
    (extendTruncate a b).1 = a.take (extendTruncate a b).2.2 ∧
    (extendTruncate a b).2.1 = b.take (extendTruncate a b).2.2 ∧
    (∀ p ∈ (a.zip b).take (extendTruncate a b).2.2,
      codonPairHasGap p = false) := by
  unfold extendTruncate
  dsimp only
  match hf : (a.zip b).findIdx? codonPairHasGap with
  | some j =>
    obtain ⟨_, hlt, htake⟩ := findIdx?_some_spec codonPairHasGap _ 0 j hf
    simp only [Nat.sub_zero] at hlt htake
    have hja : j ≤ a.length := by
      have : (a.zip b).length = min a.length b.length :=
        List.length_zip a b
      omega
    have hlen : (a.take j).length = j := by
      rw [List.length_take]
      omega
    rw [hlen]
    exact ⟨hja, rfl, rfl, htake⟩
  | none =>
    have hall := findIdx?_none_spec codonPairHasGap _ 0 hf
    have hlen : (a.take a.length).length = a.length := by simp
    rw [hlen]
    exact ⟨le_rfl, by simp, rfl, fun p hp => hall p (List.mem_of_mem_take hp)⟩

theorem extendRight_spec (a b : List (List NAPos)) :
    (extend_codons_until_gap a b RIGHT).2.2 ≤ a.length ∧
    (extend_codons_until_gap a b RIGHT).1
      = a.take (extend_codons_until_gap a b RIGHT).2.2 ∧
    (extend_codons_until_gap a b RIGHT).2.1
      = b.take (extend_codons_until_gap a b RIGHT).2.2 ∧
    (∀ p ∈ (a.zip b).take (extend_codons_until_gap a b RIGHT).2.2,
      codonPairHasGap p = false) := by
  have : extend_codons_until_gap a b RIGHT = extendTruncate a b := by
    unfold extend_codons_until_gap
    rw [if_neg (by unfold RIGHT LEFT; omega)]
  rw [this]
  exact extendTruncate_spec a b

theorem extendLeft_spec (a b : List (List NAPos))
    (hlen : a.length = b.length) :
    (extend_codons_until_gap a b LEFT).2.2 ≤ a.length ∧
    (extend_codons_until_gap a b LEFT).1
      = a.drop (a.length - (extend_codons_until_gap a b LEFT).2.2) ∧
    (extend_codons_until_gap a b LEFT).2.1
      = b.drop (b.length - (extend_codons_until_gap a b LEFT).2.2) ∧
    (∀ p ∈ ((a.drop (a.length - (extend_codons_until_gap a b LEFT).2.2)).zip
        (b.drop (b.length - (extend_codons_until_gap a b LEFT).2.2))),
      codonPairHasGap p = false) := by
  have hdef : extend_codons_until_gap a b LEFT
      = ((extendTruncate a.reverse b.reverse).1.reverse,
          (extendTruncate a.reverse b.reverse).2.1.reverse,
          (extendTruncate a.reverse b.reverse).2.2) := by
    unfold extend_codons_until_gap
    rw [if_pos rfl]
  obtain ⟨ht1, ht2, ht3, ht4⟩ := extendTruncate_spec a.reverse b.reverse
  rw [hdef]
  dsimp only
  set off := (extendTruncate a.reverse b.reverse).2.2 with hoff
  have hoffa : off ≤ a.length := by simpa using ht1
  have hoffb : off ≤ b.length := by omega
  have h1 : (extendTruncate a.reverse b.reverse).1.reverse
      = a.drop (a.length - off) := by
    rw [ht2]
    exact reverse_take_reverse a off hoffa
  have h2 : (extendTruncate a.reverse b.reverse).2.1.reverse
      = b.drop (b.length - off) := by
    rw [ht3]
    exact reverse_take_reverse b off hoffb
  refine ⟨hoffa, h1, h2, ?_⟩
  intro p hp
  apply ht4 p
  have hzip : (a.drop (a.length - off)).zip (b.drop (b.length - off))
      = ((a.reverse.take off).zip (b.reverse.take off)).reverse := by
    rw [← reverse_take_reverse a off hoffa,
      ← reverse_take_reverse b off hoffb]
    rw [zip_reverse _ _ (by simp only [List.length_take,
      List.length_reverse]; omega)]
  rw [hzip, List.mem_reverse] at hp
  rw [take_zip_eq]
  exact hp

theorem forall2_append {β : Type} {R : α → β → Prop} :
    ∀ {a : List α} {b : List β} {c : List α} {d : List β},
      List.Forall₂ R a b → List.Forall₂ R c d →
      List.Forall₂ R (a ++ c) (b ++ d) := by
  intro a b c d h1 h2
  induction h1 with
  | nil => exact h2
  | cons hxy _ ih => exact List.Forall₂.cons hxy ih

theorem take_dropLast (l : List α) (n : Nat) (h : n ≤ l.length - 1) :
    l.take n = l.dropLast.take n := by
  rw [List.dropLast_eq_take, List.take_take]
  congr 1
  omega

theorem drop_dropLast (l : List α) (n : Nat) :
    (l.drop n).dropLast = l.dropLast.drop n := by
  rw [List.dropLast_eq_take, List.dropLast_eq_take, List.drop_take,
    List.length_drop]
  congr 1
  omega

theorem pySlice_dropLast (l : List α) (a b : Nat) (h : b ≤ l.length - 1) :
    pySlice l a b = pySlice l.dropLast a b := by
  unfold pySlice
  rw [List.dropLast_eq_take, List.drop_take, List.take_take]
  congr 1
  omega

theorem mem_pySlice (l : List α) (a b : Nat) :
    ∀ x ∈ pySlice l a b, x ∈ l := by
  intro x hx
  unfold pySlice at hx
  exact List.mem_of_mem_drop (List.mem_of_mem_take hx)

theorem slice_count_spec (rcs : List (List NAPos)) (s1 e1 : Nat)
    (hst : codonStruct rcs) (h1 : s1 < e1) (h2 : e1 ≤ rcs.length) :
    (NAPos.count_nongaps (pySlice rcs s1 e1).flatten + 2) / 3 = e1 - s1 ∧
    (e1 < rcs.length →
      NAPos.count_nongaps (pySlice rcs s1 e1).flatten = 3 * (e1 - s1)) := by
  have hslen : (pySlice rcs s1 e1).length = e1 - s1 := by
    rw [pySlice_length]
    omega
  rw [count_nongaps_flatten]
  by_cases he : e1 < rcs.length
  · have hsub : pySlice rcs s1 e1 = pySlice rcs.dropLast s1 e1 :=
      pySlice_dropLast rcs s1 e1 (by omega)
    have hfull : ∀ cd ∈ pySlice rcs s1 e1, NAPos.count_nongaps cd = 3 := by
      intro cd hcd
      rw [hsub] at hcd
      exact hst.2 cd (mem_pySlice _ _ _ cd hcd)
    have hsum := sum_map_eq_three_mul (pySlice rcs s1 e1) _ hfull
    rw [hsum, hslen]
    constructor
    · omega
    · intro _
      rfl
  · have he1 : e1 = rcs.length := by omega
    have hdrop : pySlice rcs s1 e1 = rcs.drop s1 :=
      pySlice_eq_drop rcs s1 e1 (by omega)
    have hne : pySlice rcs s1 e1 ≠ [] := by
      intro hcon
      rw [hcon] at hslen
      simp at hslen
      omega
    have hdec := List.dropLast_append_getLast hne
    have hsum2 : ((pySlice rcs s1 e1).map NAPos.count_nongaps).sum
        = 3 * (pySlice rcs s1 e1).dropLast.length
          + NAPos.count_nongaps ((pySlice rcs s1 e1).getLast hne) := by
      conv_lhs => rw [← hdec]
      rw [List.map_append, List.sum_append, List.map_cons, List.map_nil,
        List.sum_cons, List.sum_nil]
      rw [sum_map_eq_three_mul]
      · omega
      · intro cd hcd
        rw [hdrop, drop_dropLast] at hcd
        exact hst.2 cd (List.mem_of_mem_drop hcd)
    have hlastmem : (pySlice rcs s1 e1).getLast hne ∈ rcs :=
      mem_pySlice _ _ _ _ (List.getLast_mem hne)
    obtain ⟨_, _, hge1, hle3⟩ := hst.1 _ hlastmem
    have hdll : (pySlice rcs s1 e1).dropLast.length = (e1 - s1) - 1 := by
      rw [List.length_dropLast, hslen]
    rw [hsum2, hdll]
    constructor
    · omega
    · intro hcon
      omega

theorem pySetSlice_flatten_filter (rcs new : List (List NAPos))
    (s1 e1 : Nat)
    (hv : nonGapSyms new.flatten = nonGapSyms (pySlice rcs s1 e1).flatten) :
    nonGapSyms (pySetSlice rcs s1 e1 new).flatten
      = nonGapSyms rcs.flatten := by
  conv_rhs => rw [pySlice_decomp rcs s1 e1]
  unfold pySetSlice nonGapSyms
  rw [List.flatten_append, List.flatten_append, List.flatten_append,
    List.flatten_append, List.filter_append, List.filter_append,
    List.filter_append, List.filter_append]
  unfold nonGapSyms at hv
  rw [hv]

theorem pySetSlice_drop_eq (l v : List α) (s1 e1 : Nat) (hse : s1 ≤ e1)
    (he : e1 ≤ l.length) (hlen : v.length = e1 - s1) :
    (pySetSlice l s1 e1 v).drop e1 = l.drop e1 ∧
    (pySetSlice l s1 e1 v).length = l.length := by
  have hmax : max s1 e1 = e1 := by omega
  unfold pySetSlice
  rw [hmax]
  constructor
  · rw [List.drop_left' (by
      simp only [List.length_append, List.length_take]
      omega)]
  · simp only [List.length_append, List.length_take, List.length_drop]
    omega

theorem forall2_pySetSlice {β : Type} {R : α → β → Prop}
    (l1 : List α) (l2 : List β) (v1 : List α) (v2 : List β) (a b : Nat)
    (h1 : List.Forall₂ R l1 l2) (h2 : List.Forall₂ R v1 v2) :
    List.Forall₂ R (pySetSlice l1 a b v1) (pySetSlice l2 a b v2) := by
  unfold pySetSlice
  exact forall2_append (forall2_append (forall2_take h1 a) h2)
    (forall2_drop h1 (max a b))

theorem mem_dropLast_self (l : List α) : ∀ x ∈ l.dropLast, x ∈ l := by
  intro x hx
  rw [List.dropLast_eq_take] at hx
  exact List.mem_of_mem_take hx

theorem pySetSlice_struct (rcs new : List (List NAPos)) (s1 e1 : Nat)
    (hst : codonStruct rcs) (h1 : s1 < e1) (h2 : e1 ≤ rcs.length)
    (hnew1 : ∀ cd ∈ new, cd ≠ [] ∧ (∀ c ∈ cd.take 1, c.is_gap = false) ∧
      1 ≤ NAPos.count_nongaps cd ∧ NAPos.count_nongaps cd ≤ 3)
    (hnew2 : ∀ cd ∈ new.dropLast, NAPos.count_nongaps cd = 3)
    (hnew3 : e1 < rcs.length → ∀ cd ∈ new, NAPos.count_nongaps cd = 3) :
    codonStruct (pySetSlice rcs s1 e1 new) := by
  have hmax : max s1 e1 = e1 := by omega
  have htakemem : ∀ cd ∈ rcs.take s1, cd ∈ rcs.dropLast := by
    intro cd hcd
    rw [take_dropLast rcs s1 (by omega)] at hcd
    exact List.mem_of_mem_take hcd
  constructor
  · intro cd hcd
    unfold pySetSlice at hcd
    rw [hmax] at hcd
    rcases List.mem_append.mp hcd with hh | hh
    · rcases List.mem_append.mp hh with hh2 | hh2
      · exact hst.1 cd (List.mem_of_mem_take hh2)
      · exact hnew1 cd hh2
    · exact hst.1 cd (List.mem_of_mem_drop hh)
  · intro cd hcd
    unfold pySetSlice at hcd
    rw [hmax] at hcd
    by_cases hC : rcs.drop e1 = []
    · rw [hC, List.append_nil] at hcd
      by_cases hN : new = []
      · rw [hN, List.append_nil] at hcd
        exact hst.2 cd (htakemem cd (mem_dropLast_self _ cd hcd))
      · rw [List.dropLast_append_of_ne_nil _ hN] at hcd
        rcases List.mem_append.mp hcd with hh | hh
        · exact hst.2 cd (htakemem cd hh)
        · exact hnew2 cd hh
    · have he : e1 < rcs.length := by
        by_contra hcon
        exact hC ((List.drop_eq_nil_iff).mpr (by omega))
      rw [List.dropLast_append_of_ne_nil _ hC] at hcd
      rcases List.mem_append.mp hcd with hh | hh
      · rcases List.mem_append.mp hh with hh2 | hh2
        · exact hst.2 cd (htakemem cd hh2)
        · exact hnew3 he cd hh2
      · rw [drop_dropLast] at hh
        exact hst.2 cd (List.mem_of_mem_drop hh)

theorem enumFrom_head?_fst (l : List α) (k : Nat) (h : l ≠ []) :
    ((l.enumFrom k).head?.map Prod.fst).getD 0 = k := by
  match l with
  | x :: xs => rfl

theorem enumFrom_getLast_fst_getD (l : List α) (k : Nat) (h : l ≠ []) :
    (((l.enumFrom k).getLast?.map Prod.fst).getD 0) + 1 = k + l.length := by
  have hl := enumFrom_getLast?_fst l k h
  rw [hl]
  have : 1 ≤ l.length := List.length_pos.mpr h
  simp only [Option.getD_some]
  omega

theorem enumFrom_map_2_1 {β γ : Type} (l : List (β × γ)) (k : Nat) :
    (l.enumFrom k).map (fun pr => pr.2.1) = l.map Prod.fst := by
  have h1 : (fun pr : Nat × β × γ => pr.2.1) = Prod.fst ∘ Prod.snd := rfl
  rw [h1, ← List.map_map, enumFrom_map_snd]

theorem enumFrom_map_2_2 {β γ : Type} (l : List (β × γ)) (k : Nat) :
    (l.enumFrom k).map (fun pr => pr.2.2) = l.map Prod.snd := by
  have h1 : (fun pr : Nat × β × γ => pr.2.2) = Prod.snd ∘ Prod.snd := rfl
  rw [h1, ← List.map_map, enumFrom_map_snd]

theorem pySlice_drop (l : List α) (a b j : Nat) :
    (pySlice l a b).drop j = pySlice l (a + j) b := by
  unfold pySlice
  rw [List.drop_take, List.drop_drop]
  have h1 : b - a - j = b - (a + j) := by omega
  rw [h1]

theorem get?_pySlice (l : List α) (a b j : Nat) (h : j < b - a) :
    (pySlice l a b).get? j = l.get? (a + j) := by
  unfold pySlice
  rw [List.get?_take h, List.get?_drop]

theorem flatten_take_one (cd : List α) (rest : List (List α))
    (h : cd ≠ []) : (cd :: rest).flatten.take 1 = cd.take 1 := by
  match cd, h with
  | x :: xs, _ =>
    rw [List.flatten_cons, List.cons_append, List.take_succ_cons,
      List.take_succ_cons, List.take_zero, List.take_zero]

theorem countNongapFst_zip :
    ∀ (r s : List NAPos), r.length ≤ s.length →
      countNongapFst (r.zip s) = NAPos.count_nongaps r := by
  intro r
  induction r with
  | nil => intro s _; rfl
  | cons x xs ih =>
    intro s hs
    match s with
    | [] => simp at hs
    | y :: ys =>
      rw [List.zip_cons_cons]
      unfold countNongapFst NAPos.count_nongaps at ih ⊢
      rw [List.filter_cons, List.filter_cons]
      dsimp only
      by_cases hx : x.is_gap
      · simp only [hx, Bool.not_true, Bool.false_eq_true, if_false]
        exact ih ys (by simpa using hs)
      · have hx' : x.is_gap = false := by simpa using hx
        simp only [hx', Bool.not_false, if_true, List.length_cons]
        rw [ih ys (by simpa using hs)]

theorem slice_cons (l : List α) (a b : Nat) (h1 : a < b)
    (h2 : b ≤ l.length) :
    ∃ cd rest, pySlice l a b = cd :: rest := by
  have hlen : (pySlice l a b).length = b - a := by
    rw [pySlice_length]; omega
  match hc : pySlice l a b with
  | [] => rw [hc] at hlen; simp at hlen; omega
  | cd :: rest => exact ⟨cd, rest, rfl⟩

/-- The regrouped window a non-gap-free group is replaced by. -/
def windowRegroup (rcs scs : List (List NAPos)) (k : Nat)
    (gps : Nat → Int × Nat → Option Int) (iss ise : Bool)
    (trim : Nat × Nat) (s1 e1 : Nat) :
    List (List NAPos) × List (List NAPos) :=
  let pr := paired_find_best_matches (pySlice rcs s1 e1).flatten
    (pySlice scs s1 e1).flatten k gps
    (iss && decide (s1 = trim.1)) (ise && decide (e1 = trim.2))
  group_by_codons pr.1 pr.2

theorem adjustStep_compute (ws : Nat) (gps : Nat → Int × Nat → Option Int)
    (iss ise : Bool) (trim : Nat × Nat)
    (rcs scs : List (List NAPos)) (k : Nat)
    (pairs : List (Nat × (List NAPos × List NAPos))) (p L : Nat)
    (hk0 : k ≠ NOGAP)
    (hlen2 : rcs.length = scs.length)
    (hL : 1 ≤ L) (hpL : p + L ≤ rcs.length)
    (hpairs : pairs = ((pySlice rcs p (p + L)).zip
        (pySlice scs p (p + L))).enumFrom p) :
    ∃ s1 e1,
      s1 ≤ p ∧ p + L ≤ e1 ∧ e1 ≤ rcs.length ∧
      adjustStep ws gps iss ise trim (rcs, scs) (k, pairs)
        = (pySetSlice rcs s1 e1
              (windowRegroup rcs scs k gps iss ise trim s1 e1).1,
            pySetSlice scs s1 e1
              (windowRegroup rcs scs k gps iss ise trim s1 e1).2) ∧
      (∀ i, p + L ≤ i → i < e1 → ∀ rc sc, rcs.get? i = some rc →
        scs.get? i = some sc → codonPairHasGap (rc, sc) = false) := by
  have hsliceR_len : (pySlice rcs p (p + L)).length = L := by
    rw [pySlice_length]; omega
  have hsliceS_len : (pySlice scs p (p + L)).length = L := by
    rw [pySlice_length]; omega
  have hMlen : ((pySlice rcs p (p + L)).zip (pySlice scs p (p + L))).length
      = L := by
    rw [List.length_zip, hsliceR_len, hsliceS_len]
    omega
  have hMne : (pySlice rcs p (p + L)).zip (pySlice scs p (p + L)) ≠ [] := by
    intro hcon
    rw [hcon] at hMlen
    simp at hMlen
    omega
  have hstart : ((pairs.head?.map Prod.fst).getD 0) = p := by
    rw [hpairs]
    exact enumFrom_head?_fst _ p hMne
  have hend : ((pairs.getLast?.map Prod.fst).getD 0) + 1 = p + L := by
    rw [hpairs, enumFrom_getLast_fst_getD _ p hMne, hMlen]
  have hrefcds : pairs.map (fun pr => pr.2.1) = pySlice rcs p (p + L) := by
    rw [hpairs, enumFrom_map_2_1]
    exact List.map_fst_zip _ _ (by omega)
  have hseqcds : pairs.map (fun pr => pr.2.2) = pySlice scs p (p + L) := by
    rw [hpairs, enumFrom_map_2_2, map_snd_zip_take _ _ (by omega)]
    exact List.take_of_length_le (by omega)
  -- left extension
  have hlslice_len : (pySlice rcs (p - ws) p).length
      = (pySlice scs (p - ws) p).length := by
    rw [pySlice_length, pySlice_length, hlen2]
  obtain ⟨hL1, hL2, hL3, _⟩ := extendLeft_spec (pySlice rcs (p - ws) p)
    (pySlice scs (p - ws) p) hlslice_len
  set oL := (extend_codons_until_gap (pySlice rcs (p - ws) p)
    (pySlice scs (p - ws) p) LEFT).2.2 with hoL
  rw [pySlice_length] at hL1
  have hoLp : oL ≤ p := by omega
  have hextL1 : (extend_codons_until_gap (pySlice rcs (p - ws) p)
      (pySlice scs (p - ws) p) LEFT).1 = pySlice rcs (p - oL) p := by
    rw [hL2, pySlice_drop]
    have harg : (p - ws) + ((pySlice rcs (p - ws) p).length - oL)
        = p - oL := by
      rw [pySlice_length]
      omega
    rw [harg]
  have hextL2 : (extend_codons_until_gap (pySlice rcs (p - ws) p)
      (pySlice scs (p - ws) p) LEFT).2.1 = pySlice scs (p - oL) p := by
    rw [hL3, pySlice_drop]
    have harg : (p - ws) + ((pySlice scs (p - ws) p).length - oL)
        = p - oL := by
      rw [pySlice_length]
      rw [← hlen2]
      omega
    rw [harg]
  -- right extension
  obtain ⟨hR1, hR2, hR3, hR4⟩ := extendRight_spec
    (pySlice rcs (p + L) (p + L + ws)) (pySlice scs (p + L) (p + L + ws))
  set oR := (extend_codons_until_gap (pySlice rcs (p + L) (p + L + ws))
    (pySlice scs (p + L) (p + L + ws)) RIGHT).2.2 with hoR
  rw [pySlice_length] at hR1
  have hoRws : oR ≤ ws ∧ p + L + oR ≤ rcs.length := by omega
  have hextR1 : (extend_codons_until_gap (pySlice rcs (p + L) (p + L + ws))
      (pySlice scs (p + L) (p + L + ws)) RIGHT).1
      = pySlice rcs (p + L) (p + L + oR) := by
    rw [hR2, pySlice_take _ _ _ _ (by omega)]
  have hextR2 : (extend_codons_until_gap (pySlice rcs (p + L) (p + L + ws))
      (pySlice scs (p + L) (p + L + ws)) RIGHT).2.1
      = pySlice scs (p + L) (p + L + oR) := by
    rw [hR3, pySlice_take _ _ _ _ (by omega)]
  refine ⟨p - oL, p + L + oR, by omega, by omega, by omega, ?_, ?_⟩
  · unfold adjustStep
    rw [if_neg hk0]
    dsimp only
    rw [hstart, hend, hrefcds, hseqcds]
    rw [hextL1, hextL2, hextR1, hextR2]
    have hjoinL_r : pySlice rcs (p - oL) p ++ pySlice rcs p (p + L)
        = pySlice rcs (p - oL) (p + L) :=
      pySlice_append_adj _ _ _ _ (by omega) (by omega)
    have hjoinL_s : pySlice scs (p - oL) p ++ pySlice scs p (p + L)
        = pySlice scs (p - oL) (p + L) :=
      pySlice_append_adj _ _ _ _ (by omega) (by omega)
    have hjoinR_r : pySlice rcs (p - oL) (p + L)
          ++ pySlice rcs (p + L) (p + L + oR)
        = pySlice rcs (p - oL) (p + L + oR) :=
      pySlice_append_adj _ _ _ _ (by omega) (by omega)
    have hjoinR_s : pySlice scs (p - oL) (p + L)
          ++ pySlice scs (p + L) (p + L + oR)
        = pySlice scs (p - oL) (p + L + oR) :=
      pySlice_append_adj _ _ _ _ (by omega) (by omega)
    by_cases hoL0 : oL ≠ 0
    · rw [if_pos hoL0]
      dsimp only
      by_cases hoR0 : oR ≠ 0
      · rw [if_pos hoR0]
        dsimp only
        rw [hjoinL_r, hjoinL_s, hjoinR_r, hjoinR_s]
        unfold windowRegroup
        dsimp only
      · rw [if_neg hoR0]
        dsimp only
        have hoR0' : oR = 0 := by omega
        rw [hjoinL_r, hjoinL_s]
        unfold windowRegroup
        dsimp only
        rw [hoR0', Nat.add_zero]
    · rw [if_neg hoL0]
      dsimp only
      have hoL0' : oL = 0 := by omega
      by_cases hoR0 : oR ≠ 0
      · rw [if_pos hoR0]
        dsimp only
        rw [show pySlice rcs p (p + L) ++ pySlice rcs (p + L) (p + L + oR)
            = pySlice rcs p (p + L + oR) from
          pySlice_append_adj _ _ _ _ (by omega) (by omega)]
        rw [show pySlice scs p (p + L) ++ pySlice scs (p + L) (p + L + oR)
            = pySlice scs p (p + L + oR) from
          pySlice_append_adj _ _ _ _ (by omega) (by omega)]
        unfold windowRegroup
        dsimp only
        rw [hoL0', Nat.sub_zero]
      · rw [if_neg hoR0]
        dsimp only
        have hoR0' : oR = 0 := by omega
        unfold windowRegroup
        dsimp only
        rw [hoL0', Nat.sub_zero, hoR0', Nat.add_zero]
  · intro i hi1 hi2 rc sc hrc hsc
    have hj : i - (p + L) < oR := by omega
    have hgetR : (pySlice rcs (p + L) (p + L + ws)).get? (i - (p + L))
        = some rc := by
      rw [get?_pySlice _ _ _ _ (by omega)]
      rw [show p + L + (i - (p + L)) = i from by omega]
      exact hrc
    have hgetS : (pySlice scs (p + L) (p + L + ws)).get? (i - (p + L))
        = some sc := by
      rw [get?_pySlice _ _ _ _ (by omega)]
      rw [show p + L + (i - (p + L)) = i from by omega]
      exact hsc
    have hzip := zip_get?_of_get? _ _ _ _ _ hgetR hgetS
    have htake : (((pySlice rcs (p + L) (p + L + ws)).zip
        (pySlice scs (p + L) (p + L + ws))).take oR).get? (i - (p + L))
        = some (rc, sc) := by
      rw [List.get?_take hj]
      exact hzip
    have hmem := List.get?_mem htake
    exact hR4 (rc, sc) hmem

theorem group_by_codons_len2 (r s : List NAPos) :
    (group_by_codons r s).2.length = (group_by_codons r s).1.length := by
  unfold group_by_codons
  simp

theorem regroup_spec (wr wsq : List NAPos)
    (hlen : wr.length ≤ wsq.length)
    (hhead : ∀ c ∈ wr.take 1, c.is_gap = false) :
    (group_by_codons wr wsq).1.flatten = wr ∧
    (group_by_codons wr wsq).2.flatten = wsq.take wr.length ∧
    (group_by_codons wr wsq).1.length
      = (NAPos.count_nongaps wr + 2) / 3 ∧
    List.Forall₂ (fun a b => a.length = b.length)
      (group_by_codons wr wsq).1 (group_by_codons wr wsq).2 ∧
    codonStruct (group_by_codons wr wsq).1 ∧
    (group_by_codons wr wsq).2.length
      = (group_by_codons wr wsq).1.length := by
  obtain ⟨hf1, hf2⟩ := group_by_codons_flatten_of_head wr wsq hlen hhead
  refine ⟨hf1, hf2, ?_, group_by_codons_forall2 wr wsq,
    group_by_codons_struct wr wsq, group_by_codons_len2 wr wsq⟩
  rw [gbc_count wr wsq,
    dropWhile_eq_self_of_head _ _ (take_one_zip_fst wr wsq hhead),
    countNongapFst_zip wr wsq hlen]

theorem count_nongaps_le_length (l : List NAPos) :
    NAPos.count_nongaps l ≤ l.length := List.length_filter_le _ _

theorem windowRegroup_spec (rcs scs : List (List NAPos)) (k : Nat)
    (gps : Nat → Int × Nat → Option Int) (iss ise : Bool)
    (trim : Nat × Nat) (s1 e1 : Nat)
    (hkey : k = REFGAP ∨ k = SEQGAP)
    (hf2 : List.Forall₂ (fun a b => a.length = b.length) rcs scs)
    (hst : codonStruct rcs)
    (hs1e1 : s1 < e1) (he1 : e1 ≤ rcs.length) :
    List.Forall₂ (fun a b => a.length = b.length)
      (windowRegroup rcs scs k gps iss ise trim s1 e1).1
      (windowRegroup rcs scs k gps iss ise trim s1 e1).2 ∧
    nonGapSyms (windowRegroup rcs scs k gps iss ise trim s1 e1).1.flatten
      = nonGapSyms (pySlice rcs s1 e1).flatten ∧
    codonStruct (windowRegroup rcs scs k gps iss ise trim s1 e1).1 ∧
    (e1 < rcs.length →
      ∀ cd ∈ (windowRegroup rcs scs k gps iss ise trim s1 e1).1,
        NAPos.count_nongaps cd = 3) ∧
    ((windowRegroup rcs scs k gps iss ise trim s1 e1).1.length = e1 - s1 ∨
      (e1 - s1 = 1 ∧ e1 = rcs.length)) ∧
    (windowRegroup rcs scs k gps iss ise trim s1 e1).2.length
      = (windowRegroup rcs scs k gps iss ise trim s1 e1).1.length := by
  have hslice_f2 : List.Forall₂ (fun a b => a.length = b.length)
      (pySlice rcs s1 e1) (pySlice scs s1 e1) :=
    forall2_take (forall2_drop hf2 s1) (e1 - s1)
  have hwlen : (pySlice rcs s1 e1).flatten.length
      = (pySlice scs s1 e1).flatten.length := flatten_length_forall2 hslice_f2
  obtain ⟨hNdiv, hNfull⟩ := slice_count_spec rcs s1 e1 hst hs1e1 he1
  obtain ⟨cd0, rest0, hslice⟩ := slice_cons rcs s1 e1 hs1e1 he1
  have hcd0mem : cd0 ∈ rcs := by
    apply mem_pySlice rcs s1 e1
    rw [hslice]
    simp
  obtain ⟨hcd0ne, hcd0head, _, _⟩ := hst.1 cd0 hcd0mem
  have hwhead : ∀ c ∈ (pySlice rcs s1 e1).flatten.take 1,
      c.is_gap = false := by
    rw [hslice, flatten_take_one cd0 rest0 hcd0ne]
    intro c hc
    exact hcd0head c hc
  -- the `all codons full' consequence, given the regroup facts
  have hfull3 : ∀ (gc1 : List (List NAPos)),
      gc1.flatten.length = gc1.flatten.length →
      (∀ cd ∈ gc1, NAPos.count_nongaps cd ≤ 3) →
      NAPos.count_nongaps gc1.flatten = 3 * gc1.length →
      ∀ cd ∈ gc1, NAPos.count_nongaps cd = 3 := by
    intro gc1 _ hle hsum cd hcd
    have hsum2 : (gc1.map NAPos.count_nongaps).sum
        = 3 * (gc1.map NAPos.count_nongaps).length := by
      rw [← count_nongaps_flatten, hsum, List.length_map]
    have := all_eq_three_of_sum (gc1.map NAPos.count_nongaps)
      (fun x hx => by
        obtain ⟨cd2, hcd2, rfl⟩ := List.mem_map.mp hx
        exact hle cd2 hcd2)
      hsum2
    exact this _ (List.mem_map_of_mem _ hcd)
  rcases hkey with hk | hk
  · -- REFGAP
    have hpaired : paired_find_best_matches (pySlice rcs s1 e1).flatten
        (pySlice scs s1 e1).flatten k gps
        (iss && decide (s1 = trim.1)) (ise && decide (e1 = trim.2))
        = (find_best_matches (pySlice rcs s1 e1).flatten
            (pySlice scs s1 e1).flatten
            (bp1Indices (pySlice rcs s1 e1).flatten) k (gps k) false false,
          (pySlice scs s1 e1).flatten) := by
      unfold paired_find_best_matches
      rw [if_pos hk]
    have hgt3 : (if k = REFGAP then 3 else 0) = 3 := by rw [if_pos hk]
    rcases find_best_matches_spec (pySlice rcs s1 e1).flatten
        (pySlice scs s1 e1).flatten
        (bp1Indices (pySlice rcs s1 e1).flatten) k (gps k) false false
      with ⟨hout, hfb⟩ | ⟨idx, hidx3, hidxN, hout⟩
    · -- fallback: fewer than 3 non-gap symbols in the window
      rw [hgt3] at hfb
      have hsepNf : (separate_gaps_from_nas
          (pySlice rcs s1 e1).flatten).1.length
          = NAPos.count_nongaps (pySlice rcs s1 e1).flatten := rfl
      have hN2 : NAPos.count_nongaps (pySlice rcs s1 e1).flatten ≤ 2 := by
        rw [hsepNf] at hfb
        omega
      have he1len : e1 = rcs.length := by
        by_contra hcon
        have := hNfull (by omega)
        omega
      have hes1 : e1 - s1 = 1 := by omega
      unfold windowRegroup
      dsimp only
      rw [hpaired]
      dsimp only
      rw [hout]
      have hsephead : ∀ c ∈ (separate_gaps_from_nas
          (pySlice rcs s1 e1).flatten).1.take 1, c.is_gap = false := by
        intro c hc
        have hmem := List.mem_of_mem_take hc
        unfold separate_gaps_from_nas at hmem
        dsimp only at hmem
        simpa using List.of_mem_filter hmem
      have hseplen : (separate_gaps_from_nas
          (pySlice rcs s1 e1).flatten).1.length
          ≤ (pySlice scs s1 e1).flatten.length := by
        unfold separate_gaps_from_nas
        dsimp only
        calc ((pySlice rcs s1 e1).flatten.filter
            (fun na => !na.is_gap)).length
            ≤ (pySlice rcs s1 e1).flatten.length :=
              List.length_filter_le _ _
          _ = (pySlice scs s1 e1).flatten.length := hwlen
      obtain ⟨hr1, hr2, hr3, hr4, hr5, hr6⟩ := regroup_spec _ _ hseplen
        hsephead
      refine ⟨hr4, ?_, hr5, ?_, ?_, hr6⟩
      · rw [hr1]
        have hall : ∀ a ∈ (separate_gaps_from_nas
            (pySlice rcs s1 e1).flatten).1, (!a.is_gap) = true := by
          intro a ha
          unfold separate_gaps_from_nas at ha
          dsimp only at ha
          exact (List.mem_filter.mp ha).2
        unfold nonGapSyms
        rw [List.filter_eq_self.mpr hall]
        rfl
      · intro hcon
        omega
      · right
        exact ⟨hes1, he1len⟩
    · -- insertion of the gap block at a codon boundary
      rw [hgt3] at hidx3
      unfold windowRegroup
      dsimp only
      rw [hpaired]
      dsimp only
      rw [hout]
      have hsep1 : ∀ x ∈ (separate_gaps_from_nas
          (pySlice rcs s1 e1).flatten).1, x.is_gap = false := by
        intro x hx
        unfold separate_gaps_from_nas at hx
        dsimp only at hx
        simpa using List.of_mem_filter hx
      have hsep2 : ∀ x ∈ (separate_gaps_from_nas
          (pySlice rcs s1 e1).flatten).2, x.is_gap = true := by
        intro x hx
        unfold separate_gaps_from_nas at hx
        dsimp only at hx
        exact List.of_mem_filter hx
      have hsepN : (separate_gaps_from_nas
          (pySlice rcs s1 e1).flatten).1.length
          = NAPos.count_nongaps (pySlice rcs s1 e1).flatten := rfl
      have houtfilter : nonGapSyms (pyInsertAt (separate_gaps_from_nas
          (pySlice rcs s1 e1).flatten).1 idx (separate_gaps_from_nas
          (pySlice rcs s1 e1).flatten).2)
          = (separate_gaps_from_nas (pySlice rcs s1 e1).flatten).1 :=
        pyInsertAt_filter_gaps _ _ idx hsep1 hsep2
      have houtlen : (pyInsertAt (separate_gaps_from_nas
          (pySlice rcs s1 e1).flatten).1 idx (separate_gaps_from_nas
          (pySlice rcs s1 e1).flatten).2).length
          = (pySlice rcs s1 e1).flatten.length := by
        rw [pyInsertAt_length]
        unfold separate_gaps_from_nas
        dsimp only
        have := filter_partition_length
          (fun na : NAPos => na.is_gap) (pySlice rcs s1 e1).flatten
        omega
      have hsepne : (separate_gaps_from_nas
          (pySlice rcs s1 e1).flatten).1 ≠ [] := by
        intro hcon
        rw [hcon] at hsepN
        simp at hsepN
        omega
      have houthead : ∀ c ∈ (pyInsertAt (separate_gaps_from_nas
          (pySlice rcs s1 e1).flatten).1 idx (separate_gaps_from_nas
          (pySlice rcs s1 e1).flatten).2).take 1, c.is_gap = false := by
        rw [pyInsertAt_take_one _ _ idx (by omega) hsepne]
        intro c hc
        exact hsep1 c (List.mem_of_mem_take hc)
      have houtlen2 : (pyInsertAt (separate_gaps_from_nas
          (pySlice rcs s1 e1).flatten).1 idx (separate_gaps_from_nas
          (pySlice rcs s1 e1).flatten).2).length
          ≤ (pySlice scs s1 e1).flatten.length := by
        rw [houtlen, hwlen]
      obtain ⟨hr1, hr2, hr3, hr4, hr5, hr6⟩ := regroup_spec _ _ houtlen2
        houthead
      have houtcount : NAPos.count_nongaps (pyInsertAt
          (separate_gaps_from_nas (pySlice rcs s1 e1).flatten).1 idx
          (separate_gaps_from_nas (pySlice rcs s1 e1).flatten).2)
          = NAPos.count_nongaps (pySlice rcs s1 e1).flatten := by
        show (nonGapSyms _).length = _
        rw [houtfilter, hsepN]
      refine ⟨hr4, ?_, hr5, ?_, ?_, hr6⟩
      · rw [hr1]
        show nonGapSyms _ = _
        rw [houtfilter]
        rfl
      · intro hlt
        apply hfull3 _ rfl (fun cd hcd => (hr5.1 cd hcd).2.2.2)
        rw [hr1, houtcount, hNfull hlt, hr3, houtcount, hNdiv]
      · left
        rw [hr3, houtcount, hNdiv]
  · -- SEQGAP
    have hkne : k ≠ REFGAP := by rw [hk]; unfold SEQGAP REFGAP; omega
    have hpaired : paired_find_best_matches (pySlice rcs s1 e1).flatten
        (pySlice scs s1 e1).flatten k gps
        (iss && decide (s1 = trim.1)) (ise && decide (e1 = trim.2))
        = ((pySlice rcs s1 e1).flatten,
          find_best_matches (pySlice scs s1 e1).flatten
            (pySlice rcs s1 e1).flatten
            (bp1Indices (pySlice rcs s1 e1).flatten) k (gps k)
            (iss && decide (s1 = trim.1)) (ise && decide (e1 = trim.2))) := by
      unfold paired_find_best_matches
      rw [if_neg hkne, if_pos hk]
    have hgt0 : (if k = REFGAP then 3 else 0) = 0 := by rw [if_neg hkne]
    rcases find_best_matches_spec (pySlice scs s1 e1).flatten
        (pySlice rcs s1 e1).flatten
        (bp1Indices (pySlice rcs s1 e1).flatten) k (gps k)
        (iss && decide (s1 = trim.1)) (ise && decide (e1 = trim.2))
      with ⟨_, hfb⟩ | ⟨idx, _, hidxN, hout⟩
    · rw [hgt0] at hfb
      omega
    · unfold windowRegroup
      dsimp only
      rw [hpaired]
      dsimp only
      rw [hout]
      have houtlen : (pyInsertAt (separate_gaps_from_nas
          (pySlice scs s1 e1).flatten).1 idx (separate_gaps_from_nas
          (pySlice scs s1 e1).flatten).2).length
          = (pySlice scs s1 e1).flatten.length := by
        rw [pyInsertAt_length]
        unfold separate_gaps_from_nas
        dsimp only
        have := filter_partition_length
          (fun na : NAPos => na.is_gap) (pySlice scs s1 e1).flatten
        omega
      have hrlen : (pySlice rcs s1 e1).flatten.length
          ≤ (pyInsertAt (separate_gaps_from_nas
            (pySlice scs s1 e1).flatten).1 idx (separate_gaps_from_nas
            (pySlice scs s1 e1).flatten).2).length := by
        rw [houtlen, ← hwlen]
      obtain ⟨hr1, hr2, hr3, hr4, hr5, hr6⟩ := regroup_spec _ _ hrlen hwhead
      refine ⟨hr4, ?_, hr5, ?_, ?_, hr6⟩
      · rw [hr1]
      · intro hlt
        apply hfull3 _ rfl (fun cd hcd => (hr5.1 cd hcd).2.2.2)
        rw [hr1, hNfull hlt, hr3, hNdiv]
      · left
        rw [hr3, hNdiv]

theorem drop_eq_of_drop_eq_le (xs ys : List α) (m n : Nat)
    (h : xs.drop m = ys.drop m) (hmn : m ≤ n) :
    xs.drop n = ys.drop n := by
  have h1 : xs.drop n = (xs.drop m).drop (n - m) := by
    rw [List.drop_drop]
    congr 1
    omega
  have h2 : ys.drop n = (ys.drop m).drop (n - m) := by
    rw [List.drop_drop]
    congr 1
    omega
  rw [h1, h2, h]

theorem key_cases (a b : List NAPos) :
    codon_pairs_group_key a b = REFGAP ∨
    codon_pairs_group_key a b = SEQGAP ∨
    codon_pairs_group_key a b = NOGAP := by
  unfold codon_pairs_group_key
  by_cases h1 : NAPos.any_has_gap a
  · left; rw [if_pos h1]
  · rw [if_neg h1]
    by_cases h2 : NAPos.any_has_gap b
    · right; left; rw [if_pos h2]
    · right; right; rw [if_neg h2]

theorem key_nogap_of_pairfree (a b : List NAPos)
    (h : codonPairHasGap (a, b) = false) :
    codon_pairs_group_key a b = NOGAP := by
  unfold codonPairHasGap at h
  dsimp only at h
  rw [Bool.or_eq_false_iff] at h
  unfold codon_pairs_group_key
  rw [h.1, h.2]
  rfl

theorem mem_flatten_map_snd {β : Type}
    (gs : List (Nat × List β)) (g : Nat × List β) (pr : β)
    (hg : g ∈ gs) (hpr : pr ∈ g.2) :
    pr ∈ (gs.map Prod.snd).flatten := by
  rw [List.mem_flatten]
  exact ⟨g.2, List.mem_map_of_mem _ hg, hpr⟩

theorem eq_nil_of_flatten_map_snd {β : Type}
    (gs : List (Nat × List β))
    (hflat : (gs.map Prod.snd).flatten = [])
    (hne : ∀ g ∈ gs, g.2 ≠ []) : gs = [] := by
  match gs with
  | [] => rfl
  | g :: rest =>
    rw [List.map_cons, List.flatten_cons] at hflat
    have := List.append_eq_nil.mp hflat
    exact absurd this.1 (hne g (by simp))

theorem get?_some_lt (l : List α) (n : Nat) (a : α)
    (h : l.get? n = some a) : n < l.length := by
  by_contra hcon
  rw [List.get?_eq_none.mpr (by omega)] at h
  simp at h

theorem adjustStep_inv (ws : Nat) (gps : Nat → Int × Nat → Option Int)
    (iss ise : Bool) (trim : Nat × Nat)
    (rcs scs : List (List NAPos)) (k : Nat)
    (pairs : List (Nat × (List NAPos × List NAPos))) (p L : Nat)
    (hkey : k = REFGAP ∨ k = SEQGAP)
    (hf2 : List.Forall₂ (fun a b => a.length = b.length) rcs scs)
    (hst : codonStruct rcs)
    (hlen2 : rcs.length = scs.length)
    (hL : 1 ≤ L) (hpL : p + L ≤ rcs.length)
    (hpairs : pairs = ((pySlice rcs p (p + L)).zip
        (pySlice scs p (p + L))).enumFrom p) :
    List.Forall₂ (fun a b => a.length = b.length)
      (adjustStep ws gps iss ise trim (rcs, scs) (k, pairs)).1
      (adjustStep ws gps iss ise trim (rcs, scs) (k, pairs)).2 ∧
    nonGapSyms
        (adjustStep ws gps iss ise trim (rcs, scs) (k, pairs)).1.flatten
      = nonGapSyms rcs.flatten ∧
    ((∃ e1, p + L ≤ e1 ∧ e1 ≤ rcs.length ∧
        codonStruct (adjustStep ws gps iss ise trim (rcs, scs)
          (k, pairs)).1 ∧
        (adjustStep ws gps iss ise trim (rcs, scs) (k, pairs)).1.length
          = rcs.length ∧
        (adjustStep ws gps iss ise trim (rcs, scs) (k, pairs)).2.length
          = scs.length ∧
        (adjustStep ws gps iss ise trim (rcs, scs) (k, pairs)).1.drop e1
          = rcs.drop e1 ∧
        (adjustStep ws gps iss ise trim (rcs, scs) (k, pairs)).2.drop e1
          = scs.drop e1 ∧
        (∀ i, p + L ≤ i → i < e1 → ∀ rc sc, rcs.get? i = some rc →
          scs.get? i = some sc → codonPairHasGap (rc, sc) = false)) ∨
      p + 1 = rcs.length) := by
  have hk0 : k ≠ NOGAP := by
    rcases hkey with h | h <;> rw [h] <;> decide
  obtain ⟨s1, e1, hs1p, hpLe1, he1len, hstep, hgapfree⟩ :=
    adjustStep_compute ws gps iss ise trim rcs scs k pairs p L hk0 hlen2
      hL hpL hpairs
  have hs1e1 : s1 < e1 := by omega
  obtain ⟨wf2, wfilt, wstruct, wfull, wlen, wlen2⟩ := windowRegroup_spec
    rcs scs k gps iss ise trim s1 e1 hkey hf2 hst hs1e1 he1len
  rw [hstep]
  refine ⟨forall2_pySetSlice _ _ _ _ _ _ hf2 wf2,
    pySetSlice_flatten_filter _ _ _ _ wfilt, ?_⟩
  rcases wlen with hwl | ⟨hes1, hefin⟩
  · left
    obtain ⟨hd1, hl1⟩ := pySetSlice_drop_eq rcs
      (windowRegroup rcs scs k gps iss ise trim s1 e1).1 s1 e1
      (by omega) he1len hwl
    obtain ⟨hd2, hl2⟩ := pySetSlice_drop_eq scs
      (windowRegroup rcs scs k gps iss ise trim s1 e1).2 s1 e1
      (by omega) (by omega) (by rw [wlen2, hwl])
    exact ⟨e1, hpLe1, he1len,
      pySetSlice_struct rcs _ s1 e1 hst hs1e1 he1len wstruct.1 wstruct.2
        wfull, hl1, hl2, hd1, hd2, hgapfree⟩
  · right
    omega

theorem adjustFold_inv (ws : Nat) (gps : Nat → Int × Nat → Option Int)
    (iss ise : Bool) (trim : Nat × Nat)
    (origR origS : List (List NAPos)) :
    ∀ (gs : List (Nat × List (Nat × (List NAPos × List NAPos))))
      (rcs scs : List (List NAPos)) (p m : Nat),
      (gs.map Prod.snd).flatten
        = (((origR.zip origS).drop p).take (trim.2 - p)).enumFrom p →
      (∀ g ∈ gs, g.2 ≠ []) →
      (∀ g ∈ gs, ∀ pr ∈ g.2,
        codon_pairs_group_key pr.2.1 pr.2.2 = g.1) →
      List.Forall₂ (fun a b => a.length = b.length) rcs scs →
      codonStruct rcs →
      rcs.length = origR.length →
      scs.length = origS.length →
      rcs.drop m = origR.drop m →
      scs.drop m = origS.drop m →
      (∀ g ∈ gs, g.1 ≠ NOGAP → ∀ pr ∈ g.2, m ≤ pr.1) →
      List.Forall₂ (fun a b => a.length = b.length)
        (gs.foldl (adjustStep ws gps iss ise trim) (rcs, scs)).1
        (gs.foldl (adjustStep ws gps iss ise trim) (rcs, scs)).2 ∧
      nonGapSyms
          (gs.foldl (adjustStep ws gps iss ise trim) (rcs, scs)).1.flatten
        = nonGapSyms rcs.flatten := by
  intro gs
  induction gs with
  | nil =>
    intro rcs scs p m _ _ _ hf2 _ _ _ _ _ _
    exact ⟨hf2, rfl⟩
  | cons g rest ih =>
    intro rcs scs p m hflat hne hkeys hf2 hst hlenR hlenS hagR hagS hm
    obtain ⟨gk, gpairs⟩ := g
    rw [List.map_cons, List.flatten_cons] at hflat
    dsimp only at hflat
    -- decompose the head group as a consecutive chunk of the snapshot
    have hgne : gpairs ≠ [] := hne (gk, gpairs) (by simp)
    have hgpos : 1 ≤ gpairs.length := List.length_pos.mpr hgne
    have hlenflat := congrArg List.length hflat
    rw [List.length_append, enumFrom_length] at hlenflat
    have htotlen : gpairs.length + ((rest.map Prod.snd).flatten).length
        = (((origR.zip origS).drop p).take (trim.2 - p)).length := hlenflat
    have hLle : gpairs.length
        ≤ (((origR.zip origS).drop p).take (trim.2 - p)).length := by
      omega
    have hMsplit : (((origR.zip origS).drop p).take (trim.2 - p)).enumFrom p
        = ((((origR.zip origS).drop p).take (trim.2 - p)).take
            gpairs.length).enumFrom p
          ++ ((((origR.zip origS).drop p).take (trim.2 - p)).drop
            gpairs.length).enumFrom (p + gpairs.length) := by
      have harith : ((((origR.zip origS).drop p).take (trim.2 - p)).take
          gpairs.length).length = gpairs.length := by
        rw [List.length_take]
        omega
      conv_lhs => rw [← List.take_append_drop gpairs.length
        (((origR.zip origS).drop p).take (trim.2 - p))]
      rw [enumFrom_append, harith]
    obtain ⟨hg2, hrestflat⟩ := List.append_inj
      (hflat.trans hMsplit)
      (by rw [enumFrom_length, List.length_take]; omega)
    -- simplify the chunk shapes
    have hMlen : (((origR.zip origS).drop p).take (trim.2 - p)).length
        = min (trim.2 - p) ((origR.zip origS).length - p) := by
      rw [List.length_take, List.length_drop]
    have hMtake : (((origR.zip origS).drop p).take (trim.2 - p)).take
        gpairs.length = (pySlice (origR.zip origS) p (p + gpairs.length)) := by
      rw [List.take_take]
      unfold pySlice
      congr 1
      omega
    have hMdrop : (((origR.zip origS).drop p).take (trim.2 - p)).drop
        gpairs.length
        = ((origR.zip origS).drop (p + gpairs.length)).take
            (trim.2 - (p + gpairs.length)) := by
      rw [List.drop_take, List.drop_drop]
      have h1 : trim.2 - p - gpairs.length
          = trim.2 - (p + gpairs.length) := by omega
      rw [h1]
    rw [hMtake] at hg2
    rw [hMdrop] at hrestflat
    have hzipbound : p + gpairs.length ≤ (origR.zip origS).length := by
      omega
    have hpLrcs : p + gpairs.length ≤ rcs.length := by
      rw [List.length_zip] at hzipbound
      omega
    rw [List.foldl_cons]
    by_cases hg1 : gk = NOGAP
    · -- gap-free group: the state is untouched
      have hstep : adjustStep ws gps iss ise trim (rcs, scs) (gk, gpairs)
          = (rcs, scs) := by
        unfold adjustStep
        rw [if_pos (by rw [hg1])]
      rw [hstep]
      exact ih rcs scs (p + gpairs.length) m hrestflat
        (fun g hg => hne g (List.mem_cons_of_mem _ hg))
        (fun g hg => hkeys g (List.mem_cons_of_mem _ hg))
        hf2 hst hlenR hlenS hagR hagS
        (fun g hg => hm g (List.mem_cons_of_mem _ hg))
    · -- gapped group
      have hkey : gk = REFGAP ∨ gk = SEQGAP := by
        obtain ⟨pr0, hpr0⟩ := List.exists_mem_of_ne_nil gpairs hgne
        have hk := hkeys (gk, gpairs) (by simp) pr0 hpr0
        dsimp only at hk
        rcases key_cases pr0.2.1 pr0.2.2 with h | h | h
        · left; rw [← hk, h]
        · right; rw [← hk, h]
        · exact absurd (hk.symm.trans h) hg1
      have hmp : m ≤ p := by
        have hM0 : pySlice (origR.zip origS) p (p + gpairs.length) ≠ [] := by
          intro hcon
          rw [hcon] at hg2
          exact hgne (by simpa using hg2)
        obtain ⟨c0, crest, hc⟩ := List.exists_cons_of_ne_nil hM0
        have hmem0 : (p, c0) ∈ gpairs := by
          rw [hg2, hc, List.enumFrom_cons]
          simp
        exact hm (gk, gpairs) (by simp) hg1 (p, c0) hmem0
      -- convert the snapshot slices to current-state slices
      have hsliceR : pySlice origR p (p + gpairs.length)
          = pySlice rcs p (p + gpairs.length) := by
        unfold pySlice
        rw [drop_eq_of_drop_eq_le rcs origR m p hagR hmp]
      have hsliceS : pySlice origS p (p + gpairs.length)
          = pySlice scs p (p + gpairs.length) := by
        unfold pySlice
        rw [drop_eq_of_drop_eq_le scs origS m p hagS hmp]
      have hg2' : gpairs = ((pySlice rcs p (p + gpairs.length)).zip
          (pySlice scs p (p + gpairs.length))).enumFrom p := by
        conv_lhs => rw [hg2]
        rw [← pySlice_zip, hsliceR, hsliceS]
      have hlen2 : rcs.length = scs.length := by
        have := List.Forall₂.length_eq hf2
        omega
      obtain ⟨sf2, sfilt, srest⟩ := adjustStep_inv ws gps iss ise trim
        rcs scs gk gpairs p gpairs.length hkey hf2 hst hlen2
        (List.length_pos.mpr hgne) hpLrcs hg2'
      rcases srest with ⟨e1, he1a, he1b, hostruct, holen, holen2, hodrop,
          hodrop2, hogapfree⟩ | hfin
      · -- count-preserving splice: continue the fold from agreement point e1
        have hrestm : ∀ g ∈ rest, g.1 ≠ NOGAP → ∀ pr ∈ g.2, e1 ≤ pr.1 := by
          intro g' hg' hg'1 pr hpr
          by_contra hcon
          have hprflat := mem_flatten_map_snd rest g' pr hg' hpr
          rw [hrestflat] at hprflat
          obtain ⟨hprge, hprget⟩ := mem_enumFrom_spec _ _ pr hprflat
          have hprlt : pr.1 - (p + gpairs.length)
              < (((origR.zip origS).drop (p + gpairs.length)).take
                  (trim.2 - (p + gpairs.length))).length :=
            get?_some_lt _ _ _ hprget
          rw [List.length_take, List.length_drop] at hprlt
          have hzip : (origR.zip origS).get? pr.1 = some pr.2 := by
            rw [List.get?_take (by omega), List.get?_drop] at hprget
            rw [show p + gpairs.length + (pr.1 - (p + gpairs.length))
              = pr.1 from by omega] at hprget
            exact hprget
          obtain ⟨hgetR, hgetS⟩ := get?_zip_spec origR origS pr.1 pr.2 hzip
          have hgetRc : rcs.get? pr.1 = some pr.2.1 := by
            rw [get?_eq_of_drop_eq rcs origR m hagR pr.1 (by omega)]
            exact hgetR
          have hgetSc : scs.get? pr.1 = some pr.2.2 := by
            rw [get?_eq_of_drop_eq scs origS m hagS pr.1 (by omega)]
            exact hgetS
          have hfree := hogapfree pr.1 hprge (by omega) pr.2.1 pr.2.2
            hgetRc hgetSc
          have hkeyno := key_nogap_of_pairfree pr.2.1 pr.2.2 hfree
          exact hg'1 ((hkeys g' (List.mem_cons_of_mem _ hg') pr hpr).symm.trans
            hkeyno)
        obtain ⟨ihf2, ihfilt⟩ := ih
          (adjustStep ws gps iss ise trim (rcs, scs) (gk, gpairs)).1
          (adjustStep ws gps iss ise trim (rcs, scs) (gk, gpairs)).2
          (p + gpairs.length) e1 hrestflat
          (fun g hg => hne g (List.mem_cons_of_mem _ hg))
          (fun g hg => hkeys g (List.mem_cons_of_mem _ hg))
          sf2 hostruct (by omega) (by omega)
          (by rw [hodrop]
              exact drop_eq_of_drop_eq_le rcs origR m e1 hagR (by omega))
          (by rw [hodrop2]
              exact drop_eq_of_drop_eq_le scs origS m e1 hagS (by omega))
          hrestm
        refine ⟨ihf2, ?_⟩
        rw [ihfilt, sfilt]
      · -- shrinking fallback: only the globally last codon was regrouped,
        -- so no groups remain
        have hrest0 : rest = [] := by
          apply eq_nil_of_flatten_map_snd rest
          · rw [hrestflat]
            have hzlen : (origR.zip origS).length ≤ rcs.length := by
              rw [List.length_zip]
              omega
            have : ((origR.zip origS).drop (p + gpairs.length)) = [] := by
              rw [List.drop_eq_nil_iff]
              omega
            rw [this]
            simp
          · exact fun g hg => hne g (List.mem_cons_of_mem _ hg)
        rw [hrest0]
        exact ⟨sf2, sfilt⟩

theorem adjust_gap_placement_inv (refcodons seqcodons : List (List NAPos))
    (ws : Nat) (gps : Nat → Int × Nat → Option Int) (iss ise : Bool)
    (hf2 : List.Forall₂ (fun a b => a.length = b.length)
      refcodons seqcodons)
    (hst : codonStruct refcodons) :
    List.Forall₂ (fun a b => a.length = b.length)
      (adjust_gap_placement refcodons seqcodons ws gps iss ise).1
      (adjust_gap_placement refcodons seqcodons ws gps iss ise).2 ∧
    nonGapSyms
        (adjust_gap_placement refcodons seqcodons ws gps iss ise).1.flatten
      = nonGapSyms refcodons.flatten := by
  unfold adjust_gap_placement
  dsimp only
  set trim := find_codon_trim_slice seqcodons with htrim
  have hsnap : pySlice (refcodons.zip seqcodons).enum trim.1 trim.2
      = ((((refcodons.zip seqcodons).drop trim.1).take
          (trim.2 - trim.1)).enumFrom trim.1) := by
    show pySlice ((refcodons.zip seqcodons).enumFrom 0) trim.1 trim.2 = _
    unfold pySlice
    rw [enumFrom_drop, enumFrom_take]
    congr 1
    omega
  apply adjustFold_inv ws gps iss ise trim refcodons seqcodons _
    refcodons seqcodons trim.1 0
  · rw [pyGroupBy_flatten, hsnap]
  · intro g hg
    exact pyGroupByAux_nonempty _ _ _ g hg
  · intro g hg pr hpr
    exact pyGroupByAux_key _ _ _ g hg pr hpr
  · exact hf2
  · exact hst
  · rfl
  · rfl
  · rfl
  · rfl
  · intro g _ _ pr _
    omega

theorem forall2_map_right {β γ : Type}
    (a : List (List β)) (b : List (List γ)) (g : List γ → List γ)
    (hg : ∀ x, (g x).length = x.length)
    (h : List.Forall₂ (fun x y => x.length = y.length) a b) :
    List.Forall₂ (fun x y => x.length = y.length) a (b.map g) := by
  induction h with
  | nil => simp
  | cons hxy _ ih =>
    rw [List.map_cons]
    exact List.Forall₂.cons (by rw [hg]; exact hxy) ih

theorem move_gap_to_codon_end_lengths (cd : List NAPos) :
    (cd.filter (fun na => !na.is_gap) ++ cd.filter
      (fun na => na.is_gap)).length = cd.length := by
  rw [List.length_append]
  have := filter_partition_length (fun na : NAPos => na.is_gap) cd
  omega

theorem group_by_codons_flatten_drop (r s : List NAPos)
    (hlen : r.length = s.length) :
    (group_by_codons r s).1.flatten
      = r.drop ((r.takeWhile (fun na => na.is_gap)).length) := by
  unfold group_by_codons
  dsimp only
  rw [map_flatten_eq]
  unfold gbcChunks
  rw [gbcChunksAux_flatten _ _ le_rfl, dropWhile_eq_drop_len_takeWhile,
    takeWhile_zip_fst_length (fun na => na.is_gap) r s hlen,
    List.map_drop, List.map_fst_zip r s (le_of_eq hlen)]

theorem nonGapSyms_drop_takeWhile (r : List NAPos) :
    nonGapSyms (r.drop ((r.takeWhile (fun na => na.is_gap)).length))
      = nonGapSyms r := by
  have hsplit : r.takeWhile (fun na => na.is_gap)
      ++ r.dropWhile (fun na => na.is_gap) = r :=
    List.takeWhile_append_dropWhile (fun na => na.is_gap) r
  conv_rhs => rw [← hsplit]
  unfold nonGapSyms
  rw [List.filter_append]
  have h1 : (r.takeWhile (fun na => na.is_gap)).filter
      (fun na => !na.is_gap) = [] := by
    rw [List.filter_eq_nil_iff]
    intro a ha
    have := List.mem_takeWhile_imp ha
    simp [this]
  rw [h1, List.nil_append, dropWhile_eq_drop_len_takeWhile]

/-- C9: for every pair of equal-length nucleotide tracks, `realign_gaps`
returns two tracks of equal length, and the non-gap symbols of the output
reference track (full symbols: byte codes, `pos` coordinates, flags, in
order) are exactly those of the input reference track — the optimizer only
inserts, deletes and relocates gap symbols on the reference track. -/
theorem c9_realign_gaps_invariant (refnas seqnas : List NAPos)
    (mgd ws : Nat) (gps : Nat → Int × Nat → Option Int) (iss ise : Bool)
    (hlen : refnas.length = seqnas.length) :
    (realign_gaps refnas seqnas mgd ws gps iss ise).1.length
      = (realign_gaps refnas seqnas mgd ws gps iss ise).2.length ∧
    nonGapSyms (realign_gaps refnas seqnas mgd ws gps iss ise).1
      = nonGapSyms refnas := by
  unfold realign_gaps
  dsimp only
  obtain ⟨hg12, hgf1, _⟩ := gather_gaps_inv refnas seqnas mgd hlen
  set g1 := (gather_gaps refnas seqnas mgd).1 with hgdef1
  set g2 := (gather_gaps refnas seqnas mgd).2 with hgdef2
  obtain ⟨haf2, hafilt⟩ := adjust_gap_placement_inv
    (group_by_codons g1 g2).1 (group_by_codons g1 g2).2 ws gps iss ise
    (group_by_codons_forall2 g1 g2) (group_by_codons_struct g1 g2)
  constructor
  · apply flatten_length_forall2
    unfold move_gap_to_codon_end
    exact forall2_map_right _ _ _ move_gap_to_codon_end_lengths haf2
  · rw [hafilt, group_by_codons_flatten_drop g1 g2 hg12,
      nonGapSyms_drop_takeWhile, hgf1]

/-- C9 (witness): the theorem applied to the tracks `ACG-TA` / `AC--GA`
(equal length 6). -/
theorem c9_realign_gaps_invariant_witness :
    (NAPos.init_from_bytes [65, 67, 71, 45, 84, 65]).length
      = (NAPos.init_from_bytes [65, 67, 45, 45, 71, 65]).length ∧
    ((realign_gaps (NAPos.init_from_bytes [65, 67, 71, 45, 84, 65])
        (NAPos.init_from_bytes [65, 67, 45, 45, 71, 65]) 3 2
        (fun _ _ => none) true true).1.length
      = (realign_gaps (NAPos.init_from_bytes [65, 67, 71, 45, 84, 65])
        (NAPos.init_from_bytes [65, 67, 45, 45, 71, 65]) 3 2
        (fun _ _ => none) true true).2.length ∧
    nonGapSyms (realign_gaps (NAPos.init_from_bytes [65, 67, 71, 45, 84, 65])
        (NAPos.init_from_bytes [65, 67, 45, 45, 71, 65]) 3 2
        (fun _ _ => none) true true).1
      = nonGapSyms (NAPos.init_from_bytes [65, 67, 71, 45, 84, 65])) :=
  ⟨by decide, c9_realign_gaps_invariant _ _ 3 2 (fun _ _ => none) true true
    (by decide)⟩
